import Mathlib

/-!
# Momentomatum (Cuckoo Cycle, proof length 2): a shallow embedding of `momentomatum.h`

The single source file `src/momentomatum.h` is embedded function by function:

* `twice_set` (the two-bit occupancy bitmap): `reset`, `set`, `test`;
* `cuckoo_hash` (the open-addressed ancestry table): `clear`, `set`, `operator[]`,
  `load`, `overloaded`;
* `solution` (the reconstruction scan) and `worker` (the partitioned sweep, one thread).

Machine words are natural numbers.  Memory reached through a pointer is a function from
the element index to the stored word.  The header `cuckoo.h` is not part of the sources:
its build constant `SIZESHIFT` and the macro `UPART_BITS` are fields of `Config`, the
keyed edge generator `sipnode` is a function parameter `g`.  Nodes and nonces (`node_t`,
`nonce_t`) are 32-bit words, table slots 64-bit words; the statements that depend on it
carry the hypothesis `SIZESHIFT <= 32`.
-/

namespace Momentomatum

/-! ## Build-time parameters -/

/-- Build-time constants of a compilation of `momentomatum.h`.  `SIZESHIFT` comes from the
absent header `cuckoo.h`, `NUPARTS` is the overridable macro of line 43 (default 64) and
`UPART_BITS` is used on lines 224 and 236 but defined nowhere in the source file. -/
structure Config where
  SIZESHIFT : Nat
  NUPARTS : Nat
  UPART_BITS : Nat
deriving Repr, DecidableEq

/-- `#define PROOFSIZE 2` (line 6). -/
def PROOFSIZE : Nat := 2

/-- Modelled from the spec: `SIZE`, the total node-space size, a power of two
(`cuckoo.h` is absent; section 6 of the spec: "total node-space size (as a power of two)"). -/
def SIZE (c : Config) : Nat := 2 ^ c.SIZESHIFT

/-- Modelled from the spec: `HALFSIZE`, the size of each of the two equal node sets and the
number of nonces (`cuckoo.h` is absent; section 3 of the spec). -/
def HALFSIZE (c : Config) : Nat := SIZE c / 2

/-- `#define PART_SIZE ((HALFSIZE+NUPARTS-1)/NUPARTS)` (line 45). -/
def PART_SIZE (c : Config) : Nat := (HALFSIZE c + c.NUPARTS - 1) / c.NUPARTS

/-- `#define ONCE_BITS PART_SIZE` (line 47). -/
def ONCE_BITS (c : Config) : Nat := PART_SIZE c

/-- `#define TWICE_WORDS ((2 * ONCE_BITS) / 32)` (line 48). -/
def TWICE_WORDS (c : Config) : Nat := (2 * ONCE_BITS c) / 32

/-- `#define UPART_MASK (NUPARTS - 1)` (line 83). -/
def UPART_MASK (c : Config) : Nat := c.NUPARTS - 1

/-- `#define MAXPATHLEN 2` (line 85). -/
def MAXPATHLEN : Nat := 2

/-- `#define CUCKOO_SIZE (5<<16)` (line 87). -/
def CUCKOO_SIZE : Nat := 5 <<< 16

/-- `#define KEYBITS (64-SIZESHIFT)` (line 89). -/
def KEYBITS (c : Config) : Nat := 64 - c.SIZESHIFT

/-- `#define KEYMASK ((1L << KEYBITS) - 1)` (line 90). -/
def KEYMASK (c : Config) : Nat := (1 <<< KEYBITS c) - 1

/-! ## The occupancy bitmap `twice_set` (non-atomic build) -/

/-- The class `twice_set` (lines 50-81): `bits` points to an array of 32-bit words, two
bits per node.  The array is the function from the word index to the word. -/
structure twice_set where
  bits : Nat → Nat

namespace twice_set

/-- The constructor (lines 54-56): `calloc` hands out zeroed words. -/
def new : twice_set := ⟨fun _ => 0⟩

/-- `reset()` (lines 57-59): `memset` zeroes the `TWICE_WORDS` words of the array. -/
def reset (c : Config) (s : twice_set) : twice_set :=
  ⟨fun i => if i < TWICE_WORDS c then 0 else s.bits i⟩

/-- `set(u)`, non-atomic branch (lines 60-62 and 71-73).  The sum `bit + (old & bit)` is
at most `2^31`, so no 32-bit overflow occurs. -/
def set (s : twice_set) (u : Nat) : twice_set :=
  let idx := u / 16
  let bit := 1 <<< (2 * (u % 16))
  let old := s.bits idx
  ⟨Function.update s.bits idx (old ||| (bit + (old &&& bit)))⟩

/-- `test(u)`, non-atomic branch (lines 74-76): `bits[u/16] >> (2 * (u%16)) & 2`. -/
def test (s : twice_set) (u : Nat) : Nat :=
  (s.bits (u / 16) >>> (2 * (u % 16))) &&& 2

end twice_set

/-! ## The ancestry table `cuckoo_hash` (non-atomic build) -/

/-- The class `cuckoo_hash` (lines 92-147): `cuckoo` points to `CUCKOO_SIZE` 64-bit
slots, `nstored` is a 32-bit counter. -/
structure cuckoo_hash where
  cuckoo : Nat → Nat
  nstored : Nat

/-- The loop increment `(++ui < CUCKOO_SIZE) || (ui = 0)` of lines 109 and 128. -/
def next_slot (ui : Nat) : Nat := if ui + 1 < CUCKOO_SIZE then ui + 1 else 0

namespace cuckoo_hash

/-- The constructor (lines 97-99): the slots come zeroed from `calloc`; `nstored` is not
initialised, `ns0` is the value it happens to hold. -/
def new (ns0 : Nat) : cuckoo_hash := ⟨fun _ => 0, ns0⟩

/-- `clear()` (lines 103-106). -/
def clear (t : cuckoo_hash) : cuckoo_hash :=
  ⟨fun i => if i < CUCKOO_SIZE then 0 else t.cuckoo i, 0⟩

/-- The word `niew` of line 108: `(u64)u << SIZESHIFT | v`. -/
def entry (c : Config) (u v : Nat) : Nat := (u <<< c.SIZESHIFT) % 2 ^ 64 ||| v

/-- The probe loop of `set` (lines 109-125, non-atomic branch), started at slot `ui`.
`fuel` bounds the number of slots inspected; `none` means the bound was reached.
`++nstored` is a 32-bit pre-increment, evaluated only when the slot is empty, and its
value is the truth value of the conjunct. -/
def setLoop (c : Config) (u v : Nat) : Nat → Nat → cuckoo_hash → Option cuckoo_hash
  | 0, _, _ => none
  | fuel + 1, ui, t =>
    let old := t.cuckoo ui
    let ns := if old = 0 then (t.nstored + 1) % 2 ^ 32 else t.nstored
    if (old = 0 ∧ ns ≠ 0) ∨ old >>> c.SIZESHIFT = u &&& KEYMASK c then
      some ⟨Function.update t.cuckoo ui (entry c u v), ns⟩
    else
      setLoop c u v fuel (next_slot ui) ⟨t.cuckoo, ns⟩

/-- `set(u, v)` (lines 107-126).  The loop has no bound in the source; a loop that has
not returned after two rounds over the table never returns (`setLoop_none_forever`). -/
def set (c : Config) (t : cuckoo_hash) (u v : Nat) : Option cuckoo_hash :=
  setLoop c u v (2 * CUCKOO_SIZE) (u % CUCKOO_SIZE) t

/-- The probe loop of `operator[]` (lines 128-139, non-atomic branch). -/
def getLoop (c : Config) (t : cuckoo_hash) (u : Nat) : Nat → Nat → Option Nat
  | 0, _ => none
  | fuel + 1, ui =>
    let cu := t.cuckoo ui
    if cu = 0 then some 0
    else if cu >>> c.SIZESHIFT = u &&& KEYMASK c then some ((cu &&& (SIZE c - 1)) % 2 ^ 32)
    else getLoop c t u fuel (next_slot ui)

/-- `operator[](u)` (lines 127-140).  A loop that has not returned after one round over
the table never returns (`getLoop_none_forever`). -/
def get (c : Config) (t : cuckoo_hash) (u : Nat) : Option Nat :=
  getLoop c t u CUCKOO_SIZE (u % CUCKOO_SIZE)

/-- `load()` (lines 141-143): `(u32)(nstored*100L/CUCKOO_SIZE)`. -/
def load (t : cuckoo_hash) : Nat := (t.nstored * 100 / CUCKOO_SIZE) % 2 ^ 32

/-- `overloaded()` (lines 144-146): `nstored >= (u32)(CUCKOO_SIZE*9L/10L)`. -/
def overloaded (t : cuckoo_hash) : Bool := decide ((CUCKOO_SIZE * 9 / 10) % 2 ^ 32 ≤ t.nstored)

end cuckoo_hash

/-! ## Reconstruction: `solution` -/

/-- Modelled from the spec: `sipedge` of the absent header `cuckoo.h`, the edge of a nonce,
its u-endpoint `sipnode(nonce, 0)` and its v-endpoint `sipnode(nonce, 1)` (section 3 of the
spec: "each nonce maps via the edge generator to exactly one (u-node, v-node) pair").
The keyed generator `sipnode` is the parameter `g`. -/
def sipedge (g : Nat → Nat → Nat) (nonce : Nat) : Nat × Nat := (g nonce 0, g nonce 1)

/-- The loop `while (nu--) cycle.insert(edge(us[(nu+1)&~1], us[nu|1]))` (lines 195-196);
the first argument is `nu` before the decrement, `~1` is the 32-bit word `0xfffffffe`. -/
def cycle_us (us : Nat → Nat) : Nat → List (Nat × Nat) → List (Nat × Nat)
  | 0, cycle => cycle
  | nu + 1, cycle =>
    cycle_us us nu (cycle.insert (us ((nu + 1) &&& (2 ^ 32 - 2)), us (nu ||| 1)))

/-- The loop `while (nv--) cycle.insert(edge(vs[nv|1], vs[(nv+1)&~1]))` (lines 197-198). -/
def cycle_vs (vs : Nat → Nat) : Nat → List (Nat × Nat) → List (Nat × Nat)
  | 0, cycle => cycle
  | nv + 1, cycle =>
    cycle_vs vs nv (cycle.insert (vs (nv ||| 1), vs ((nv + 1) &&& (2 ^ 32 - 2))))

/-- The set `cycle` built on lines 192-198 (a `std::set`: a list without repetitions). -/
def cycle_edges (us : Nat → Nat) (nu : Nat) (vs : Nat → Nat) (nv : Nat) : List (Nat × Nat) :=
  cycle_vs vs nv (cycle_us us nu ([].insert (us 0, vs 0)))

/-- The scan of lines 200-209 over the nonces still to visit: the printed nonces and the
final value of the counter `n` (at most `HALFSIZE` increments, no 32-bit overflow). -/
def solutionLoop (g : Nat → Nat → Nat) :
    List Nat → List (Nat × Nat) → Nat → List Nat × Nat
  | [], _, n => ([], n)
  | nonce :: rest, cycle, n =>
    let e := sipedge g nonce
    if e ∈ cycle then
      let r := solutionLoop g rest (if PROOFSIZE > 2 then cycle.erase e else cycle) (n + 1)
      (nonce :: r.1, r.2)
    else solutionLoop g rest cycle n

/-- `solution(ctx, us, nu, vs, nv)` (lines 191-211): the nonces printed, in the order
printed, and the counter `n` that `assert(n==PROOFSIZE)` tests. -/
def solution (c : Config) (g : Nat → Nat → Nat) (us : Nat → Nat) (nu : Nat)
    (vs : Nat → Nat) (nv : Nat) : List Nat × Nat :=
  solutionLoop g (List.range (HALFSIZE c)) (cycle_edges us nu vs nv) 0

/-! ## The partitioned sweep: `worker`, one thread (`id = 0`, `nthreads = 1`) -/

/-- A path array `us` or `vs` of the worker (line 219) with its two cells. -/
def path2 (x0 x1 : Nat) : Nat → Nat := fun i => if i = 0 then x0 else x1

/-- How the sweep of one worker ends: in `solution` (with the depth and nonce of the
detection, the nonces printed and the counter `n` of the assertion), or after the last
partition without a detection. -/
inductive Outcome where
  | found (depth nonce : Nat) (printed : List Nat) (n : Nat)
  | no_solution
deriving DecidableEq, Repr

/-- The test of `assert(n==PROOFSIZE)` (line 210). -/
def Outcome.assertion : Outcome → Bool
  | Outcome.found _ _ _ n => n == PROOFSIZE
  | Outcome.no_solution => true

/-- Phase A (lines 221-225) over the nonces in the order visited. -/
def phaseA (c : Config) (g : Nat → Nat → Nat) (upart : Nat) (nonces : List Nat)
    (s : twice_set) : twice_set :=
  nonces.foldl (fun s nonce =>
    let u0 := g nonce 0 >>> 1
    if u0 ≠ 0 ∧ u0 &&& UPART_MASK c = upart then s.set (u0 >>> c.UPART_BITS) else s) s

/-- How one round of Phase B ends. -/
inductive RoundEnd where
  | detected (nonce u0 u v0 : Nat)
  | finished (t : cuckoo_hash)

/-- One round of Phase B (lines 229-247) over the nonces still to visit.  `none`: a probe
loop of the table does not return. -/
def round (c : Config) (g : Nat → Nat → Nat) (upart : Nat) (nonleaf : twice_set) :
    List Nat → cuckoo_hash → Option RoundEnd
  | [], t => some (RoundEnd.finished t)
  | nonce :: rest, t =>
    let u0 := g nonce 0
    if u0 = 0 then round c g upart nonleaf rest t
    else
      let u1 := u0 >>> 1
      if u1 &&& UPART_MASK c ≠ upart then round c g upart nonleaf rest t
      else if nonleaf.test (u1 >>> c.UPART_BITS) = 0 then round c g upart nonleaf rest t
      else
        match t.get c u0 with
        | none => none
        | some u =>
          let v0 := g nonce 1
          if u ≠ 0 ∧ u = v0 then some (RoundEnd.detected nonce u0 u v0)
          else
            match t.set c u0 v0 with
            | none => none
            | some t1 => round c g upart nonleaf rest t1

/-- `bfsdepth` (line 227). -/
def bfsdepth (minimalbfs : Bool) : Nat := if minimalbfs then PROOFSIZE / 2 else PROOFSIZE

/-- How the rounds of one partition end. -/
inductive PassEnd where
  | solved (o : Outcome)
  | done (t : cuckoo_hash)

/-- The depth loop of lines 228-253 with `remaining` rounds to go: a detection calls
`solution` with `us = {u0, u}`, `nu = 1`, `vs = {v0, _}`, `nv = 0` (the second cell of
`vs` is never written and, with `nv = 0`, never read) and exits; `load() >= 90` after a
round leaves the loop. -/
def depthLoop (c : Config) (g : Nat → Nat → Nat) (upart : Nat) (nonleaf : twice_set) :
    Nat → Nat → cuckoo_hash → Option PassEnd
  | 0, _, t => some (PassEnd.done t)
  | remaining + 1, depth, t =>
    match round c g upart nonleaf (List.range (HALFSIZE c)) t with
    | none => none
    | some (RoundEnd.detected nonce u0 u v0) =>
      let r := solution c g (path2 u0 u) 1 (path2 v0 0) 0
      some (PassEnd.solved (Outcome.found depth nonce r.1 r.2))
    | some (RoundEnd.finished t1) =>
      if 90 ≤ t1.load then some (PassEnd.done t1)
      else depthLoop c g upart nonleaf remaining (depth + 1) t1

/-- The partition loop of lines 220-259 with `remaining` partitions to go. -/
def partLoop (c : Config) (g : Nat → Nat → Nat) (minimalbfs : Bool) :
    Nat → Nat → twice_set → cuckoo_hash → Option Outcome
  | 0, _, _, _ => some Outcome.no_solution
  | remaining + 1, upart, s, t =>
    let nonleaf := phaseA c g upart (List.range (HALFSIZE c)) s
    match depthLoop c g upart nonleaf (bfsdepth minimalbfs) 0 t with
    | none => none
    | some (PassEnd.solved o) => some o
    | some (PassEnd.done t1) =>
      partLoop c g minimalbfs remaining (upart + 1) (nonleaf.reset c) t1.clear

/-- `worker` (lines 213-261) run by a single thread on the context built by `cuckoo_ctx`
(lines 160-168): a zeroed bitmap and a table with zeroed slots and `nstored = ns0`. -/
def worker (c : Config) (g : Nat → Nat → Nat) (ns0 nparts : Nat) (minimalbfs : Bool) :
    Option Outcome :=
  partLoop c g minimalbfs nparts 0 twice_set.new (cuckoo_hash.new ns0)

/-! ## Vocabulary of the statements about the bitmap -/

/-- The low bit of the pair of node `u`. -/
def pair_lo (s : twice_set) (u : Nat) : Bool := (s.bits (u / 16)).testBit (2 * (u % 16))

/-- The high bit of the pair of node `u`, the one `test` reads. -/
def pair_hi (s : twice_set) (u : Nat) : Bool := (s.bits (u / 16)).testBit (2 * (u % 16) + 1)

/-! ## Builds used in the examples -/

/-- The default build of the source (`NUPARTS = 64`) with `SIZESHIFT = 11`, the smallest
power-of-two size whose partitions fill whole bitmap words (`HALFSIZE = 1024`,
`PART_SIZE = 16`, `TWICE_WORDS = 1`), and `UPART_BITS = 6`. -/
def cfg11 : Config := ⟨11, 64, 6⟩

/-- A build with `SIZESHIFT = 20`: keys that collide on their home slot exist below `SIZE`. -/
def cfg20 : Config := ⟨20, 64, 6⟩

/-! ## Vocabulary of the statements about the table -/

/-- The slot inspected after `k` steps of a probe loop started for key `h`. -/
def probe_pos (h k : Nat) : Nat := (h + k) % CUCKOO_SIZE

/-- The probe loops for key `u` stop at slot `i`: the slot is empty or holds key `u`. -/
def stops (c : Config) (t : cuckoo_hash) (u i : Nat) : Prop :=
  t.cuckoo i = 0 ∨ t.cuckoo i >>> c.SIZESHIFT = u &&& KEYMASK c

/-- Offset `k` is the first one at or after offset `j0` at which the probe sequence of
key `u` reaches a slot where the loops stop. -/
def first_stop (c : Config) (t : cuckoo_hash) (u j0 k : Nat) : Prop :=
  j0 ≤ k ∧ stops c t u (probe_pos u k) ∧ ∀ j, j0 ≤ j → j < k → ¬ stops c t u (probe_pos u j)

/-- Some slot of the table is empty. -/
def has_empty (t : cuckoo_hash) : Prop := ∃ i, i < CUCKOO_SIZE ∧ t.cuckoo i = 0

/-- The number of non-empty slots of the table. -/
def occupied (t : cuckoo_hash) : Nat :=
  ((Finset.range CUCKOO_SIZE).filter (fun i => t.cuckoo i ≠ 0)).card

/-- The invariant of linear probing: the key of every occupied slot is a 32-bit node and
the slot is the first one of the key's probe sequence that is empty or holds the key. -/
def table_inv (c : Config) (t : cuckoo_hash) : Prop :=
  ∀ i, i < CUCKOO_SIZE → t.cuckoo i ≠ 0 →
    t.cuckoo i >>> c.SIZESHIFT < 2 ^ 32 ∧
    ∃ k, k < CUCKOO_SIZE ∧ probe_pos (t.cuckoo i >>> c.SIZESHIFT) k = i ∧
      first_stop c t (t.cuckoo i >>> c.SIZESHIFT) 0 k

/-- Key `u` is stored in some slot of the table. -/
def present (c : Config) (t : cuckoo_hash) (u : Nat) : Prop :=
  ∃ i, i < CUCKOO_SIZE ∧ t.cuckoo i ≠ 0 ∧ t.cuckoo i >>> c.SIZESHIFT = u

/-- The calls `set(u, v)` for the pairs of a list, in order. -/
def set_all (c : Config) : cuckoo_hash → List (Nat × Nat) → Option cuckoo_hash
  | t, [] => some t
  | t, p :: l =>
    match t.set c p.1 p.2 with
    | none => none
    | some t1 => set_all c t1 l

/-- The table states reachable from `clear()` by calls of `set` with non-zero keys
(keys and values are 32-bit nodes). -/
inductive reachable (c : Config) : cuckoo_hash → Prop where
  | clear (t : cuckoo_hash) : reachable c t.clear
  | set (t t1 : cuckoo_hash) (u v : Nat) : reachable c t → 0 < u → u < 2 ^ 32 → v < 2 ^ 32 →
      t.set c u v = some t1 → reachable c t1

/-! ## Vocabulary of the statements about the sweep -/

/-- An edge generator with exactly one 2-cycle in the default build `cfg11`: nonces 17 and
20 both give the edge `(34, 35)`, every other nonce `n` gives `(2n, 2n+1)`. -/
def gen_pair : Nat → Nat → Nat := fun nonce uorv =>
  if nonce = 20 then (if uorv = 0 then 34 else 35)
  else (if uorv = 0 then 2 * nonce else 2 * nonce + 1)

/-- An edge generator under which three nonces, 3, 7 and 9, give the same edge `(6, 7)`;
every other nonce `n` gives `(2n, 2n+1)`. -/
def gen_triple : Nat → Nat → Nat := fun nonce uorv =>
  if nonce = 7 ∨ nonce = 9 then (if uorv = 0 then 6 else 7)
  else (if uorv = 0 then 2 * nonce else 2 * nonce + 1)

/-- The three filters of lines 231-237: the nonce reaches the lookup of line 238 in the
pass of partition `upart`. -/
def survives (c : Config) (g : Nat → Nat → Nat) (upart : Nat) (nonleaf : twice_set)
    (nonce : Nat) : Bool :=
  decide (g nonce 0 ≠ 0) && decide ((g nonce 0 >>> 1) &&& UPART_MASK c = upart) &&
    decide (nonleaf.test ((g nonce 0 >>> 1) >>> c.UPART_BITS) ≠ 0)

/-- The map from u-endpoints to v-endpoints after the surviving nonces of a list have
been inserted in order (a later insert of a key replaces the earlier one); 0 = absent. -/
def write_all (c : Config) (g : Nat → Nat → Nat) (upart : Nat) (nonleaf : twice_set)
    (M : Nat → Nat) (l : List Nat) : Nat → Nat :=
  l.foldl (fun M nonce =>
    if survives c g upart nonleaf nonce then Function.update M (g nonce 0) (g nonce 1) else M) M

/-- The first nonce of a list at which the test of line 241 succeeds, when the lookups
are answered by the map `M`. -/
def first_detect (c : Config) (g : Nat → Nat → Nat) (upart : Nat) (nonleaf : twice_set) :
    List Nat → (Nat → Nat) → Option Nat
  | [], _ => none
  | nonce :: l, M =>
    if survives c g upart nonleaf nonce then
      if M (g nonce 0) ≠ 0 ∧ M (g nonce 0) = g nonce 1 then some nonce
      else first_detect c g upart nonleaf l (Function.update M (g nonce 0) (g nonce 1))
    else first_detect c g upart nonleaf l M

/-- The table `t` represents the map `M`: it satisfies the probing invariant, at most
`cnt` slots are occupied, the counter is at most `B + cnt`, and every lookup returns
the value of `M`. -/
def good_table (c : Config) (B : Nat) (t : cuckoo_hash) (M : Nat → Nat) (cnt : Nat) : Prop :=
  table_inv c t ∧ occupied t ≤ cnt ∧ t.nstored ≤ B + cnt ∧
    ∀ w, w < 2 ^ 32 → t.get c w = some (M w)

/-- The test of line 241 succeeds at nonce `n` of a round that starts from the map `M0`. -/
def detects (c : Config) (g : Nat → Nat → Nat) (q : Nat) (s : twice_set) (M0 : Nat → Nat)
    (n : Nat) : Prop :=
  survives c g q s n = true ∧
    write_all c g q s M0 (List.range n) (g n 0) ≠ 0 ∧
    write_all c g q s M0 (List.range n) (g n 0) = g n 1

/-- The bitmap index marked by a nonce in Phase A of partition `q` (lines 222-224), if
the nonce passes the two filters. -/
def marks (c : Config) (g : Nat → Nat → Nat) (q : Nat) (nonce : Nat) : Option Nat :=
  if g nonce 0 >>> 1 ≠ 0 ∧ (g nonce 0 >>> 1) &&& UPART_MASK c = q then
    some ((g nonce 0 >>> 1) >>> c.UPART_BITS)
  else none

/-- Every word of the bitmap is zero. -/
def all_zero (s : twice_set) : Prop := ∀ i, s.bits i = 0

/-- The generator admits exactly one 2-cycle over the nonce range: `a < b` are the only
two distinct nonces with the same edge. -/
def one_cycle (c : Config) (g : Nat → Nat → Nat) (a b : Nat) : Prop :=
  a < b ∧ b < HALFSIZE c ∧ sipedge g a = sipedge g b ∧
    ∀ a1 b1, a1 < b1 → b1 < HALFSIZE c → sipedge g a1 = sipedge g b1 → a1 = a ∧ b1 = b

/-- Every slot of the table is empty. -/
def zero_slots (t : cuckoo_hash) : Prop := ∀ i, i < CUCKOO_SIZE → t.cuckoo i = 0

/-- The default build with `SIZESHIFT = 27`: `HALFSIZE = 2^26` nonces, partitions of
`2^20` nodes, more than the table has slots. -/
def cfg27 : Config := ⟨27, 64, 6⟩

/-- An edge generator under which the nonces `2j` and `2j+1`, for `j < 300000`, share the
u-endpoint `128*(j+1)` of partition 0 and have the distinct v-endpoints `4j+1` and `4j+3`;
the u-endpoint of every later nonce is 0. -/
def gen_fill : Nat → Nat → Nat := fun nonce uorv =>
  if uorv = 0 then (if nonce < 600000 then 128 * (nonce / 2 + 1) else 0) else 2 * nonce + 1

/-- The table states reachable from `clear()` by the `set` calls the sweep issues: the
key is the non-zero u-endpoint of a nonce below `HALFSIZE`, the value its v-endpoint. -/
inductive sweep_state (c : Config) (g : Nat → Nat → Nat) : cuckoo_hash → Prop where
  | clear (t0 : cuckoo_hash) : sweep_state c g t0.clear
  | set (t t1 : cuckoo_hash) (nonce : Nat) : sweep_state c g t → nonce < HALFSIZE c →
      g nonce 0 ≠ 0 → t.set c (g nonce 0) (g nonce 1) = some t1 → sweep_state c g t1

/-- The states in which the partition loop of the worker starts a pass: the loop enters
pass 0 on the bitmap `s0` and table `t0`, and enters pass `upart + 1` after the depth loop
of pass `upart` ended without a detection, on the bitmap after `reset()` and the table
after `clear()` (lines 254-258). -/
inductive pass_start (c : Config) (g : Nat → Nat → Nat) (minimalbfs : Bool) (s0 : twice_set)
    (t0 : cuckoo_hash) : Nat → twice_set → cuckoo_hash → Prop where
  | first : pass_start c g minimalbfs s0 t0 0 s0 t0
  | next (upart : Nat) (s : twice_set) (t t1 : cuckoo_hash) :
      pass_start c g minimalbfs s0 t0 upart s t →
      depthLoop c g upart (phaseA c g upart (List.range (HALFSIZE c)) s)
        (bfsdepth minimalbfs) 0 t = some (PassEnd.done t1) →
      pass_start c g minimalbfs s0 t0 (upart + 1)
        ((phaseA c g upart (List.range (HALFSIZE c)) s).reset c) t1.clear

/-- The table states reachable from `clear()` by calls `set(u, v)` whose key is a non-zero
node and whose value is a node (`0 < u < SIZE`, `v < SIZE`), the calls the sweep makes. -/
inductive reachable_nodes (c : Config) : cuckoo_hash → Prop where
  | clear (t : cuckoo_hash) : reachable_nodes c t.clear
  | set (t t1 : cuckoo_hash) (u v : Nat) : reachable_nodes c t → 0 < u → u < SIZE c →
      v < SIZE c → t.set c u v = some t1 → reachable_nodes c t1

/-- A table of the build `cfg20` with the single empty slot 5: slot `i` holds the key
`i + CUCKOO_SIZE`, whose home slot it is, with value 1; the counter holds `0xffffffff`. -/
def full_but_one : cuckoo_hash :=
  ⟨fun i => if i = 5 then 0 else cuckoo_hash.entry cfg20 (i + CUCKOO_SIZE) 1, 4294967295⟩

/-- An edge generator whose only non-zero u-endpoint, 128 of partition 0, belongs to the
nonces 3, 5 and 7, with v-endpoints 7, 11 and 7: the 2-cycle of nonces 3 and 7 is detected
in the second round of the pass. -/
def gen_late : Nat → Nat → Nat := fun nonce uorv =>
  if uorv = 0 then (if nonce = 3 ∨ nonce = 5 ∨ nonce = 7 then 128 else 0)
  else (if nonce = 7 then 7 else 2 * nonce + 1)

/-! ## Bit-level facts about `twice_set` -/

/-- The word written by `set`: the old word with one more bit, the low bit of the
node's pair if it was clear and the high bit otherwise. -/
theorem set_word (old p : Nat) :
    old ||| (1 <<< p + (old &&& 1 <<< p)) = old ||| 2 ^ (p + (old.testBit p).toNat) := by
  rw [Nat.one_shiftLeft, Nat.and_two_pow]
  cases h : old.testBit p
  · simp
  · simp [pow_succ, mul_two]

theorem twice_set_set_bits (s : twice_set) (u i : Nat) :
    (s.set u).bits i =
      if i = u / 16 then
        s.bits i ||| 2 ^ (2 * (u % 16) + ((s.bits i).testBit (2 * (u % 16))).toNat)
      else s.bits i := by
  unfold twice_set.set
  by_cases h : i = u / 16
  · subst h
    simp [set_word]
  · simp [Function.update, h]

/-- The bit of node `u` inspected by `test`. -/
theorem twice_set_test_ne_zero_iff (s : twice_set) (u : Nat) :
    s.test u ≠ 0 ↔ (s.bits (u / 16)).testBit (2 * (u % 16) + 1) = true := by
  unfold twice_set.test
  have h2 : (2 : Nat) = 2 ^ 1 := by norm_num
  rw [h2, Nat.and_two_pow, Nat.testBit_shiftRight]
  cases (s.bits (u / 16)).testBit (2 * (u % 16) + 1) <;> simp

theorem pair_lo_set_self (s : twice_set) (u : Nat) : pair_lo (s.set u) u = true := by
  unfold pair_lo
  rw [twice_set_set_bits, if_pos rfl, Nat.testBit_or, Nat.testBit_two_pow]
  cases h : (s.bits (u / 16)).testBit (2 * (u % 16)) <;> simp

theorem pair_hi_set_self (s : twice_set) (u : Nat) :
    pair_hi (s.set u) u = (pair_hi s u || pair_lo s u) := by
  unfold pair_hi pair_lo
  rw [twice_set_set_bits, if_pos rfl, Nat.testBit_or, Nat.testBit_two_pow]
  cases h : (s.bits (u / 16)).testBit (2 * (u % 16)) <;> simp

theorem pair_set_other (s : twice_set) (w u : Nat) (h : w ≠ u) :
    pair_lo (s.set w) u = pair_lo s u ∧ pair_hi (s.set w) u = pair_hi s u := by
  unfold pair_lo pair_hi
  rw [twice_set_set_bits]
  by_cases hw : u / 16 = w / 16
  · rw [if_pos hw, Nat.testBit_or, Nat.testBit_or, Nat.testBit_two_pow, Nat.testBit_two_pow]
    have hne : w % 16 ≠ u % 16 := by omega
    have hb : ((s.bits (u / 16)).testBit (2 * (w % 16))).toNat ≤ 1 := Bool.toNat_le _
    constructor
    · have : ¬ (2 * (w % 16) + ((s.bits (u / 16)).testBit (2 * (w % 16))).toNat
          = 2 * (u % 16)) := by omega
      simp [this]
    · have : ¬ (2 * (w % 16) + ((s.bits (u / 16)).testBit (2 * (w % 16))).toNat
          = 2 * (u % 16) + 1) := by omega
      simp [this]
  · rw [if_neg hw]
    exact ⟨rfl, rfl⟩

theorem twice_set_ext (s t : twice_set) (h : ∀ i, s.bits i = t.bits i) : s = t := by
  cases s; cases t
  congr
  exact funext h

theorem pair_foldl (us : List Nat) (u : Nat) (s : twice_set) :
    (pair_lo (us.foldl twice_set.set s) u = true ↔ (pair_lo s u = true ∨ 1 ≤ us.count u)) ∧
    (pair_hi (us.foldl twice_set.set s) u = true ↔
      (pair_hi s u = true ∨ (pair_lo s u = true ∧ 1 ≤ us.count u) ∨ 2 ≤ us.count u)) := by
  induction us generalizing s with
  | nil => simp
  | cons w us ih =>
    rw [List.foldl_cons]
    obtain ⟨ih1, ih2⟩ := ih (s.set w)
    rw [ih1, ih2]
    by_cases hw : w = u
    · subst hw
      rw [pair_lo_set_self, pair_hi_set_self, List.count_cons_self]
      generalize List.count w us = n
      cases pair_lo s w <;> cases pair_hi s w
      all_goals
        simp only [Bool.or_false, Bool.or_true, Bool.false_eq_true, true_or, false_or,
          or_true, true_and, false_and, or_false, true_iff, iff_true, and_true, true_and,
          Nat.le_add_left]
      all_goals omega
    · obtain ⟨h1, h2⟩ := pair_set_other s w u hw
      rw [h1, h2, List.count_cons_of_ne (Ne.symm hw)]
      exact ⟨Iff.rfl, Iff.rfl⟩

theorem pair_reset (c : Config) (s : twice_set) (u : Nat) (hu : u / 16 < TWICE_WORDS c) :
    pair_lo (s.reset c) u = false ∧ pair_hi (s.reset c) u = false := by
  unfold pair_lo pair_hi twice_set.reset
  simp [hu]

theorem word_index_lt (c : Config) (hc : 16 ∣ PART_SIZE c) (u : Nat) (hu : u < PART_SIZE c) :
    u / 16 < TWICE_WORDS c := by
  unfold TWICE_WORDS ONCE_BITS
  obtain ⟨k, hk⟩ := hc
  rw [hk] at hu ⊢
  omega

theorem twice_set_set_saturated (s : twice_set) (u : Nat) (hlo : pair_lo s u = true)
    (hhi : pair_hi s u = true) : s.set u = s := by
  apply twice_set_ext
  intro i
  rw [twice_set_set_bits]
  split
  · next h =>
    subst h
    unfold pair_lo at hlo
    unfold pair_hi at hhi
    rw [hlo, Bool.toNat_true]
    apply Nat.eq_of_testBit_eq
    intro j
    rw [Nat.testBit_or, Nat.testBit_two_pow]
    by_cases hj : 2 * (u % 16) + 1 = j
    · subst hj
      simp [hhi]
    · simp [hj]
  · rfl

theorem twice_set_test_set_other (s : twice_set) (w u : Nat) (h : w ≠ u) :
    (s.set w).test u = s.test u := by
  have h1 := (pair_set_other s w u h).2
  have key : ∀ s : twice_set, s.test u = if pair_hi s u then 2 else 0 := by
    intro s
    unfold twice_set.test pair_hi
    have h2 : (2 : Nat) = 2 ^ 1 := by norm_num
    rw [h2, Nat.and_two_pow, Nat.testBit_shiftRight]
    cases (s.bits (u / 16)).testBit (2 * (u % 16) + 1) <;> simp
  rw [key, key, h1]

/-- C1. Occupancy bitmap counting (non-atomic build).  In a build whose `PART_SIZE` is a
multiple of 16 (every power-of-two `HALFSIZE >= 16*NUPARTS`), start from a reset bitmap
and mark the in-range nodes of the list `us` in order.  Then for an in-range node `u`:
`test(u)` is non-zero exactly when `u` occurs at least twice in `us`; once `u` has been
marked twice a further `set(u)` leaves the bitmap unchanged (saturation); and marking a
node other than `u` never changes `test(u)`. -/
theorem twice_set_counts_twice (c : Config) (hc : 16 ∣ PART_SIZE c) (s0 : twice_set)
    (us : List Nat) (_hus : ∀ x ∈ us, x < PART_SIZE c) (u : Nat) (hu : u < PART_SIZE c) :
    ((us.foldl twice_set.set (s0.reset c)).test u ≠ 0 ↔ 2 ≤ us.count u) ∧
    (2 ≤ us.count u →
      (us.foldl twice_set.set (s0.reset c)).set u = us.foldl twice_set.set (s0.reset c)) ∧
    (∀ w, w < PART_SIZE c → w ≠ u →
      ((us.foldl twice_set.set (s0.reset c)).set w).test u
        = (us.foldl twice_set.set (s0.reset c)).test u) := by
  obtain ⟨r1, r2⟩ := pair_reset c s0 u (word_index_lt c hc u hu)
  obtain ⟨f1, f2⟩ := pair_foldl us u (s0.reset c)
  simp only [r1, r2] at f1 f2
  refine ⟨?_, ?_, ?_⟩
  · rw [twice_set_test_ne_zero_iff]
    change pair_hi _ u = true ↔ _
    rw [f2]
    simp
  · intro h2
    apply twice_set_set_saturated
    · rw [f1]; right; omega
    · rw [f2]; right; right; exact h2
  · intro w _ hw
    exact twice_set_test_set_other _ w u hw

theorem twice_set_counts_twice_witness :
    16 ∣ PART_SIZE cfg11 ∧ (∀ x ∈ [3, 5, 3], x < PART_SIZE cfg11) ∧ 3 < PART_SIZE cfg11 ∧
    (([3, 5, 3].foldl twice_set.set (twice_set.new.reset cfg11)).test 3 ≠ 0 ↔
      2 ≤ [3, 5, 3].count 3) :=
  ⟨by decide, by decide, by decide,
    (twice_set_counts_twice cfg11 (by decide) twice_set.new [3, 5, 3] (by decide) 3
      (by decide)).1⟩

theorem set_pos_ne (x a b : Nat) (h : a % 16 ≠ b % 16) (d : Nat) (hd : d ≤ 1) :
    (x ||| 2 ^ (2 * (a % 16) + d)).testBit (2 * (b % 16)) = x.testBit (2 * (b % 16)) := by
  rw [Nat.testBit_or, Nat.testBit_two_pow]
  have : ¬ (2 * (a % 16) + d = 2 * (b % 16)) := by omega
  simp [this]

theorem twice_set_set_set_comm (s : twice_set) (a b : Nat) :
    (s.set a).set b = (s.set b).set a := by
  by_cases hab : a = b
  · rw [hab]
  apply twice_set_ext
  intro i
  rw [twice_set_set_bits, twice_set_set_bits, twice_set_set_bits (s.set b),
    twice_set_set_bits s b]
  by_cases h1 : i = a / 16 <;> by_cases h2 : i = b / 16
  · have hne : a % 16 ≠ b % 16 := by omega
    simp only [if_pos h1, if_pos h2]
    rw [set_pos_ne _ a b hne _ (Bool.toNat_le _),
      set_pos_ne _ b a (Ne.symm hne) _ (Bool.toNat_le _),
      Nat.lor_assoc, Nat.lor_assoc, Nat.lor_comm (2 ^ _)]
  · simp only [if_pos h1, if_neg h2]
  · simp only [if_neg h1, if_pos h2]
  · simp only [if_neg h1, if_neg h2]

/-- C10. Bitmap order-insensitivity.  For every bitmap state and all nodes `a` and `b`,
`set(a)` then `set(b)` leaves exactly the same words as `set(b)` then `set(a)`;
consequently marking the nodes of a list gives the same bitmap as marking any
rearrangement of it, and the bitmap after Phase A is the same for every order in which
the nonces are processed. -/
theorem twice_set_order_insensitive (c : Config) (g : Nat → Nat → Nat) (upart : Nat)
    (s : twice_set) :
    (∀ a b : Nat, (s.set a).set b = (s.set b).set a) ∧
    (∀ l1 l2 : List Nat, l1.Perm l2 → l1.foldl twice_set.set s = l2.foldl twice_set.set s) ∧
    (∀ nonces1 nonces2 : List Nat, nonces1.Perm nonces2 →
      phaseA c g upart nonces1 s = phaseA c g upart nonces2 s) := by
  refine ⟨twice_set_set_set_comm s, ?_, ?_⟩
  · intro l1 l2 h
    exact h.foldl_eq' (fun a _ b _ s => twice_set_set_set_comm s a b) s
  · intro n1 n2 h
    unfold phaseA
    refine h.foldl_eq' ?_ s
    intro a _ b _ s
    dsimp only
    split <;> split <;> first | rfl | exact twice_set_set_set_comm _ _ _

theorem twice_set_order_insensitive_witness :
    [3, 5, 3].Perm [5, 3, 3] ∧
    [3, 5, 3].foldl twice_set.set twice_set.new = [5, 3, 3].foldl twice_set.set twice_set.new :=
  ⟨List.Perm.swap 5 3 [3],
    (twice_set_order_insensitive cfg11 (fun _ _ => 0) 0 twice_set.new).2.1 [3, 5, 3] [5, 3, 3]
      (List.Perm.swap 5 3 [3])⟩

/-! ## Facts about the encoding of table entries -/

theorem CUCKOO_SIZE_eq : CUCKOO_SIZE = 327680 := by decide

theorem CUCKOO_SIZE_pos : 0 < CUCKOO_SIZE := by decide

theorem and_KEYMASK (c : Config) (hS : c.SIZESHIFT ≤ 32) (u : Nat) (hu : u < 2 ^ 32) :
    u &&& KEYMASK c = u := by
  unfold KEYMASK KEYBITS
  rw [Nat.one_shiftLeft, Nat.and_pow_two_sub_one_eq_mod]
  apply Nat.mod_eq_of_lt
  calc u < 2 ^ 32 := hu
    _ ≤ 2 ^ (64 - c.SIZESHIFT) := Nat.pow_le_pow_right (by norm_num) (by omega)

theorem entry_eq (c : Config) (hS : c.SIZESHIFT ≤ 32) (u v : Nat) (hu : u < 2 ^ 32)
    (hv : v < SIZE c) : cuckoo_hash.entry c u v = 2 ^ c.SIZESHIFT * u + v := by
  unfold cuckoo_hash.entry
  unfold SIZE at hv
  have h64 : u <<< c.SIZESHIFT < 2 ^ 64 := by
    rw [Nat.shiftLeft_eq]
    calc u * 2 ^ c.SIZESHIFT < 2 ^ 32 * 2 ^ c.SIZESHIFT :=
          Nat.mul_lt_mul_of_pos_right hu (Nat.pow_pos (by norm_num))
      _ = 2 ^ (32 + c.SIZESHIFT) := by rw [Nat.pow_add]
      _ ≤ 2 ^ 64 := Nat.pow_le_pow_right (by norm_num) (by omega)
  rw [Nat.mod_eq_of_lt h64, Nat.shiftLeft_eq, Nat.mul_comm, Nat.mul_add_lt_is_or hv]

theorem entry_key (c : Config) (hS : c.SIZESHIFT ≤ 32) (u v : Nat) (hu : u < 2 ^ 32)
    (hv : v < SIZE c) : cuckoo_hash.entry c u v >>> c.SIZESHIFT = u := by
  rw [entry_eq c hS u v hu hv, Nat.shiftRight_eq_div_pow]
  unfold SIZE at hv
  rw [Nat.mul_add_div (Nat.pow_pos (by norm_num)), Nat.div_eq_of_lt hv, Nat.add_zero]

theorem entry_val (c : Config) (hS : c.SIZESHIFT ≤ 32) (u v : Nat) (hu : u < 2 ^ 32)
    (hv : v < SIZE c) : (cuckoo_hash.entry c u v &&& (SIZE c - 1)) % 2 ^ 32 = v := by
  rw [entry_eq c hS u v hu hv]
  unfold SIZE at hv ⊢
  rw [Nat.and_pow_two_sub_one_eq_mod, Nat.mul_add_mod, Nat.mod_eq_of_lt hv]
  apply Nat.mod_eq_of_lt
  calc v < 2 ^ c.SIZESHIFT := hv
    _ ≤ 2 ^ 32 := Nat.pow_le_pow_right (by norm_num) hS

theorem entry_ne_zero (c : Config) (hS : c.SIZESHIFT ≤ 32) (u v : Nat) (hu : u < 2 ^ 32)
    (hv : v < SIZE c) (h0 : u ≠ 0) : cuckoo_hash.entry c u v ≠ 0 := by
  intro h
  have := entry_key c hS u v hu hv
  rw [h] at this
  simp at this
  exact h0 this.symm

theorem SIZE_le (c : Config) (hS : c.SIZESHIFT ≤ 32) : SIZE c ≤ 2 ^ 32 :=
  Nat.pow_le_pow_right (by norm_num) hS

/-! ## Facts about probe sequences -/

theorem probe_pos_lt (h k : Nat) : probe_pos h k < CUCKOO_SIZE :=
  Nat.mod_lt _ CUCKOO_SIZE_pos

theorem next_slot_probe_pos (h k : Nat) : next_slot (probe_pos h k) = probe_pos h (k + 1) := by
  unfold next_slot probe_pos
  rw [CUCKOO_SIZE_eq]
  split <;> omega

theorem probe_pos_zero (h : Nat) : probe_pos h 0 = h % CUCKOO_SIZE := rfl

theorem probe_pos_inj (h j k : Nat) (hj : j < CUCKOO_SIZE) (hk : k < CUCKOO_SIZE)
    (e : probe_pos h j = probe_pos h k) : j = k := by
  unfold probe_pos at e
  rw [CUCKOO_SIZE_eq] at e hj hk
  omega

theorem probe_pos_surj (h j0 i : Nat) (hi : i < CUCKOO_SIZE) :
    ∃ k, j0 ≤ k ∧ k < j0 + CUCKOO_SIZE ∧ probe_pos h k = i := by
  refine ⟨j0 + (i + CUCKOO_SIZE - (h + j0) % CUCKOO_SIZE) % CUCKOO_SIZE, by omega, ?_, ?_⟩
  · have := Nat.mod_lt (i + CUCKOO_SIZE - (h + j0) % CUCKOO_SIZE) CUCKOO_SIZE_pos
    omega
  · unfold probe_pos
    rw [CUCKOO_SIZE_eq] at hi ⊢
    omega

theorem first_stop_exists (c : Config) (t : cuckoo_hash) (u : Nat)
    (h : ∃ i, i < CUCKOO_SIZE ∧ stops c t u i) (j0 : Nat) :
    ∃ k, k < j0 + CUCKOO_SIZE ∧ first_stop c t u j0 k := by
  classical
  obtain ⟨i, hi, hs⟩ := h
  obtain ⟨k0, h1, h2, h3⟩ := probe_pos_surj u j0 i hi
  have hex : ∃ k, j0 ≤ k ∧ stops c t u (probe_pos u k) := ⟨k0, h1, by rw [h3]; exact hs⟩
  refine ⟨Nat.find hex, ?_, (Nat.find_spec hex).1, (Nat.find_spec hex).2, ?_⟩
  · have := Nat.find_min' hex ⟨h1, by rw [h3]; exact hs⟩
    omega
  · intro j hj0 hj hst
    exact Nat.find_min hex hj ⟨hj0, hst⟩

theorem first_stop_unique (c : Config) (t : cuckoo_hash) (u j0 k1 k2 : Nat)
    (h1 : first_stop c t u j0 k1) (h2 : first_stop c t u j0 k2) : k1 = k2 := by
  rcases Nat.lt_trichotomy k1 k2 with h | h | h
  · exact absurd h1.2.1 (h2.2.2 k1 h1.1 h)
  · exact h
  · exact absurd h2.2.1 (h1.2.2 k2 h2.1 h)

/-! ## Facts about the probe loops -/

theorem getLoop_skip (c : Config) (t : cuckoo_hash) (u : Nat) :
    ∀ n j0 fuel, (∀ j, j0 ≤ j → j < j0 + n → ¬ stops c t u (probe_pos u j)) →
      cuckoo_hash.getLoop c t u (n + fuel) (probe_pos u j0)
        = cuckoo_hash.getLoop c t u fuel (probe_pos u (j0 + n)) := by
  intro n
  induction n with
  | zero => intro j0 fuel _; simp
  | succ n ih =>
    intro j0 fuel h
    have h0 := h j0 (le_refl _) (by omega)
    unfold stops at h0
    push_neg at h0
    have e : n + 1 + fuel = (n + fuel) + 1 := by omega
    rw [e, cuckoo_hash.getLoop]
    simp only [h0.1, h0.2, if_false]
    rw [next_slot_probe_pos, ih (j0 + 1) fuel (fun j hj1 hj2 => h j (by omega) (by omega))]
    congr 2
    omega

theorem getLoop_stop (c : Config) (t : cuckoo_hash) (u i fuel : Nat) (h : stops c t u i) :
    cuckoo_hash.getLoop c t u (fuel + 1) i
      = some (if t.cuckoo i = 0 then 0 else (t.cuckoo i &&& (SIZE c - 1)) % 2 ^ 32) := by
  rw [cuckoo_hash.getLoop]
  by_cases h0 : t.cuckoo i = 0
  · simp [h0]
  · rcases h with h | h
    · exact absurd h h0
    · simp [h0, h]

theorem get_of_first_stop (c : Config) (t : cuckoo_hash) (u k : Nat) (hk : k < CUCKOO_SIZE)
    (h : first_stop c t u 0 k) :
    t.get c u = some (if t.cuckoo (probe_pos u k) = 0 then 0
      else (t.cuckoo (probe_pos u k) &&& (SIZE c - 1)) % 2 ^ 32) := by
  unfold cuckoo_hash.get
  obtain ⟨f, hf⟩ : ∃ f, CUCKOO_SIZE = k + (f + 1) := ⟨CUCKOO_SIZE - k - 1, by omega⟩
  rw [← probe_pos_zero, hf, getLoop_skip c t u k 0 (f + 1) (fun j h1 h2 => h.2.2 j h1 (by omega)),
    Nat.zero_add, getLoop_stop c t u _ f h.2.1]

theorem setLoop_skip (c : Config) (t : cuckoo_hash) (u v : Nat) :
    ∀ n j0 fuel, (∀ j, j0 ≤ j → j < j0 + n → ¬ stops c t u (probe_pos u j)) →
      cuckoo_hash.setLoop c u v (n + fuel) (probe_pos u j0) t
        = cuckoo_hash.setLoop c u v fuel (probe_pos u (j0 + n)) t := by
  intro n
  induction n with
  | zero => intro j0 fuel _; simp
  | succ n ih =>
    intro j0 fuel h
    have h0 := h j0 (le_refl _) (by omega)
    unfold stops at h0
    push_neg at h0
    have e : n + 1 + fuel = (n + fuel) + 1 := by omega
    rw [e, cuckoo_hash.setLoop]
    simp only [h0.1, h0.2, if_false, false_and, or_self]
    rw [next_slot_probe_pos]
    have := ih (j0 + 1) fuel (fun j hj1 hj2 => h j (by omega) (by omega))
    rw [this]
    congr 2
    omega

theorem setLoop_stop (c : Config) (t : cuckoo_hash) (u v i fuel : Nat) (h : stops c t u i)
    (hnw : t.cuckoo i ≠ 0 ∨ (t.nstored + 1) % 2 ^ 32 ≠ 0) :
    cuckoo_hash.setLoop c u v (fuel + 1) i t
      = some ⟨Function.update t.cuckoo i (cuckoo_hash.entry c u v),
          if t.cuckoo i = 0 then (t.nstored + 1) % 2 ^ 32 else t.nstored⟩ := by
  rw [cuckoo_hash.setLoop]
  by_cases h0 : t.cuckoo i = 0
  · have hn : (t.nstored + 1) % 2 ^ 32 ≠ 0 := by
      rcases hnw with hnw | hnw
      · exact absurd h0 hnw
      · exact hnw
    norm_num at hn
    simp [h0, hn]
  · rcases h with h | h
    · exact absurd h h0
    · simp [h0, h]

theorem setLoop_wrap (c : Config) (t : cuckoo_hash) (u v i fuel : Nat) (h0 : t.cuckoo i = 0)
    (hw : (t.nstored + 1) % 2 ^ 32 = 0) :
    cuckoo_hash.setLoop c u v (fuel + 1) i t
      = if 0 = u &&& KEYMASK c then
          some ⟨Function.update t.cuckoo i (cuckoo_hash.entry c u v), 0⟩
        else cuckoo_hash.setLoop c u v fuel (next_slot i) ⟨t.cuckoo, 0⟩ := by
  rw [cuckoo_hash.setLoop]
  norm_num at hw
  simp [h0, hw]

theorem set_of_first_stop (c : Config) (t : cuckoo_hash) (u v k : Nat) (hk : k < CUCKOO_SIZE)
    (h : first_stop c t u 0 k)
    (hnw : t.cuckoo (probe_pos u k) ≠ 0 ∨ (t.nstored + 1) % 2 ^ 32 ≠ 0) :
    t.set c u v = some ⟨Function.update t.cuckoo (probe_pos u k) (cuckoo_hash.entry c u v),
      if t.cuckoo (probe_pos u k) = 0 then (t.nstored + 1) % 2 ^ 32 else t.nstored⟩ := by
  unfold cuckoo_hash.set
  obtain ⟨f, hf⟩ : ∃ f, 2 * CUCKOO_SIZE = k + (f + 1) := ⟨2 * CUCKOO_SIZE - k - 1, by omega⟩
  rw [← probe_pos_zero, hf,
    setLoop_skip c t u v k 0 (f + 1) (fun j h1 h2 => h.2.2 j h1 (by omega)),
    Nat.zero_add, setLoop_stop c t u v _ f h.2.1 hnw]

theorem stops_update_ne (c : Config) (t t1 : cuckoo_hash) (q e : Nat)
    (ht : t1.cuckoo = Function.update t.cuckoo q e) (u i : Nat) (hi : i ≠ q) :
    stops c t1 u i ↔ stops c t u i := by
  unfold stops
  rw [ht, Function.update_noteq hi]

theorem stops_update_self (c : Config) (t t1 : cuckoo_hash) (q e : Nat)
    (ht : t1.cuckoo = Function.update t.cuckoo q e) (u : Nat)
    (he : e >>> c.SIZESHIFT = u &&& KEYMASK c) : stops c t1 u q := by
  unfold stops
  rw [ht, Function.update_same]
  exact Or.inr he

theorem first_stop_update (c : Config) (t t1 : cuckoo_hash) (u k e : Nat)
    (hk : k < CUCKOO_SIZE) (h : first_stop c t u 0 k)
    (ht : t1.cuckoo = Function.update t.cuckoo (probe_pos u k) e)
    (he : e >>> c.SIZESHIFT = u &&& KEYMASK c) : first_stop c t1 u 0 k := by
  refine ⟨Nat.zero_le _, stops_update_self c t t1 _ e ht u he, ?_⟩
  intro j hj0 hj
  have hne : probe_pos u j ≠ probe_pos u k := by
    intro e1
    have := probe_pos_inj u j k (by omega) hk e1
    omega
  rw [stops_update_ne c t t1 _ e ht u _ hne]
  exact h.2.2 j hj0 hj

/-- What `set` does when no wrap of the counter interferes: it writes the entry into the
first slot of the probe sequence that is empty or holds the key, and a lookup of the key
then returns the value. -/
theorem set_get_of_first_stop (c : Config) (hS : c.SIZESHIFT ≤ 32) (t : cuckoo_hash)
    (u v k : Nat) (hu0 : u ≠ 0) (hu : u < 2 ^ 32) (hv : v < SIZE c) (hk : k < CUCKOO_SIZE)
    (h : first_stop c t u 0 k)
    (hnw : t.cuckoo (probe_pos u k) ≠ 0 ∨ (t.nstored + 1) % 2 ^ 32 ≠ 0) :
    ∃ t1, t.set c u v = some t1 ∧
      t1.cuckoo = Function.update t.cuckoo (probe_pos u k) (cuckoo_hash.entry c u v) ∧
      t1.nstored = (if t.cuckoo (probe_pos u k) = 0 then (t.nstored + 1) % 2 ^ 32
        else t.nstored) ∧
      first_stop c t1 u 0 k ∧ t1.get c u = some v := by
  refine ⟨_, set_of_first_stop c t u v k hk h hnw, rfl, rfl, ?_, ?_⟩
  · exact first_stop_update c t _ u k _ hk h rfl
      (by rw [entry_key c hS u v hu hv, and_KEYMASK c hS u hu])
  · rw [get_of_first_stop c _ u k hk (first_stop_update c t _ u k _ hk h rfl
      (by rw [entry_key c hS u v hu hv, and_KEYMASK c hS u hu]))]
    simp only [Function.update_same]
    rw [if_neg (entry_ne_zero c hS u v hu hv hu0), entry_val c hS u v hu hv]

/-- `set` returns whenever some slot is empty or holds the key, and writes the entry into
one slot: the first one at which the probe loops stop, unless the 32-bit counter wrapped
to zero on the way, in which case the counter is 0 or 1 afterwards. -/
theorem set_total (c : Config) (t : cuckoo_hash) (u v : Nat)
    (h : ∃ i, i < CUCKOO_SIZE ∧ stops c t u i) :
    ∃ t1 q, q < CUCKOO_SIZE ∧ t.set c u v = some t1 ∧
      t1.cuckoo = Function.update t.cuckoo q (cuckoo_hash.entry c u v) ∧
      ((∃ k, k < CUCKOO_SIZE ∧ first_stop c t u 0 k ∧ q = probe_pos u k ∧
          (t.cuckoo q ≠ 0 ∨ (t.nstored + 1) % 2 ^ 32 ≠ 0) ∧
          t1.nstored = (if t.cuckoo q = 0 then (t.nstored + 1) % 2 ^ 32 else t.nstored)) ∨
        ((t.nstored + 1) % 2 ^ 32 = 0 ∧ t1.nstored ≤ 1)) := by
  obtain ⟨k, hk, hfs⟩ := first_stop_exists c t u h 0
  rw [Nat.zero_add] at hk
  by_cases hnw : t.cuckoo (probe_pos u k) ≠ 0 ∨ (t.nstored + 1) % 2 ^ 32 ≠ 0
  · exact ⟨_, probe_pos u k, probe_pos_lt _ _, set_of_first_stop c t u v k hk hfs hnw, rfl,
      Or.inl ⟨k, hk, hfs, rfl, hnw, rfl⟩⟩
  · push_neg at hnw
    obtain ⟨h0, hw⟩ := hnw
    obtain ⟨f, hf⟩ : ∃ f, 2 * CUCKOO_SIZE = k + (f + 1) := ⟨2 * CUCKOO_SIZE - k - 1, by omega⟩
    have e1 : t.set c u v = cuckoo_hash.setLoop c u v (f + 1) (probe_pos u k) t := by
      unfold cuckoo_hash.set
      rw [← probe_pos_zero, hf,
        setLoop_skip c t u v k 0 (f + 1) (fun j h1 h2 => hfs.2.2 j h1 (by omega)), Nat.zero_add]
    rw [setLoop_wrap c t u v _ f h0 hw] at e1
    by_cases hz : 0 = u &&& KEYMASK c
    · rw [if_pos hz] at e1
      exact ⟨_, probe_pos u k, probe_pos_lt _ _, e1, rfl, Or.inr ⟨hw, Nat.zero_le _⟩⟩
    · rw [if_neg hz, next_slot_probe_pos] at e1
      obtain ⟨k2, hk2, hfs2⟩ := first_stop_exists c ⟨t.cuckoo, 0⟩ u h (k + 1)
      obtain ⟨f2, hf2⟩ : ∃ f2, f = (k2 - (k + 1)) + (f2 + 1) := ⟨f - (k2 - (k + 1)) - 1, by
        have := hfs2.1
        omega⟩
      rw [hf2, setLoop_skip c ⟨t.cuckoo, 0⟩ u v (k2 - (k + 1)) (k + 1) (f2 + 1)
        (fun j h1 h2 => hfs2.2.2 j h1 (by have := hfs2.1; omega))] at e1
      have e2 : k + 1 + (k2 - (k + 1)) = k2 := by have := hfs2.1; omega
      rw [e2, setLoop_stop c ⟨t.cuckoo, 0⟩ u v _ f2 hfs2.2.1 (Or.inr (by norm_num))] at e1
      refine ⟨_, probe_pos u k2, probe_pos_lt _ _, e1, rfl, Or.inr ⟨hw, ?_⟩⟩
      dsimp only
      split <;> norm_num

/-- C2. Ancestry table last-write.  For every table state with at least one empty slot
(whatever the counter `nstored` holds), every key `u` with `0 < u < SIZE` and all values
`v1, v2 < SIZE`, in a build with 32-bit nodes (`SIZESHIFT <= 32`): `set(u, v1)` returns,
the following `set(u, v2)` returns, and `operator[](u)` then returns `v2`. -/
theorem cuckoo_hash_last_write (c : Config) (hS : c.SIZESHIFT ≤ 32) (t : cuckoo_hash)
    (hempty : has_empty t) (u v1 v2 : Nat) (hu0 : 0 < u) (hu : u < SIZE c)
    (hv1 : v1 < SIZE c) (hv2 : v2 < SIZE c) :
    ∃ t1 t2, t.set c u v1 = some t1 ∧ t1.set c u v2 = some t2 ∧ t2.get c u = some v2 := by
  have hu32 : u < 2 ^ 32 := lt_of_lt_of_le hu (SIZE_le c hS)
  have hkey : ∀ v, v < SIZE c → cuckoo_hash.entry c u v >>> c.SIZESHIFT = u &&& KEYMASK c :=
    fun v hv => by rw [entry_key c hS u v hu32 hv, and_KEYMASK c hS u hu32]
  obtain ⟨i, hi, h0⟩ := hempty
  obtain ⟨t1, q, hq, hset1, hc1, hcase⟩ := set_total c t u v1 ⟨i, hi, Or.inl h0⟩
  have key : ∃ k, k < CUCKOO_SIZE ∧ first_stop c t1 u 0 k ∧
      (t1.cuckoo (probe_pos u k) ≠ 0 ∨ (t1.nstored + 1) % 2 ^ 32 ≠ 0) := by
    rcases hcase with ⟨k, hk, hfs, hqk, _, _⟩ | ⟨_, hle⟩
    · subst hqk
      refine ⟨k, hk, first_stop_update c t t1 u k _ hk hfs hc1 (hkey v1 hv1), Or.inl ?_⟩
      rw [hc1, Function.update_same]
      exact entry_ne_zero c hS u v1 hu32 hv1 (by omega)
    · obtain ⟨k, hk, hfs⟩ := first_stop_exists c t1 u
        ⟨q, hq, stops_update_self c t t1 q _ hc1 u (hkey v1 hv1)⟩ 0
      rw [Nat.zero_add] at hk
      refine ⟨k, hk, hfs, Or.inr ?_⟩
      have : t1.nstored = 0 ∨ t1.nstored = 1 := by omega
      rcases this with e | e <;> rw [e] <;> norm_num
  obtain ⟨k, hk, hfs, hnw⟩ := key
  obtain ⟨t2, hset2, _, _, _, hget⟩ :=
    set_get_of_first_stop c hS t1 u v2 k (by omega) hu32 hv2 hk hfs hnw
  exact ⟨t1, t2, hset1, hset2, hget⟩

theorem cuckoo_hash_last_write_witness :
    (11 ≤ 32) ∧ has_empty (cuckoo_hash.new 4294967295) ∧ 0 < 6 ∧ 6 < SIZE cfg11 ∧
    3 < SIZE cfg11 ∧ 5 < SIZE cfg11 ∧
    ∃ t1 t2, (cuckoo_hash.new 4294967295).set cfg11 6 3 = some t1 ∧
      t1.set cfg11 6 5 = some t2 ∧ t2.get cfg11 6 = some 5 :=
  ⟨by decide, ⟨0, by decide, rfl⟩, by decide, by decide, by decide, by decide,
    cuckoo_hash_last_write cfg11 (by decide) (cuckoo_hash.new 4294967295) ⟨0, by decide, rfl⟩
      6 3 5 (by decide) (by decide) (by decide) (by decide)⟩

/-! ## Adequacy of the loop bounds -/

theorem no_stop_of_set_none (c : Config) (t : cuckoo_hash) (u v : Nat)
    (h : t.set c u v = none) : ∀ i, i < CUCKOO_SIZE → ¬ stops c t u i := by
  intro i hi hs
  obtain ⟨t1, q, _, hset, _⟩ := set_total c t u v ⟨i, hi, hs⟩
  rw [h] at hset
  exact Option.noConfusion hset

/-- A probe loop of `set` that has not returned after `2 * CUCKOO_SIZE` slots does not
return within any number of steps. -/
theorem setLoop_none_forever (c : Config) (t : cuckoo_hash) (u v : Nat)
    (h : t.set c u v = none) (fuel : Nat) :
    cuckoo_hash.setLoop c u v fuel (u % CUCKOO_SIZE) t = none := by
  have hs := no_stop_of_set_none c t u v h
  have := setLoop_skip c t u v fuel 0 0 (fun j _ _ => hs _ (probe_pos_lt u j))
  rw [Nat.add_zero, probe_pos_zero] at this
  rw [this]
  rfl

/-- A probe loop of `operator[]` that has not returned after `CUCKOO_SIZE` slots does not
return within any number of steps. -/
theorem getLoop_none_forever (c : Config) (t : cuckoo_hash) (u : Nat)
    (h : t.get c u = none) (fuel : Nat) :
    cuckoo_hash.getLoop c t u fuel (u % CUCKOO_SIZE) = none := by
  have hs : ∀ i, i < CUCKOO_SIZE → ¬ stops c t u i := by
    intro i hi hst
    obtain ⟨k, hk, hfs⟩ := first_stop_exists c t u ⟨i, hi, hst⟩ 0
    rw [Nat.zero_add] at hk
    rw [get_of_first_stop c t u k hk hfs] at h
    exact Option.noConfusion h
  have := getLoop_skip c t u fuel 0 0 (fun j _ _ => hs _ (probe_pos_lt u j))
  rw [Nat.add_zero, probe_pos_zero] at this
  rw [this]
  rfl

/-! ## The invariant of linear probing -/

theorem stops_iff (c : Config) (hS : c.SIZESHIFT ≤ 32) (t : cuckoo_hash) (u i : Nat)
    (hu : u < 2 ^ 32) : stops c t u i ↔ (t.cuckoo i = 0 ∨ t.cuckoo i >>> c.SIZESHIFT = u) := by
  unfold stops
  rw [and_KEYMASK c hS u hu]

theorem key_of_first_stop (c : Config) (hS : c.SIZESHIFT ≤ 32) (t : cuckoo_hash) (u k : Nat)
    (hu : u < 2 ^ 32) (h : first_stop c t u 0 k) (hne : t.cuckoo (probe_pos u k) ≠ 0) :
    t.cuckoo (probe_pos u k) >>> c.SIZESHIFT = u := by
  rcases (stops_iff c hS t u _ hu).1 h.2.1 with h0 | h0
  · exact absurd h0 hne
  · exact h0

theorem slot_of_present (c : Config) (t : cuckoo_hash) (hinv : table_inv c t) (u k : Nat)
    (h : first_stop c t u 0 k) (hp : present c t u) :
    t.cuckoo (probe_pos u k) ≠ 0 := by
  obtain ⟨i, hi, hne, hkey⟩ := hp
  obtain ⟨_, k1, _, hpos, hfs⟩ := hinv i hi hne
  rw [hkey] at hpos hfs
  have := first_stop_unique c t u 0 k1 k hfs h
  subst this
  rw [hpos]
  exact hne

theorem table_inv_update (c : Config) (hS : c.SIZESHIFT ≤ 32) (t t1 : cuckoo_hash)
    (hinv : table_inv c t) (u k e : Nat) (hu : u < 2 ^ 32) (hk : k < CUCKOO_SIZE)
    (hfs : first_stop c t u 0 k) (he0 : e ≠ 0) (hek : e >>> c.SIZESHIFT = u)
    (ht : t1.cuckoo = Function.update t.cuckoo (probe_pos u k) e) : table_inv c t1 := by
  have hek2 : e >>> c.SIZESHIFT = u &&& KEYMASK c := by rw [hek, and_KEYMASK c hS u hu]
  intro i hi hne
  by_cases hiq : i = probe_pos u k
  · subst hiq
    have e1 : t1.cuckoo (probe_pos u k) = e := by rw [ht, Function.update_same]
    rw [e1, hek]
    exact ⟨hu, k, hk, rfl, first_stop_update c t t1 u k e hk hfs ht hek2⟩
  · have e1 : t1.cuckoo i = t.cuckoo i := by rw [ht, Function.update_noteq hiq]
    rw [e1] at hne ⊢
    obtain ⟨hlt, k1, hk1, hpos, hfs1⟩ := hinv i hi hne
    refine ⟨hlt, k1, hk1, hpos, Nat.zero_le _, ?_, ?_⟩
    · have h1 := hfs1.2.1
      rw [hpos] at h1 ⊢
      exact (stops_update_ne c t t1 _ e ht _ i hiq).2 h1
    · intro j hj0 hj
      by_cases hjq : probe_pos (t.cuckoo i >>> c.SIZESHIFT) j = probe_pos u k
      · rw [hjq, stops_iff c hS t1 _ _ hlt, ht, Function.update_same]
        push_neg
        refine ⟨he0, ?_⟩
        rw [hek]
        intro hu1
        rw [← hu1] at hpos hfs1
        have := first_stop_unique c t u 0 k1 k hfs1 hfs
        subst this
        exact hiq hpos.symm
      · rw [stops_update_ne c t t1 _ e ht _ _ hjq]
        exact hfs1.2.2 j hj0 hj

theorem has_empty_of_update (t t1 : cuckoo_hash) (q e : Nat) (he0 : e ≠ 0)
    (ht : t1.cuckoo = Function.update t.cuckoo q e) (h : has_empty t1) : has_empty t := by
  obtain ⟨i, hi, h0⟩ := h
  refine ⟨i, hi, ?_⟩
  by_cases hiq : i = q
  · subst hiq
    rw [ht, Function.update_same] at h0
    exact absurd h0 he0
  · rw [ht, Function.update_noteq hiq] at h0
    exact h0

theorem first_stop_of_has_empty (c : Config) (t : cuckoo_hash) (u : Nat) (h : has_empty t) :
    ∃ k, k < CUCKOO_SIZE ∧ first_stop c t u 0 k := by
  obtain ⟨i, hi, h0⟩ := h
  obtain ⟨k, hk, hfs⟩ := first_stop_exists c t u ⟨i, hi, Or.inl h0⟩ 0
  rw [Nat.zero_add] at hk
  exact ⟨k, hk, hfs⟩

/-- Writing key `u` into the slot where its probe sequence stops does not change the
lookup of any other key, as long as an empty slot remains. -/
theorem get_update_other (c : Config) (hS : c.SIZESHIFT ≤ 32) (t t1 : cuckoo_hash)
    (hinv : table_inv c t) (u k e : Nat) (hu : u < 2 ^ 32)
    (hfs : first_stop c t u 0 k) (he0 : e ≠ 0) (hek : e >>> c.SIZESHIFT = u)
    (ht : t1.cuckoo = Function.update t.cuckoo (probe_pos u k) e) (hemp : has_empty t1)
    (w : Nat) (hw : w < 2 ^ 32) (hwu : w ≠ u) : t1.get c w = t.get c w := by
  obtain ⟨kw, hkw, hfw⟩ := first_stop_of_has_empty c t w (has_empty_of_update t t1 _ e he0 ht hemp)
  obtain ⟨k2, hk2, hf2⟩ := first_stop_of_has_empty c t1 w hemp
  have hq1 : t1.cuckoo (probe_pos u k) = e := by rw [ht, Function.update_same]
  have hnostop1 : ¬ stops c t1 w (probe_pos u k) := by
    rw [stops_iff c hS t1 w _ hw, hq1, hek]
    push_neg
    exact ⟨he0, fun h => hwu h.symm⟩
  have hne2 : probe_pos w k2 ≠ probe_pos u k := fun h => hnostop1 (h ▸ hf2.2.1)
  have hsame2 : t1.cuckoo (probe_pos w k2) = t.cuckoo (probe_pos w k2) := by
    rw [ht, Function.update_noteq hne2]
  rw [get_of_first_stop c t w kw hkw hfw, get_of_first_stop c t1 w k2 hk2 hf2, hsame2]
  -- the two first stops are the same offset, or both slots are empty
  rcases Nat.lt_trichotomy k2 kw with hlt | heq | hgt
  · -- a stop of `t1` before the first stop of `t`: it is a stop of `t` as well
    exfalso
    apply hfw.2.2 k2 (Nat.zero_le _) hlt
    rw [← stops_update_ne c t t1 _ e ht w _ hne2]
    exact hf2.2.1
  · rw [heq]
  · -- the first stop of `t` is no stop of `t1`: it is the slot written, empty before
    have hq : probe_pos w kw = probe_pos u k := by
      by_contra hne
      apply hf2.2.2 kw (Nat.zero_le _) hgt
      rw [stops_update_ne c t t1 _ e ht w _ hne]
      exact hfw.2.1
    have h0 : t.cuckoo (probe_pos w kw) = 0 := by
      by_contra hne
      have hkey := key_of_first_stop c hS t w kw hw hfw hne
      rw [hq] at hkey hne
      have hkey2 := key_of_first_stop c hS t u k hu hfs hne
      exact hwu (hkey.symm.trans hkey2)
    rw [if_pos h0]
    by_cases h20 : t.cuckoo (probe_pos w k2) = 0
    · rw [if_pos h20]
    · exfalso
      have hkey : t.cuckoo (probe_pos w k2) >>> c.SIZESHIFT = w := by
        have := key_of_first_stop c hS t1 w k2 hw hf2 (by rw [hsame2]; exact h20)
        rw [hsame2] at this
        exact this
      obtain ⟨_, k3, hk3, hpos, hfs3⟩ := hinv _ (probe_pos_lt w k2) h20
      rw [hkey] at hpos hfs3
      have e3 := probe_pos_inj w k3 k2 hk3 hk2 hpos
      subst e3
      have := first_stop_unique c t w 0 k3 kw hfs3 hfw
      omega

/-! ## Occupancy -/

theorem occupied_update (t t1 : cuckoo_hash) (q e : Nat) (hq : q < CUCKOO_SIZE) (he0 : e ≠ 0)
    (ht : t1.cuckoo = Function.update t.cuckoo q e) :
    occupied t1 = if t.cuckoo q = 0 then occupied t + 1 else occupied t := by
  unfold occupied
  rw [ht]
  by_cases h0 : t.cuckoo q = 0
  · rw [if_pos h0]
    have hins : (Finset.range CUCKOO_SIZE).filter (fun i => Function.update t.cuckoo q e i ≠ 0)
        = insert q ((Finset.range CUCKOO_SIZE).filter (fun i => t.cuckoo i ≠ 0)) := by
      ext i
      simp only [Finset.mem_filter, Finset.mem_range, Finset.mem_insert]
      by_cases hiq : i = q
      · subst hiq
        simp [hq, he0]
      · simp [Function.update_noteq hiq, hiq]
    rw [hins, Finset.card_insert_of_not_mem]
    intro hm
    exact (Finset.mem_filter.1 hm).2 h0
  · rw [if_neg h0]
    refine congrArg Finset.card (Finset.filter_congr ?_)
    intro i _
    by_cases hiq : i = q
    · subst hiq
      simp [he0, h0]
    · simp [Function.update_noteq hiq]

theorem occupied_le (t : cuckoo_hash) : occupied t ≤ CUCKOO_SIZE := by
  unfold occupied
  calc _ ≤ (Finset.range CUCKOO_SIZE).card := Finset.card_filter_le _ _
    _ = CUCKOO_SIZE := Finset.card_range _

theorem has_empty_of_occupied_lt (t : cuckoo_hash) (h : occupied t < CUCKOO_SIZE) :
    has_empty t := by
  by_contra hne
  unfold has_empty at hne
  push_neg at hne
  unfold occupied at h
  rw [Finset.filter_true_of_mem (fun i hi => hne i (Finset.mem_range.1 hi)),
    Finset.card_range] at h
  exact lt_irrefl _ h

theorem occupied_clear (t : cuckoo_hash) : occupied t.clear = 0 := by
  unfold occupied cuckoo_hash.clear
  rw [Finset.card_eq_zero, Finset.filter_eq_empty_iff]
  intro i hi
  simp [Finset.mem_range.1 hi]

theorem table_inv_clear (c : Config) (t : cuckoo_hash) : table_inv c t.clear := by
  intro i hi hne
  exfalso
  apply hne
  unfold cuckoo_hash.clear
  simp [hi]

theorem get_absent (c : Config) (hS : c.SIZESHIFT ≤ 32) (t : cuckoo_hash) (hemp : has_empty t)
    (u : Nat) (hu : u < 2 ^ 32) (h : ¬ present c t u) : t.get c u = some 0 := by
  obtain ⟨k, hk, hfs⟩ := first_stop_of_has_empty c t u hemp
  rw [get_of_first_stop c t u k hk hfs]
  by_cases h0 : t.cuckoo (probe_pos u k) = 0
  · rw [if_pos h0]
  · exact absurd ⟨_, probe_pos_lt u k, h0, key_of_first_stop c hS t u k hu hfs h0⟩ h

/-- The effect of `set(u, v)` on a table that satisfies the probing invariant, has an
empty slot and whose counter is not about to wrap. -/
theorem set_spec (c : Config) (hS : c.SIZESHIFT ≤ 32) (t : cuckoo_hash)
    (hinv : table_inv c t) (hemp : has_empty t) (u v : Nat) (hu0 : u ≠ 0) (hu : u < 2 ^ 32)
    (hv : v < SIZE c) (hnw : t.nstored + 1 < 2 ^ 32) :
    ∃ t1, t.set c u v = some t1 ∧ table_inv c t1 ∧ t1.get c u = some v ∧
      (has_empty t1 → ∀ w, w < 2 ^ 32 → w ≠ u → t1.get c w = t.get c w) ∧
      (∀ w, present c t1 w → w = u ∨ present c t w) ∧
      ((present c t u ∧ occupied t1 = occupied t ∧ t1.nstored = t.nstored) ∨
        (¬ present c t u ∧ occupied t1 = occupied t + 1 ∧ t1.nstored = t.nstored + 1)) := by
  obtain ⟨k, hk, hfs⟩ := first_stop_of_has_empty c t u hemp
  have hmod : (t.nstored + 1) % 2 ^ 32 = t.nstored + 1 := Nat.mod_eq_of_lt hnw
  obtain ⟨t1, hset, hc1, hn1, _, hget⟩ :=
    set_get_of_first_stop c hS t u v k hu0 hu hv hk hfs (Or.inr (by rw [hmod]; omega))
  have he0 := entry_ne_zero c hS u v hu hv hu0
  have hek := entry_key c hS u v hu hv
  refine ⟨t1, hset, table_inv_update c hS t t1 hinv u k _ hu hk hfs he0 hek hc1, hget, ?_, ?_, ?_⟩
  · intro hemp1 w hw hwu
    exact get_update_other c hS t t1 hinv u k _ hu hfs he0 hek hc1 hemp1 w hw hwu
  · intro w ⟨i, hi, hne, hkey⟩
    by_cases hiq : i = probe_pos u k
    · subst hiq
      rw [hc1, Function.update_same] at hkey
      exact Or.inl (hkey.symm.trans hek)
    · rw [hc1, Function.update_noteq hiq] at hne hkey
      exact Or.inr ⟨i, hi, hne, hkey⟩
  · have hocc := occupied_update t t1 _ _ (probe_pos_lt u k) he0 hc1
    by_cases h0 : t.cuckoo (probe_pos u k) = 0
    · right
      rw [if_pos h0] at hocc hn1
      refine ⟨fun hp => slot_of_present c t hinv u k hfs hp h0, hocc, ?_⟩
      rw [hn1, hmod]
    · left
      rw [if_neg h0] at hocc hn1
      exact ⟨⟨_, probe_pos_lt u k, h0, key_of_first_stop c hS t u k hu hfs h0⟩, hocc, hn1⟩

/-! ## Sequences of inserts -/

theorem set_all_spec (c : Config) (hS : c.SIZESHIFT ≤ 32) :
    ∀ (l : List (Nat × Nat)) (t : cuckoo_hash) (D : List (Nat × Nat)),
      table_inv c t → occupied t + l.length < CUCKOO_SIZE → t.nstored + l.length < 2 ^ 32 →
      (l.map Prod.fst).Nodup → (∀ p ∈ l, 0 < p.1 ∧ p.1 < SIZE c ∧ p.2 < SIZE c) →
      (∀ p ∈ D, p.1 < 2 ^ 32 ∧ t.get c p.1 = some p.2) →
      (∀ p ∈ D, p.1 ∉ l.map Prod.fst) →
      ∃ t1, set_all c t l = some t1 ∧ (∀ p ∈ D, t1.get c p.1 = some p.2) ∧
        (∀ p ∈ l, t1.get c p.1 = some p.2) := by
  intro l
  induction l with
  | nil =>
    intro t D _ _ _ _ _ hD _
    exact ⟨t, rfl, fun p hp => (hD p hp).2, fun p hp => absurd hp (List.not_mem_nil p)⟩
  | cons p l ih =>
    intro t D hinv hocc hns hnd hr hD hdis
    rw [List.length_cons] at hocc hns
    rw [List.map_cons, List.nodup_cons] at hnd
    obtain ⟨hp0, hpS, hpv⟩ := hr p (List.mem_cons_self _ _)
    have hp32 : p.1 < 2 ^ 32 := lt_of_lt_of_le hpS (SIZE_le c hS)
    obtain ⟨t1, hset, hinv1, hget1, hframe, _, hcnt⟩ :=
      set_spec c hS t hinv (has_empty_of_occupied_lt t (by omega)) p.1 p.2 (by omega) hp32 hpv
        (by omega)
    have hocc1 : occupied t1 ≤ occupied t + 1 := by
      rcases hcnt with ⟨_, h, _⟩ | ⟨_, h, _⟩ <;> omega
    have hns1 : t1.nstored ≤ t.nstored + 1 := by
      rcases hcnt with ⟨_, _, h⟩ | ⟨_, _, h⟩ <;> omega
    have hemp1 : has_empty t1 := has_empty_of_occupied_lt t1 (by omega)
    obtain ⟨t2, hall, hD2, hl2⟩ := ih t1 (p :: D) hinv1 (by omega) (by omega) hnd.2
      (fun q hq => hr q (List.mem_cons_of_mem _ hq))
      (by
        intro q hq
        rcases List.mem_cons.1 hq with rfl | hq
        · exact ⟨hp32, hget1⟩
        · refine ⟨(hD q hq).1, ?_⟩
          rw [hframe hemp1 q.1 (hD q hq).1
            (fun e => hdis q hq (by rw [e, List.map_cons]; exact List.mem_cons_self _ _))]
          exact (hD q hq).2)
      (by
        intro q hq
        rcases List.mem_cons.1 hq with rfl | hq
        · exact hnd.1
        · exact fun hm => hdis q hq (by rw [List.map_cons]; exact List.mem_cons_of_mem _ hm))
    refine ⟨t2, ?_, fun q hq => hD2 q (List.mem_cons_of_mem _ hq), ?_⟩
    · rw [set_all, hset]
      exact hall
    · intro q hq
      rcases List.mem_cons.1 hq with rfl | hq
      · exact hD2 _ (List.mem_cons_self _ _)
      · exact hl2 q hq

theorem set_all_append (c : Config) (l1 l2 : List (Nat × Nat)) (t : cuckoo_hash) :
    set_all c t (l1 ++ l2) = (set_all c t l1).bind (fun t1 => set_all c t1 l2) := by
  induction l1 generalizing t with
  | nil => rfl
  | cons p l1 ih =>
    rw [List.cons_append, set_all, set_all]
    cases h : t.set c p.1 p.2 with
    | none => rfl
    | some t1 => exact ih t1

/-- C3. The ancestry table drops nothing.  In a build with 32-bit nodes, insert into a
cleared table, in order, the pairs of a list with pairwise distinct keys `0 < u < SIZE`,
values `v < SIZE` and length below the overload threshold `CUCKOO_SIZE*9/10`: every
`set` returns and afterwards `operator[](u)` returns `v` for every pair `(u, v)` of the
list, whatever the collisions of the home slots.  Moreover each single insert of the
sequence leaves the lookup result of every key inserted before it unchanged. -/
theorem cuckoo_hash_drops_nothing (c : Config) (hS : c.SIZESHIFT ≤ 32) (t0 : cuckoo_hash)
    (l : List (Nat × Nat)) (hnd : (l.map Prod.fst).Nodup)
    (hr : ∀ p ∈ l, 0 < p.1 ∧ p.1 < SIZE c ∧ p.2 < SIZE c)
    (hlen : l.length < CUCKOO_SIZE * 9 / 10) :
    (∃ t, set_all c t0.clear l = some t ∧ ∀ p ∈ l, t.get c p.1 = some p.2) ∧
    (∀ l1 p l2, l = l1 ++ p :: l2 →
      ∃ t1 t2, set_all c t0.clear l1 = some t1 ∧ t1.set c p.1 p.2 = some t2 ∧
        ∀ q ∈ l1, t2.get c q.1 = t1.get c q.1) := by
  have hN : CUCKOO_SIZE * 9 / 10 < CUCKOO_SIZE := by decide
  have main : ∀ l1 : List (Nat × Nat), (l1.map Prod.fst).Nodup →
      (∀ p ∈ l1, 0 < p.1 ∧ p.1 < SIZE c ∧ p.2 < SIZE c) → l1.length ≤ l.length →
      ∃ t, set_all c t0.clear l1 = some t ∧ ∀ p ∈ l1, t.get c p.1 = some p.2 := by
    intro l1 hnd1 hr1 hlen1
    have h32 : CUCKOO_SIZE < 2 ^ 32 := by decide
    obtain ⟨t, h1, _, h2⟩ := set_all_spec c hS l1 t0.clear [] (table_inv_clear c t0)
      (by rw [occupied_clear]; omega) (by show 0 + _ < _; omega) hnd1 hr1
      (fun p hp => absurd hp (List.not_mem_nil p)) (fun p hp => absurd hp (List.not_mem_nil p))
    exact ⟨t, h1, h2⟩
  refine ⟨main l hnd hr (le_refl _), ?_⟩
  intro l1 p l2 hl
  have hsub1 : (l1 ++ [p]).Sublist l := by
    rw [hl]
    exact List.Sublist.append (List.Sublist.refl l1)
      (List.Sublist.cons₂ p (List.nil_sublist l2))
  have hsub0 : l1.Sublist (l1 ++ [p]) := List.sublist_append_left l1 [p]
  have hnd1 : ((l1 ++ [p]).map Prod.fst).Nodup := (hsub1.map Prod.fst).nodup hnd
  obtain ⟨t2, h2, g2⟩ := main (l1 ++ [p]) hnd1 (fun q hq => hr q (hsub1.subset hq))
    hsub1.length_le
  obtain ⟨t1, h1, g1⟩ := main l1 ((hsub0.map Prod.fst).nodup hnd1)
    (fun q hq => hr q ((hsub0.trans hsub1).subset hq)) (hsub0.trans hsub1).length_le
  rw [set_all_append, h1] at h2
  simp only [Option.bind, set_all] at h2
  refine ⟨t1, t2, h1, ?_, ?_⟩
  · cases h : t1.set c p.1 p.2 with
    | none => rw [h] at h2; exact Option.noConfusion h2
    | some t3 =>
      rw [h] at h2
      exact h2
  · intro q hq
    rw [g1 q hq, g2 q (List.mem_append_left _ hq)]

theorem cuckoo_hash_drops_nothing_witness :
    (20 ≤ 32) ∧ ([(2, 3), (327682, 5), (655362, 7)].map Prod.fst).Nodup ∧
    (∀ p ∈ [(2, 3), (327682, 5), (655362, 7)], 0 < p.1 ∧ p.1 < SIZE cfg20 ∧ p.2 < SIZE cfg20) ∧
    [(2, 3), (327682, 5), (655362, 7)].length < CUCKOO_SIZE * 9 / 10 ∧
    ∃ t, set_all cfg20 (cuckoo_hash.new 0).clear [(2, 3), (327682, 5), (655362, 7)] = some t ∧
      ∀ p ∈ [(2, 3), (327682, 5), (655362, 7)], t.get cfg20 p.1 = some p.2 :=
  ⟨by decide, by decide, by decide, by decide,
    (cuckoo_hash_drops_nothing cfg20 (by decide) (cuckoo_hash.new 0)
      [(2, 3), (327682, 5), (655362, 7)] (by decide) (by decide) (by decide)).1⟩

/-! ## The counter `nstored` on reachable states -/

theorem or_ne_zero_left (x v : Nat) (hx : x ≠ 0) : x ||| v ≠ 0 := by
  intro h
  apply hx
  apply Nat.eq_of_testBit_eq
  intro i
  have := congrArg (fun n => n.testBit i) h
  simp only [Nat.testBit_or, Nat.zero_testBit, Bool.or_eq_false_iff] at this
  rw [this.1, Nat.zero_testBit]

theorem entry_ne_zero_any (c : Config) (hS : c.SIZESHIFT ≤ 32) (u v : Nat) (hu : u < 2 ^ 32)
    (h0 : u ≠ 0) : cuckoo_hash.entry c u v ≠ 0 := by
  unfold cuckoo_hash.entry
  apply or_ne_zero_left
  have h64 : u <<< c.SIZESHIFT < 2 ^ 64 := by
    rw [Nat.shiftLeft_eq]
    calc u * 2 ^ c.SIZESHIFT < 2 ^ 32 * 2 ^ c.SIZESHIFT :=
          Nat.mul_lt_mul_of_pos_right hu (Nat.pow_pos (by norm_num))
      _ = 2 ^ (32 + c.SIZESHIFT) := by rw [Nat.pow_add]
      _ ≤ 2 ^ 64 := Nat.pow_le_pow_right (by norm_num) (by omega)
  rw [Nat.mod_eq_of_lt h64, Nat.shiftLeft_eq]
  exact Nat.mul_ne_zero h0 (Nat.pos_iff_ne_zero.1 (Nat.pow_pos (by norm_num)))

theorem stop_of_set_some (c : Config) (t t1 : cuckoo_hash) (u v : Nat)
    (h : t.set c u v = some t1) : ∃ i, i < CUCKOO_SIZE ∧ stops c t u i := by
  by_contra hne
  push_neg at hne
  have := setLoop_skip c t u v (2 * CUCKOO_SIZE) 0 0 (fun j _ _ => hne _ (probe_pos_lt u j))
  rw [Nat.add_zero, probe_pos_zero] at this
  unfold cuckoo_hash.set at h
  rw [this] at h
  exact Option.noConfusion h

/-- On a table whose counter is below `2^32 - 1`, a returning `set` writes its entry into
one slot and increments the counter exactly when that slot was empty. -/
theorem set_effect (c : Config) (t t1 : cuckoo_hash) (u v : Nat)
    (hns : t.nstored + 1 < 2 ^ 32) (h : t.set c u v = some t1) :
    ∃ q, q < CUCKOO_SIZE ∧ stops c t u q ∧
      t1.cuckoo = Function.update t.cuckoo q (cuckoo_hash.entry c u v) ∧
      t1.nstored = if t.cuckoo q = 0 then t.nstored + 1 else t.nstored := by
  obtain ⟨t2, q, hq, hset, hc, hcase⟩ := set_total c t u v (stop_of_set_some c t t1 u v h)
  rw [h] at hset
  cases hset
  rcases hcase with ⟨k, _, hfs, hqk, _, hn⟩ | ⟨hw, _⟩
  · refine ⟨q, hq, hqk ▸ hfs.2.1, hc, ?_⟩
    rw [hn, Nat.mod_eq_of_lt hns]
  · rw [Nat.mod_eq_of_lt hns] at hw
    omega

theorem reachable_nstored (c : Config) (hS : c.SIZESHIFT ≤ 32) (t : cuckoo_hash)
    (h : reachable c t) : t.nstored = occupied t := by
  induction h with
  | clear t => rw [occupied_clear]; rfl
  | set t t1 u v _ hu0 hu _ hset ih =>
    have hN : CUCKOO_SIZE < 2 ^ 32 - 1 := by decide
    have hle := occupied_le t
    obtain ⟨q, hq, _, hc, hn⟩ := set_effect c t t1 u v (by omega) hset
    rw [hn, occupied_update t t1 q _ hq (entry_ne_zero_any c hS u v hu (by omega)) hc, ih]

theorem get_clear (c : Config) (t0 : cuckoo_hash) (u : Nat) : t0.clear.get c u = some 0 := by
  unfold cuckoo_hash.get
  obtain ⟨f, hf⟩ : ∃ f, CUCKOO_SIZE = f + 1 := ⟨CUCKOO_SIZE - 1, by decide⟩
  rw [hf, cuckoo_hash.getLoop, ← hf]
  have : t0.clear.cuckoo (u % CUCKOO_SIZE) = 0 := by
    unfold cuckoo_hash.clear
    simp only [Nat.mod_lt u CUCKOO_SIZE_pos, if_true]
  simp only [this, if_true]

theorem load_mono (t t1 : cuckoo_hash) (h : t.nstored ≤ t1.nstored)
    (h1 : t1.nstored ≤ CUCKOO_SIZE + 1) : t.load ≤ t1.load := by
  unfold cuckoo_hash.load
  rw [CUCKOO_SIZE_eq] at h1 ⊢
  have h2 : t.nstored * 100 / 327680 ≤ t1.nstored * 100 / 327680 :=
    Nat.div_le_div_right (Nat.mul_le_mul_right 100 h)
  have h3 : t1.nstored * 100 / 327680 ≤ 101 := by omega
  rw [Nat.mod_eq_of_lt (by omega), Nat.mod_eq_of_lt (by omega)]
  exact h2

/-- C9. Table load reporting.  In a build with 32-bit nodes, in every table state
reachable from `clear()` by `set` calls with non-zero keys: a further `set(u, v)` that
returns never decreases `load()`, and it does return whenever the table has an empty
slot.  After `clear()`, `load()` is 0 and `operator[](u)` returns 0 for every key `u`. -/
theorem cuckoo_hash_load_reporting (c : Config) (hS : c.SIZESHIFT ≤ 32) :
    (∀ t, reachable c t → ∀ u v t1, t.set c u v = some t1 → t.load ≤ t1.load) ∧
    (∀ t, reachable c t → has_empty t → ∀ u v, ∃ t1, t.set c u v = some t1) ∧
    (∀ t0 : cuckoo_hash, t0.clear.load = 0 ∧ ∀ u, t0.clear.get c u = some 0) := by
  have hN : CUCKOO_SIZE < 2 ^ 32 - 1 := by decide
  refine ⟨?_, ?_, ?_⟩
  · intro t hr u v t1 hset
    have hle := occupied_le t
    have hn := reachable_nstored c hS t hr
    obtain ⟨q, _, _, _, hn1⟩ := set_effect c t t1 u v (by omega) hset
    apply load_mono
    · rw [hn1]; split <;> omega
    · rw [hn1]; split <;> omega
  · intro t _ ⟨i, hi, h0⟩ u v
    obtain ⟨t1, _, _, hset, _⟩ := set_total c t u v ⟨i, hi, Or.inl h0⟩
    exact ⟨t1, hset⟩
  · intro t0
    exact ⟨by unfold cuckoo_hash.load cuckoo_hash.clear; simp, get_clear c t0⟩

theorem cuckoo_hash_load_reporting_witness :
    (11 ≤ 32) ∧ reachable cfg11 (cuckoo_hash.new 7).clear ∧
    (∀ t1, (cuckoo_hash.new 7).clear.set cfg11 6 3 = some t1 →
      (cuckoo_hash.new 7).clear.load ≤ t1.load) ∧
    (cuckoo_hash.new 7).clear.load = 0 :=
  ⟨by decide, reachable.clear _,
    fun t1 h => (cuckoo_hash_load_reporting cfg11 (by decide)).1 _ (reachable.clear _) 6 3 t1 h,
    ((cuckoo_hash_load_reporting cfg11 (by decide)).2.2 (cuckoo_hash.new 7)).1⟩

/-! ## The reconstruction scan -/

theorem PROOFSIZE_not_gt : ¬ (PROOFSIZE > 2) := by decide

theorem solutionLoop_eq (g : Nat → Nat → Nat) (cycle : List (Nat × Nat)) :
    ∀ (l : List Nat) (n : Nat),
      solutionLoop g l cycle n
        = (l.filter (fun nonce => decide (sipedge g nonce ∈ cycle)),
            n + (l.filter (fun nonce => decide (sipedge g nonce ∈ cycle))).length) := by
  intro l
  induction l with
  | nil => intro n; rfl
  | cons x l ih =>
    intro n
    rw [solutionLoop]
    by_cases h : sipedge g x ∈ cycle
    · simp only [h, if_true, if_neg PROOFSIZE_not_gt, ih, List.filter_cons, decide_True,
        List.length_cons]
      congr 1
      omega
    · simp only [h, if_false, ih, List.filter_cons, decide_False]
      rfl

/-- C7. Reconstruction scan.  For every edge generator and every cycle edge set built
from the two paths, the nonces `solution()` prints are exactly the nonces of
`[0, HALFSIZE)` whose regenerated edge is a member of the cycle's edge set, in strictly
ascending order, none skipped and none added; the counter `n` of the final assertion is
their number. -/
theorem solution_scan (c : Config) (g : Nat → Nat → Nat) (us : Nat → Nat) (nu : Nat)
    (vs : Nat → Nat) (nv : Nat) :
    (solution c g us nu vs nv).1
      = (List.range (HALFSIZE c)).filter
          (fun nonce => decide (sipedge g nonce ∈ cycle_edges us nu vs nv)) ∧
    List.Sorted (fun a b => a < b) (solution c g us nu vs nv).1 ∧
    (∀ nonce, nonce ∈ (solution c g us nu vs nv).1 ↔
      nonce < HALFSIZE c ∧ sipedge g nonce ∈ cycle_edges us nu vs nv) ∧
    (solution c g us nu vs nv).2 = (solution c g us nu vs nv).1.length := by
  unfold solution
  rw [solutionLoop_eq]
  refine ⟨rfl, ?_, ?_, ?_⟩
  · exact List.Sorted.filter _ (List.sorted_lt_range _)
  · intro nonce
    simp only [List.mem_filter, List.mem_range, decide_eq_true_eq]
  · simp only [Nat.zero_add]

theorem cycle_edges_detect (u0 v0 : Nat) (e : Nat × Nat) :
    e ∈ cycle_edges (path2 u0 v0) 1 (path2 v0 0) 0 ↔ e = (u0, v0) := by
  have h1 : (1 : Nat) &&& (2 ^ 32 - 2) = 0 := by decide
  have h2 : (0 : Nat) ||| 1 = 1 := by decide
  unfold cycle_edges
  rw [cycle_vs, cycle_us, cycle_us, Nat.zero_add, h1, h2]
  simp [path2]

/-! ## What a detection is -/

theorem round_detected (c : Config) (g : Nat → Nat → Nat) (upart : Nat) (s : twice_set) :
    ∀ (l : List Nat) (t : cuckoo_hash) (nonce u0 u v0 : Nat),
      round c g upart s l t = some (RoundEnd.detected nonce u0 u v0) →
      nonce ∈ l ∧ u0 = g nonce 0 ∧ v0 = g nonce 1 ∧ u = v0 ∧ u ≠ 0 := by
  intro l
  induction l with
  | nil =>
    intro t nonce u0 u v0 h
    rw [round] at h
    cases h
  | cons x l ih =>
    intro t nonce u0 u v0 h
    have step : ∀ t1, round c g upart s l t1 = some (RoundEnd.detected nonce u0 u v0) →
        nonce ∈ x :: l ∧ u0 = g nonce 0 ∧ v0 = g nonce 1 ∧ u = v0 ∧ u ≠ 0 := by
      intro t1 h1
      obtain ⟨hm, hr⟩ := ih t1 nonce u0 u v0 h1
      exact ⟨List.mem_cons_of_mem _ hm, hr⟩
    rw [round] at h
    dsimp only at h
    split at h
    · exact step t h
    · split at h
      · exact step t h
      · split at h
        · exact step t h
        · split at h
          · cases h
          · next w hw =>
            split at h
            · next hdet =>
              cases h
              exact ⟨List.mem_cons_self _ _, rfl, rfl, hdet.2, hdet.1⟩
            · split at h
              · cases h
              · next t1 _ => exact step t1 h

theorem depthLoop_solved (c : Config) (g : Nat → Nat → Nat) (upart : Nat) (s : twice_set) :
    ∀ (k d : Nat) (t : cuckoo_hash) (o : Outcome),
      depthLoop c g upart s k d t = some (PassEnd.solved o) →
      ∃ depth nonce, nonce < HALFSIZE c ∧
        o = Outcome.found depth nonce
          (solution c g (path2 (g nonce 0) (g nonce 1)) 1 (path2 (g nonce 1) 0) 0).1
          (solution c g (path2 (g nonce 0) (g nonce 1)) 1 (path2 (g nonce 1) 0) 0).2 := by
  intro k
  induction k with
  | zero =>
    intro d t o h
    rw [depthLoop] at h
    cases h
  | succ k ih =>
    intro d t o h
    rw [depthLoop] at h
    split at h
    · cases h
    · next nonce u0 u v0 hr =>
      obtain ⟨hm, h0, h1, h2, _⟩ := round_detected c g upart s _ t nonce u0 u v0 hr
      subst h0 h1 h2
      cases h
      exact ⟨d, nonce, List.mem_range.1 hm, rfl⟩
    · next t1 _ =>
      split at h
      · cases h
      · exact ih (d + 1) t1 o h

theorem partLoop_found (c : Config) (g : Nat → Nat → Nat) (mb : Bool) :
    ∀ (k upart : Nat) (s : twice_set) (t : cuckoo_hash) (depth nonce : Nat)
      (printed : List Nat) (n : Nat),
      partLoop c g mb k upart s t = some (Outcome.found depth nonce printed n) →
      nonce < HALFSIZE c ∧
        printed = (solution c g (path2 (g nonce 0) (g nonce 1)) 1 (path2 (g nonce 1) 0) 0).1 ∧
        n = (solution c g (path2 (g nonce 0) (g nonce 1)) 1 (path2 (g nonce 1) 0) 0).2 := by
  intro k
  induction k with
  | zero =>
    intro upart s t depth nonce printed n h
    rw [partLoop] at h
    cases h
  | succ k ih =>
    intro upart s t depth nonce printed n h
    rw [partLoop] at h
    split at h
    · cases h
    · next o ho =>
      obtain ⟨d1, n1, hn1, ho1⟩ := depthLoop_solved c g upart _ _ 0 t o ho
      cases h
      cases ho1
      exact ⟨hn1, rfl, rfl⟩
    · next t1 _ => exact ih _ _ _ depth nonce printed n h

/-- C5. Proof round trip for proof length 2.  Whenever the single-threaded sweep ends in
`solution()` and the nonces printed are the two-element list `[n0, n1]`, then
`n0 < n1 < HALFSIZE` (two distinct nonces), the detecting nonce is below `HALFSIZE`,
`n0` and `n1` both regenerate the edge `(us[0], vs[0])` of the detecting nonce, so their
u-endpoints agree and their v-endpoints agree, and the counter of the assertion is 2. -/
theorem proof_round_trip (c : Config) (g : Nat → Nat → Nat) (ns0 nparts : Nat) (mb : Bool)
    (depth nonce n0 n1 n : Nat)
    (h : worker c g ns0 nparts mb = some (Outcome.found depth nonce [n0, n1] n)) :
    n0 < n1 ∧ n1 < HALFSIZE c ∧ nonce < HALFSIZE c ∧
    sipedge g n0 = (g nonce 0, g nonce 1) ∧ sipedge g n1 = (g nonce 0, g nonce 1) ∧
    g n0 0 = g n1 0 ∧ g n0 1 = g n1 1 ∧ n = PROOFSIZE := by
  unfold worker at h
  obtain ⟨hn, hp, hcnt⟩ := partLoop_found c g mb _ _ _ _ depth nonce [n0, n1] n h
  obtain ⟨_, hsorted, hmem, hlen⟩ :=
    solution_scan c g (path2 (g nonce 0) (g nonce 1)) 1 (path2 (g nonce 1) 0) 0
  rw [← hp] at hsorted hmem hlen
  have m0 := (hmem n0).1 (List.mem_cons_self _ _)
  have m1 := (hmem n1).1 (List.mem_cons_of_mem _ (List.mem_cons_self _ _))
  rw [cycle_edges_detect] at m0 m1
  have e0 := m0.2
  have e1 := m1.2
  have hlt : n0 < n1 := by
    have := List.rel_of_sorted_cons hsorted n1 (List.mem_cons_self _ _)
    exact this
  refine ⟨hlt, m1.1, hn, e0, e1, ?_, ?_, ?_⟩
  · have := congrArg Prod.fst (e0.trans e1.symm)
    exact this
  · have := congrArg Prod.snd (e0.trans e1.symm)
    exact this
  · rw [hcnt, hlen]
    rfl

theorem proof_round_trip_witness :
    worker cfg11 gen_pair 0 64 false = some (Outcome.found 0 20 [17, 20] 2) ∧
    17 < 20 ∧ 20 < HALFSIZE cfg11 ∧ sipedge gen_pair 17 = sipedge gen_pair 20 :=
  (fun h => ⟨h, (proof_round_trip cfg11 gen_pair 0 64 false 0 20 17 20 2 h).1,
    (proof_round_trip cfg11 gen_pair 0 64 false 0 20 17 20 2 h).2.1, rfl⟩)
    (by set_option maxRecDepth 1000000 in decide)

/-- C4. Reconstruction can fail after a detection.  In the default build with
`SIZESHIFT = 11`, under the generator `gen_triple` (nonces 3, 7 and 9 give the same edge)
the sweep over all 64 partitions takes the "2-cycle found" branch at nonce 7 of round 0,
`solution()` prints the three nonces 3, 7, 9, the counter `n` ends at 3 and
`assert(n==PROOFSIZE)` fails. -/
theorem reconstruction_assertion_fails :
    worker cfg11 gen_triple 0 64 false = some (Outcome.found 0 7 [3, 7, 9] 3) ∧
    (Outcome.found 0 7 [3, 7, 9] 3).assertion = false := by
  constructor
  · set_option maxRecDepth 1000000 in decide
  · rfl

/-! ## One round of Phase B against the map it represents -/

theorem survives_iff (c : Config) (g : Nat → Nat → Nat) (upart : Nat) (s : twice_set)
    (x : Nat) :
    survives c g upart s x = true ↔
      g x 0 ≠ 0 ∧ (g x 0 >>> 1) &&& UPART_MASK c = upart ∧
        s.test ((g x 0 >>> 1) >>> c.UPART_BITS) ≠ 0 := by
  unfold survives
  simp only [Bool.and_eq_true, decide_eq_true_eq, and_assoc]

theorem round_cons_skip (c : Config) (g : Nat → Nat → Nat) (upart : Nat) (s : twice_set)
    (x : Nat) (l : List Nat) (t : cuckoo_hash) (h : survives c g upart s x = false) :
    round c g upart s (x :: l) t = round c g upart s l t := by
  have h1 : ¬ (g x 0 ≠ 0 ∧ (g x 0 >>> 1) &&& UPART_MASK c = upart ∧
      s.test ((g x 0 >>> 1) >>> c.UPART_BITS) ≠ 0) := by
    rw [← survives_iff, h]
    exact Bool.false_ne_true
  rw [round]
  dsimp only
  split
  · rfl
  · next h0 =>
    split
    · rfl
    · next hp =>
      split
      · rfl
      · next ht =>
        exact absurd ⟨h0, not_not.1 hp, ht⟩ h1

theorem round_cons_surv (c : Config) (g : Nat → Nat → Nat) (upart : Nat) (s : twice_set)
    (x : Nat) (l : List Nat) (t : cuckoo_hash) (h : survives c g upart s x = true) :
    round c g upart s (x :: l) t =
      match t.get c (g x 0) with
      | none => none
      | some u =>
        if u ≠ 0 ∧ u = g x 1 then some (RoundEnd.detected x (g x 0) u (g x 1))
        else
          match t.set c (g x 0) (g x 1) with
          | none => none
          | some t1 => round c g upart s l t1 := by
  obtain ⟨h0, hp, ht⟩ := (survives_iff c g upart s x).1 h
  rw [round]
  dsimp only
  rw [if_neg h0, if_neg (not_not.2 hp), if_neg ht]

theorem good_table_mono (c : Config) (B : Nat) (t : cuckoo_hash) (M : Nat → Nat)
    (cnt cnt1 : Nat) (h : good_table c B t M cnt) (hle : cnt ≤ cnt1) :
    good_table c B t M cnt1 :=
  ⟨h.1, le_trans h.2.1 hle, le_trans h.2.2.1 (by omega), h.2.2.2⟩

theorem good_table_set (c : Config) (hS : c.SIZESHIFT ≤ 32) (B : Nat) (t : cuckoo_hash)
    (M : Nat → Nat) (cnt : Nat) (h : good_table c B t M cnt) (hcnt : cnt + 1 < CUCKOO_SIZE)
    (hB : B + cnt + 1 < 2 ^ 32) (u v : Nat) (hu0 : u ≠ 0) (hu : u < SIZE c) (hv : v < SIZE c) :
    ∃ t1, t.set c u v = some t1 ∧ good_table c B t1 (Function.update M u v) (cnt + 1) := by
  obtain ⟨hinv, hocc, hns, hget⟩ := h
  have hu32 : u < 2 ^ 32 := lt_of_lt_of_le hu (SIZE_le c hS)
  obtain ⟨t1, hset, hinv1, hget1, hframe, _, hcase⟩ :=
    set_spec c hS t hinv (has_empty_of_occupied_lt t (by omega)) u v hu0 hu32 hv (by omega)
  have hocc1 : occupied t1 ≤ cnt + 1 := by
    rcases hcase with ⟨_, h, _⟩ | ⟨_, h, _⟩ <;> omega
  have hns1 : t1.nstored ≤ B + (cnt + 1) := by
    rcases hcase with ⟨_, _, h⟩ | ⟨_, _, h⟩ <;> omega
  refine ⟨t1, hset, hinv1, hocc1, hns1, ?_⟩
  intro w hw
  by_cases hwu : w = u
  · subst hwu
    rw [hget1, Function.update_same]
  · rw [hframe (has_empty_of_occupied_lt t1 (by omega)) w hw hwu, Function.update_noteq hwu]
    exact hget w hw

theorem round_refines (c : Config) (hS : c.SIZESHIFT ≤ 32) (g : Nat → Nat → Nat)
    (hg : ∀ n, n < HALFSIZE c → g n 0 < SIZE c ∧ g n 1 < SIZE c) (upart : Nat) (s : twice_set)
    (B : Nat) :
    ∀ (l : List Nat) (t : cuckoo_hash) (M : Nat → Nat) (cnt : Nat),
      good_table c B t M cnt → (∀ n ∈ l, n < HALFSIZE c) → cnt + l.length < CUCKOO_SIZE →
      B + cnt + l.length < 2 ^ 32 →
      (first_detect c g upart s l M = none →
        ∃ t1, round c g upart s l t = some (RoundEnd.finished t1) ∧
          good_table c B t1 (write_all c g upart s M l) (cnt + l.length)) ∧
      (∀ n, first_detect c g upart s l M = some n →
        round c g upart s l t = some (RoundEnd.detected n (g n 0) (g n 1) (g n 1))) := by
  intro l
  induction l with
  | nil =>
    intro t M cnt h _ _ _
    refine ⟨fun _ => ⟨t, rfl, h⟩, ?_⟩
    intro n hn
    rw [first_detect] at hn
    cases hn
  | cons x l ih =>
    intro t M cnt h hl hcnt hB
    rw [List.length_cons] at hcnt hB
    have hx := hg x (hl x (List.mem_cons_self _ _))
    have hl1 : ∀ n ∈ l, n < HALFSIZE c := fun n hn => hl n (List.mem_cons_of_mem _ hn)
    cases hs : survives c g upart s x with
    | false =>
      have e1 : first_detect c g upart s (x :: l) M = first_detect c g upart s l M := by
        rw [first_detect, hs]; rfl
      have e2 : write_all c g upart s M (x :: l) = write_all c g upart s M l := by
        unfold write_all
        rw [List.foldl_cons, hs]; rfl
      rw [e1, e2, round_cons_skip c g upart s x l t hs]
      have := ih t M (cnt + 1) (good_table_mono c B t M cnt (cnt + 1) h (by omega)) hl1
        (by omega) (by omega)
      have e3 : cnt + 1 + l.length = cnt + (l.length + 1) := by omega
      rw [e3] at this
      exact this
    | true =>
      have hu0 := ((survives_iff c g upart s x).1 hs).1
      have hget := h.2.2.2 (g x 0) (lt_of_lt_of_le hx.1 (SIZE_le c hS))
      rw [round_cons_surv c g upart s x l t hs, hget]
      dsimp only
      by_cases hd : M (g x 0) ≠ 0 ∧ M (g x 0) = g x 1
      · have e1 : first_detect c g upart s (x :: l) M = some x := by
          rw [first_detect, hs, if_pos rfl, if_pos hd]
        rw [e1, if_pos hd]
        refine ⟨fun h0 => Option.noConfusion h0, ?_⟩
        intro n hn
        cases hn
        rw [hd.2]
      · have e1 : first_detect c g upart s (x :: l) M
            = first_detect c g upart s l (Function.update M (g x 0) (g x 1)) := by
          rw [first_detect, hs, if_pos rfl, if_neg hd]
        have e2 : write_all c g upart s M (x :: l)
            = write_all c g upart s (Function.update M (g x 0) (g x 1)) l := by
          unfold write_all
          rw [List.foldl_cons, hs]; rfl
        obtain ⟨t1, hset, hgood1⟩ := good_table_set c hS B t M cnt h (by omega) (by omega)
          (g x 0) (g x 1) hu0 hx.1 hx.2
        rw [e1, e2, if_neg hd, hset]
        dsimp only
        have := ih t1 _ (cnt + 1) hgood1 hl1 (by omega) (by omega)
        have e3 : cnt + 1 + l.length = cnt + (l.length + 1) := by omega
        rw [e3] at this
        exact this

/-! ## The map written by a round, and where a detection occurs -/

theorem write_all_append (c : Config) (g : Nat → Nat → Nat) (q : Nat) (s : twice_set)
    (M : Nat → Nat) (l1 l2 : List Nat) :
    write_all c g q s M (l1 ++ l2) = write_all c g q s (write_all c g q s M l1) l2 := by
  unfold write_all
  rw [List.foldl_append]

theorem write_all_cons (c : Config) (g : Nat → Nat → Nat) (q : Nat) (s : twice_set)
    (M : Nat → Nat) (x : Nat) (l : List Nat) :
    write_all c g q s M (x :: l)
      = write_all c g q s
          (if survives c g q s x then Function.update M (g x 0) (g x 1) else M) l := by
  unfold write_all
  rw [List.foldl_cons]

theorem write_all_range_succ (c : Config) (g : Nat → Nat → Nat) (q : Nat) (s : twice_set)
    (M : Nat → Nat) (j : Nat) :
    write_all c g q s M (List.range (j + 1))
      = if survives c g q s j then
          Function.update (write_all c g q s M (List.range j)) (g j 0) (g j 1)
        else write_all c g q s M (List.range j) := by
  rw [List.range_succ, write_all_append, write_all_cons]
  rfl

theorem first_detect_range (c : Config) (g : Nat → Nat → Nat) (q : Nat) (s : twice_set)
    (M0 : Nat → Nat) :
    ∀ (k j : Nat),
      ((∀ n, j ≤ n → n < j + k → ¬ detects c g q s M0 n) →
        first_detect c g q s (List.range' j k) (write_all c g q s M0 (List.range j)) = none) ∧
      (∀ b, j ≤ b → b < j + k → (∀ n, j ≤ n → n < b → ¬ detects c g q s M0 n) →
        detects c g q s M0 b →
        first_detect c g q s (List.range' j k) (write_all c g q s M0 (List.range j))
          = some b) := by
  intro k
  induction k with
  | zero =>
    intro j
    refine ⟨fun _ => rfl, ?_⟩
    intro b h1 h2
    omega
  | succ k ih =>
    intro j
    have hr : List.range' j (k + 1) = j :: List.range' (j + 1) k := rfl
    rw [hr, first_detect]
    have hsucc := write_all_range_succ c g q s M0 j
    obtain ⟨ih1, ih2⟩ := ih (j + 1)
    by_cases hs : survives c g q s j = true
    · rw [if_pos hs] at hsucc
      rw [if_pos hs]
      by_cases hd : write_all c g q s M0 (List.range j) (g j 0) ≠ 0 ∧
          write_all c g q s M0 (List.range j) (g j 0) = g j 1
      · rw [if_pos hd]
        constructor
        · intro hno
          exact absurd ⟨hs, hd⟩ (hno j (le_refl _) (by omega))
        · intro b hb1 hb2 hno _
          by_cases hbj : b = j
          · rw [hbj]
          · exact absurd ⟨hs, hd⟩ (hno j (le_refl _) (by omega))
      · rw [if_neg hd, ← hsucc]
        constructor
        · intro hno
          exact ih1 (fun n h1 h2 => hno n (by omega) (by omega))
        · intro b hb1 hb2 hno hdb
          have hbj : b ≠ j := fun e => hd (e ▸ hdb).2
          exact ih2 b (by omega) (by omega) (fun n h1 h2 => hno n (by omega) h2) hdb
    · rw [if_neg hs] at hsucc
      rw [if_neg hs, ← hsucc]
      constructor
      · intro hno
        exact ih1 (fun n h1 h2 => hno n (by omega) (by omega))
      · intro b hb1 hb2 hno hdb
        have hbj : b ≠ j := fun e => hs (e ▸ hdb).1
        exact ih2 b (by omega) (by omega) (fun n h1 h2 => hno n (by omega) h2) hdb

/-! ## The bitmap after Phase A -/

theorem phaseA_eq (c : Config) (g : Nat → Nat → Nat) (q : Nat) :
    ∀ (l : List Nat) (s : twice_set),
      phaseA c g q l s = (l.filterMap (marks c g q)).foldl twice_set.set s := by
  intro l
  induction l with
  | nil => intro s; rfl
  | cons x l ih =>
    intro s
    unfold phaseA at ih ⊢
    rw [List.foldl_cons, ih, List.filterMap_cons]
    unfold marks
    dsimp only
    split <;> rfl

theorem foldl_set_bits_other (i : Nat) :
    ∀ (l : List Nat) (s : twice_set), (∀ x ∈ l, x / 16 ≠ i) →
      (l.foldl twice_set.set s).bits i = s.bits i := by
  intro l
  induction l with
  | nil => intro s _; rfl
  | cons x l ih =>
    intro s h
    rw [List.foldl_cons, ih _ (fun y hy => h y (List.mem_cons_of_mem _ hy)), twice_set_set_bits,
      if_neg (fun e => h x (List.mem_cons_self _ _) e.symm)]

theorem all_zero_reset_phaseA (c : Config) (g : Nat → Nat → Nat) (q : Nat) (l : List Nat)
    (s : twice_set) (hz : all_zero s)
    (hb : ∀ n ∈ l, ∀ x, marks c g q n = some x → x / 16 < TWICE_WORDS c) :
    all_zero ((phaseA c g q l s).reset c) := by
  intro i
  unfold twice_set.reset
  dsimp only
  split
  · rfl
  · next hi =>
    rw [phaseA_eq, foldl_set_bits_other i _ s, hz i]
    intro x hx e
    obtain ⟨n, hn, hm⟩ := List.mem_filterMap.1 hx
    have := hb n hn x hm
    omega

theorem count_marks_succ (c : Config) (g : Nat → Nat → Nat) (q idx H : Nat) :
    ((List.range (H + 1)).filterMap (marks c g q)).count idx
      = ((List.range H).filterMap (marks c g q)).count idx
        + (if marks c g q H = some idx then 1 else 0) := by
  rw [List.range_succ, List.filterMap_append, List.count_append]
  congr 1
  cases h : marks c g q H with
  | none => simp [List.filterMap, h]
  | some y =>
    by_cases hy : y = idx
    · subst hy
      simp [List.filterMap, h]
    · have : ¬ (some y = some idx) := fun e => hy (Option.some.inj e)
      simp [List.filterMap, h, this, List.count_cons_of_ne (Ne.symm hy)]

theorem one_le_count_marks (c : Config) (g : Nat → Nat → Nat) (q idx : Nat) :
    ∀ H, 1 ≤ ((List.range H).filterMap (marks c g q)).count idx ↔
      ∃ n, n < H ∧ marks c g q n = some idx := by
  intro H
  induction H with
  | zero => simp
  | succ H ih =>
    rw [count_marks_succ]
    constructor
    · intro h
      by_cases hm : marks c g q H = some idx
      · exact ⟨H, by omega, hm⟩
      · rw [if_neg hm] at h
        obtain ⟨n, hn, hmn⟩ := ih.1 (by omega)
        exact ⟨n, by omega, hmn⟩
    · rintro ⟨n, hn, hmn⟩
      by_cases hnH : n = H
      · subst hnH
        rw [if_pos hmn]
        omega
      · have := ih.2 ⟨n, by omega, hmn⟩
        omega

theorem two_le_count_marks (c : Config) (g : Nat → Nat → Nat) (q idx : Nat) :
    ∀ H, 2 ≤ ((List.range H).filterMap (marks c g q)).count idx ↔
      ∃ n m, n < m ∧ m < H ∧ marks c g q n = some idx ∧ marks c g q m = some idx := by
  intro H
  induction H with
  | zero => simp
  | succ H ih =>
    rw [count_marks_succ]
    constructor
    · intro h
      by_cases h2 : 2 ≤ ((List.range H).filterMap (marks c g q)).count idx
      · obtain ⟨n, m, h1, h2, h3, h4⟩ := ih.1 h2
        exact ⟨n, m, h1, by omega, h3, h4⟩
      · by_cases hm : marks c g q H = some idx
        · rw [if_pos hm] at h
          obtain ⟨n, hn, hmn⟩ := (one_le_count_marks c g q idx H).1 (by omega)
          exact ⟨n, H, hn, by omega, hmn, hm⟩
        · rw [if_neg hm] at h
          omega
    · rintro ⟨n, m, hnm, hm, h3, h4⟩
      by_cases hmH : m = H
      · subst hmH
        rw [if_pos h4]
        have := (one_le_count_marks c g q idx m).2 ⟨n, hnm, h3⟩
        omega
      · have := ih.2 ⟨n, m, hnm, by omega, h3, h4⟩
        omega

theorem test_phaseA (c : Config) (g : Nat → Nat → Nat) (q : Nat) (s : twice_set)
    (hz : all_zero s) (H idx : Nat) :
    (phaseA c g q (List.range H) s).test idx ≠ 0 ↔
      ∃ n m, n < m ∧ m < H ∧ marks c g q n = some idx ∧ marks c g q m = some idx := by
  rw [twice_set_test_ne_zero_iff, phaseA_eq, ← two_le_count_marks]
  have h := (pair_foldl ((List.range H).filterMap (marks c g q)) idx s).2
  have hlo : pair_lo s idx = false := by unfold pair_lo; rw [hz]; simp
  have hhi : pair_hi s idx = false := by unfold pair_hi; rw [hz]; simp
  rw [hlo, hhi] at h
  change pair_hi _ idx = true ↔ _
  rw [h]
  simp

/-! ## Partition-local indices -/

theorem shift_le_of_parts (c : Config) (hN : c.NUPARTS = 2 ^ c.UPART_BITS)
    (hB : 16 * c.NUPARTS ≤ HALFSIZE c) : c.UPART_BITS + 5 ≤ c.SIZESHIFT := by
  by_contra hlt
  have h1 : c.SIZESHIFT ≤ c.UPART_BITS + 4 := by omega
  have h2 : 2 ^ c.SIZESHIFT ≤ 2 ^ (c.UPART_BITS + 4) := Nat.pow_le_pow_right (by norm_num) h1
  have h3 : 0 < 2 ^ c.UPART_BITS := Nat.pow_pos (by norm_num)
  unfold HALFSIZE SIZE at hB
  rw [hN] at hB
  rw [Nat.pow_add] at h2
  omega

theorem mark_in_bounds (c : Config) (hN : c.NUPARTS = 2 ^ c.UPART_BITS)
    (hB : 16 * c.NUPARTS ≤ HALFSIZE c) (u : Nat) (hu : u < SIZE c) :
    ((u >>> 1) >>> c.UPART_BITS) / 16 < TWICE_WORDS c := by
  obtain ⟨d, hd⟩ : ∃ d, c.SIZESHIFT = c.UPART_BITS + 5 + d :=
    ⟨c.SIZESHIFT - (c.UPART_BITS + 5), by have := shift_le_of_parts c hN hB; omega⟩
  have hA : 0 < 2 ^ c.UPART_BITS := Nat.pow_pos (by norm_num)
  have hS : SIZE c = 2 ^ c.UPART_BITS * (32 * 2 ^ d) := by
    unfold SIZE
    rw [hd, Nat.pow_add, Nat.pow_add]
    ring
  have hH : HALFSIZE c = 2 ^ c.UPART_BITS * (16 * 2 ^ d) := by
    unfold HALFSIZE
    rw [hS]
    have : 2 ^ c.UPART_BITS * (32 * 2 ^ d) = 2 ^ c.UPART_BITS * (16 * 2 ^ d) * 2 := by ring
    rw [this, Nat.mul_div_cancel _ (by norm_num : 0 < 2)]
  have hP : PART_SIZE c = 16 * 2 ^ d := by
    unfold PART_SIZE
    rw [hH, hN, Nat.add_sub_assoc hA, Nat.mul_add_div hA,
      Nat.div_eq_of_lt (Nat.sub_lt hA (by norm_num)), Nat.add_zero]
  have hT : TWICE_WORDS c = 2 ^ d := by
    unfold TWICE_WORDS ONCE_BITS
    rw [hP]
    omega
  rw [hT, Nat.shiftRight_eq_div_pow, Nat.shiftRight_eq_div_pow, Nat.pow_one,
    Nat.div_lt_iff_lt_mul (by norm_num), Nat.div_lt_iff_lt_mul hA,
    Nat.div_lt_iff_lt_mul (by norm_num)]
  rw [hS] at hu
  calc u < 2 ^ c.UPART_BITS * (32 * 2 ^ d) := hu
    _ = 2 ^ d * 16 * 2 ^ c.UPART_BITS * 2 := by ring

theorem node_of_index (c : Config) (hN : c.NUPARTS = 2 ^ c.UPART_BITS) (x y q : Nat)
    (hx : x &&& UPART_MASK c = q) (hy : y &&& UPART_MASK c = q)
    (h : x >>> c.UPART_BITS = y >>> c.UPART_BITS) : x = y := by
  unfold UPART_MASK at hx hy
  rw [hN, Nat.and_pow_two_sub_one_eq_mod] at hx hy
  rw [Nat.shiftRight_eq_div_pow, Nat.shiftRight_eq_div_pow] at h
  rw [← Nat.div_add_mod x (2 ^ c.UPART_BITS), ← Nat.div_add_mod y (2 ^ c.UPART_BITS), h, hx, hy]

theorem marks_eq_some (c : Config) (g : Nat → Nat → Nat) (q n idx : Nat) :
    marks c g q n = some idx ↔
      g n 0 >>> 1 ≠ 0 ∧ (g n 0 >>> 1) &&& UPART_MASK c = q ∧
        (g n 0 >>> 1) >>> c.UPART_BITS = idx := by
  unfold marks
  split
  · next h =>
    constructor
    · intro e
      exact ⟨h.1, h.2, Option.some.inj e⟩
    · intro e
      rw [e.2.2]
  · next h =>
    constructor
    · intro e
      cases e
    · intro e
      exact absurd ⟨e.1, e.2.1⟩ h

/-- After Phase A on a zeroed bitmap, a nonce passes the three filters of Phase B exactly
when its u-endpoint is non-zero, lies in the partition and is shared with another nonce
(the generator's u-endpoints being even, `NUPARTS = 2^UPART_BITS`). -/
theorem survives_iff_shared (c : Config) (hN : c.NUPARTS = 2 ^ c.UPART_BITS)
    (g : Nat → Nat → Nat) (hg : ∀ n, n < HALFSIZE c → g n 0 % 2 = 0) (q : Nat) (s : twice_set)
    (hz : all_zero s) (n : Nat) (hn : n < HALFSIZE c) :
    survives c g q (phaseA c g q (List.range (HALFSIZE c)) s) n = true ↔
      g n 0 ≠ 0 ∧ (g n 0 >>> 1) &&& UPART_MASK c = q ∧
        ∃ m, m < HALFSIZE c ∧ m ≠ n ∧ g m 0 = g n 0 := by
  rw [survives_iff, test_phaseA c g q s hz]
  have hshift : ∀ x, x >>> 1 = x / 2 := fun x => by
    rw [Nat.shiftRight_eq_div_pow, Nat.pow_one]
  constructor
  · rintro ⟨h0, hp, n1, n2, h12, h2H, hm1, hm2⟩
    refine ⟨h0, hp, ?_⟩
    rw [marks_eq_some] at hm1 hm2
    have key : ∀ m, m < HALFSIZE c → (g m 0 >>> 1) &&& UPART_MASK c = q →
        (g m 0 >>> 1) >>> c.UPART_BITS = (g n 0 >>> 1) >>> c.UPART_BITS → g m 0 = g n 0 := by
      intro m hm hpm hidx
      have e := node_of_index c hN _ _ q hpm hp hidx
      rw [hshift, hshift] at e
      have := hg m hm
      have := hg n hn
      omega
    by_cases hn1 : n1 = n
    · exact ⟨n2, h2H, by omega, key n2 h2H hm2.2.1 hm2.2.2⟩
    · exact ⟨n1, by omega, hn1, key n1 (by omega) hm1.2.1 hm1.2.2⟩
  · rintro ⟨h0, hp, m, hm, hmn, he⟩
    refine ⟨h0, hp, ?_⟩
    have hu1 : g n 0 >>> 1 ≠ 0 := by
      rw [hshift]
      have := hg n hn
      omega
    have mk1 : marks c g q n = some ((g n 0 >>> 1) >>> c.UPART_BITS) :=
      (marks_eq_some c g q n _).2 ⟨hu1, hp, rfl⟩
    have mk2 : marks c g q m = some ((g n 0 >>> 1) >>> c.UPART_BITS) :=
      (marks_eq_some c g q m _).2 ⟨by rw [he]; exact hu1, by rw [he]; exact hp, by rw [he]⟩
    rcases Nat.lt_or_gt_of_ne hmn with h | h
    · exact ⟨m, n, h, hn, mk2, mk1⟩
    · exact ⟨n, m, h, hm, mk1, mk2⟩

/-! ## Which nonces detect -/

theorem write_all_range_none (c : Config) (g : Nat → Nat → Nat) (q : Nat) (s : twice_set)
    (M0 : Nat → Nat) (w : Nat) :
    ∀ (k j : Nat), (∀ n, j ≤ n → n < j + k → ¬ (survives c g q s n = true ∧ g n 0 = w)) →
      write_all c g q s M0 (List.range (j + k)) w = write_all c g q s M0 (List.range j) w := by
  intro k
  induction k with
  | zero => intro j _; rfl
  | succ k ih =>
    intro j h
    rw [← Nat.add_assoc, write_all_range_succ]
    have hq := h (j + k) (by omega) (by omega)
    have hrec := ih j (fun n h1 h2 => h n h1 (by omega))
    split
    · next hs =>
      rw [Function.update_noteq (fun e => hq ⟨hs, e.symm⟩), hrec]
    · exact hrec

theorem write_all_range_some (c : Config) (g : Nat → Nat → Nat) (q : Nat) (s : twice_set)
    (M0 : Nat → Nat) (w : Nat) :
    ∀ (k j : Nat), (∃ n, j ≤ n ∧ n < j + k ∧ survives c g q s n = true ∧ g n 0 = w) →
      ∃ m, j ≤ m ∧ m < j + k ∧ survives c g q s m = true ∧ g m 0 = w ∧
        write_all c g q s M0 (List.range (j + k)) w = g m 1 := by
  intro k
  induction k with
  | zero =>
    rintro j ⟨n, h1, h2, _⟩
    omega
  | succ k ih =>
    rintro j ⟨n, h1, h2, h3, h4⟩
    rw [← Nat.add_assoc, write_all_range_succ]
    by_cases hq : survives c g q s (j + k) = true ∧ g (j + k) 0 = w
    · refine ⟨j + k, by omega, by omega, hq.1, hq.2, ?_⟩
      rw [if_pos hq.1, ← hq.2, Function.update_same]
    · have hn : n < j + k := by
        rcases Nat.lt_or_ge n (j + k) with h | h
        · exact h
        · have : n = j + k := by omega
          subst this
          exact absurd ⟨h3, h4⟩ hq
      obtain ⟨m, m1, m2, m3, m4, m5⟩ := ih j ⟨n, h1, hn, h3, h4⟩
      refine ⟨m, m1, by omega, m3, m4, ?_⟩
      split
      · next hs =>
        rw [Function.update_noteq (fun e => hq ⟨hs, e.symm⟩), m5]
      · exact m5

theorem write_all_range_writer (c : Config) (g : Nat → Nat → Nat) (q : Nat) (s : twice_set)
    (w n : Nat) (h : write_all c g q s (fun _ => 0) (List.range n) w ≠ 0) :
    ∃ m, m < n ∧ survives c g q s m = true ∧ g m 0 = w ∧
      write_all c g q s (fun _ => 0) (List.range n) w = g m 1 := by
  by_cases hex : ∃ m, 0 ≤ m ∧ m < 0 + n ∧ survives c g q s m = true ∧ g m 0 = w
  · obtain ⟨m, _, m2, m3, m4, m5⟩ := write_all_range_some c g q s (fun _ => 0) w n 0 hex
    rw [Nat.zero_add] at m2 m5
    exact ⟨m, m2, m3, m4, m5⟩
  · exfalso
    apply h
    have := write_all_range_none c g q s (fun _ => 0) w n 0
      (fun m h1 h2 hq => hex ⟨m, h1, h2, hq.1, hq.2⟩)
    rw [Nat.zero_add] at this
    rw [this]
    rfl

/-- In the first round of a pass only the second nonce of the 2-cycle can detect. -/
theorem detects_round0 (c : Config) (g : Nat → Nat → Nat) (a b : Nat) (hc : one_cycle c g a b)
    (q : Nat) (s : twice_set) (n : Nat) (hn : n < HALFSIZE c)
    (h : detects c g q s (fun _ => 0) n) :
    n = b ∧ (g b 0 >>> 1) &&& UPART_MASK c = q := by
  obtain ⟨hs, hne, hval⟩ := h
  obtain ⟨m, hm, _, hm0, hm1⟩ := write_all_range_writer c g q s (g n 0) n hne
  have hedge : sipedge g m = sipedge g n := by
    unfold sipedge
    rw [hm0, ← hm1, hval]
  have := (hc.2.2.2 m n hm hn hedge).2
  subst this
  exact ⟨rfl, ((survives_iff c g q s n).1 hs).2.1⟩

/-- The second nonce of the 2-cycle detects in the first round of the pass of its
partition, provided no nonce between the two has the same u-endpoint. -/
theorem detects_at_second (c : Config) (hN : c.NUPARTS = 2 ^ c.UPART_BITS)
    (g : Nat → Nat → Nat) (hg : ∀ n, n < HALFSIZE c → g n 0 % 2 = 0) (a b : Nat)
    (hc : one_cycle c g a b) (hu0 : g a 0 ≠ 0) (hv0 : g a 1 ≠ 0)
    (hadj : ∀ n, a < n → n < b → g n 0 ≠ g a 0) (s : twice_set) (hz : all_zero s) :
    detects c g ((g a 0 >>> 1) &&& UPART_MASK c)
      (phaseA c g ((g a 0 >>> 1) &&& UPART_MASK c) (List.range (HALFSIZE c)) s)
      (fun _ => 0) b := by
  obtain ⟨hab, hb, hedge, _⟩ := hc
  have hu : g a 0 = g b 0 := congrArg Prod.fst hedge
  have hv : g a 1 = g b 1 := congrArg Prod.snd hedge
  have hsa := (survives_iff_shared c hN g hg _ s hz a (by omega)).2
    ⟨hu0, rfl, b, hb, by omega, hu.symm⟩
  have hsb := (survives_iff_shared c hN g hg _ s hz b hb).2
    ⟨hu ▸ hu0, by rw [← hu], a, by omega, by omega, hu⟩
  have hval : write_all c g ((g a 0 >>> 1) &&& UPART_MASK c)
      (phaseA c g ((g a 0 >>> 1) &&& UPART_MASK c) (List.range (HALFSIZE c)) s)
      (fun _ => 0) (List.range b) (g b 0) = g b 1 := by
    obtain ⟨k, hk⟩ : ∃ k, b = a + 1 + k := ⟨b - a - 1, by omega⟩
    subst hk
    rw [write_all_range_none _ g _ _ _ _ k (a + 1)
      (fun n h1 h2 hq => hadj n (by omega) (by omega) (hq.2.trans hu.symm)),
      write_all_range_succ, if_pos hsa, ← hu, Function.update_same, hv]
  exact ⟨hsb, by rw [hval, ← hv]; exact hv0, hval⟩

/-- In the second round of a pass of a partition other than the 2-cycle's, no nonce
detects. -/
theorem detects_round1 (c : Config) (hN : c.NUPARTS = 2 ^ c.UPART_BITS)
    (g : Nat → Nat → Nat) (hg : ∀ n, n < HALFSIZE c → g n 0 % 2 = 0) (a b : Nat)
    (hc : one_cycle c g a b) (q : Nat) (hq : q ≠ (g a 0 >>> 1) &&& UPART_MASK c)
    (s : twice_set) (hz : all_zero s) (n : Nat) (hn : n < HALFSIZE c) :
    ¬ detects c g q (phaseA c g q (List.range (HALFSIZE c)) s)
      (write_all c g q (phaseA c g q (List.range (HALFSIZE c)) s) (fun _ => 0)
        (List.range (HALFSIZE c))) n := by
  rintro ⟨hs, hne, hval⟩
  have hu : g a 0 = g b 0 := congrArg Prod.fst hc.2.2.1
  obtain ⟨h0, hp, m1, hm1, hm1n, hm1u⟩ := (survives_iff_shared c hN g hg q s hz n hn).1 hs
  have hsm1 := (survives_iff_shared c hN g hg q s hz m1 hm1).2
    ⟨by rw [hm1u]; exact h0, by rw [hm1u]; exact hp, n, hn, Ne.symm hm1n, hm1u.symm⟩
  by_cases hex : ∃ m, 0 ≤ m ∧ m < 0 + n ∧
      survives c g q (phaseA c g q (List.range (HALFSIZE c)) s) m = true ∧ g m 0 = g n 0
  · obtain ⟨m, _, m2, _, m4, m5⟩ := write_all_range_some c g q _ _ (g n 0) n 0 hex
    rw [Nat.zero_add] at m2 m5
    have hedge : sipedge g m = sipedge g n := by
      unfold sipedge
      rw [m4, ← m5, hval]
    have := (hc.2.2.2 m n m2 hn hedge).2
    subst this
    exact hq (by rw [hu]; exact hp.symm)
  · have hnone := write_all_range_none c g q _
      (write_all c g q (phaseA c g q (List.range (HALFSIZE c)) s) (fun _ => 0)
        (List.range (HALFSIZE c))) (g n 0) n 0
      (fun m h1 h2 hqq => hex ⟨m, h1, h2, hqq.1, hqq.2⟩)
    rw [Nat.zero_add] at hnone
    rw [hnone] at hval
    change write_all c g q (phaseA c g q (List.range (HALFSIZE c)) s) (fun _ => 0)
      (List.range (HALFSIZE c)) (g n 0) = g n 1 at hval
    have hgt : n < m1 := by
      rcases Nat.lt_or_ge n m1 with h | h
      · exact h
      · exact absurd ⟨m1, Nat.zero_le _, by omega, hsm1, hm1u⟩ hex
    obtain ⟨k, hk⟩ : ∃ k, HALFSIZE c = n + 1 + k := ⟨HALFSIZE c - n - 1, by omega⟩
    obtain ⟨m, m1', m2, _, m4, m5⟩ := write_all_range_some c g q
      (phaseA c g q (List.range (HALFSIZE c)) s) (fun _ => 0) (g n 0) k (n + 1)
      ⟨m1, by omega, by omega, hsm1, hm1u⟩
    rw [← hk] at m5 m2
    have hedge : sipedge g n = sipedge g m := by
      unfold sipedge
      rw [m4, ← hval, m5]
    have := (hc.2.2.2 n m (by omega) m2 hedge).1
    subst this
    exact hq hp.symm

/-! ## The passes of the sweep -/

theorem good_table_zero (c : Config) (B : Nat) (t : cuckoo_hash) (hz : zero_slots t)
    (hB : t.nstored ≤ B) : good_table c B t (fun _ => 0) 0 := by
  refine ⟨fun i hi hne => absurd (hz i hi) hne, ?_, by omega, ?_⟩
  · unfold occupied
    rw [Nat.le_zero, Finset.card_eq_zero, Finset.filter_eq_empty_iff]
    intro i hi
    rw [hz i (Finset.mem_range.1 hi)]
    exact fun h => h rfl
  · intro w _
    unfold cuckoo_hash.get
    obtain ⟨f, hf⟩ : ∃ f, CUCKOO_SIZE = f + 1 := ⟨CUCKOO_SIZE - 1, by decide⟩
    rw [hf, cuckoo_hash.getLoop, ← hf]
    simp only [hz _ (Nat.mod_lt w CUCKOO_SIZE_pos), if_true]

theorem zero_slots_new (ns0 : Nat) : zero_slots (cuckoo_hash.new ns0) := fun _ _ => rfl

theorem zero_slots_clear (t : cuckoo_hash) : zero_slots t.clear := by
  intro i hi
  unfold cuckoo_hash.clear
  simp only [hi, if_true]

theorem SIZESHIFT_le_of_small (c : Config) (hsize : 2 * HALFSIZE c < CUCKOO_SIZE) :
    c.SIZESHIFT ≤ 32 := by
  by_contra h
  have h1 : 2 ^ 33 ≤ 2 ^ c.SIZESHIFT := Nat.pow_le_pow_right (by norm_num) (by omega)
  unfold HALFSIZE SIZE at hsize
  rw [CUCKOO_SIZE_eq] at hsize
  omega

theorem first_detect_none (c : Config) (g : Nat → Nat → Nat) (q : Nat) (s : twice_set)
    (M0 : Nat → Nat) (H : Nat) (h : ∀ n, n < H → ¬ detects c g q s M0 n) :
    first_detect c g q s (List.range H) M0 = none := by
  rw [List.range_eq_range']
  exact (first_detect_range c g q s M0 H 0).1 (fun n _ hn => h n (by omega))

theorem first_detect_some (c : Config) (g : Nat → Nat → Nat) (q : Nat) (s : twice_set)
    (M0 : Nat → Nat) (H b : Nat) (hb : b < H) (h : ∀ n, n < b → ¬ detects c g q s M0 n)
    (hd : detects c g q s M0 b) :
    first_detect c g q s (List.range H) M0 = some b := by
  rw [List.range_eq_range']
  exact (first_detect_range c g q s M0 H 0).2 b (Nat.zero_le _) (by omega)
    (fun n _ hn => h n hn) hd

/-- The pass of a partition other than the 2-cycle's ends without a detection. -/
theorem pass_no_detect (c : Config) (hN : c.NUPARTS = 2 ^ c.UPART_BITS)
    (hsize : 2 * HALFSIZE c < CUCKOO_SIZE) (g : Nat → Nat → Nat)
    (hg : ∀ n, n < HALFSIZE c → g n 0 < SIZE c ∧ g n 0 % 2 = 0 ∧ g n 1 < SIZE c)
    (a b : Nat) (hc : one_cycle c g a b) (q : Nat)
    (hq : q ≠ (g a 0 >>> 1) &&& UPART_MASK c) (s : twice_set) (hz : all_zero s) (B : Nat)
    (hB : B + CUCKOO_SIZE < 2 ^ 32) (t : cuckoo_hash) (ht : good_table c B t (fun _ => 0) 0)
    (mb : Bool) :
    ∃ t1, depthLoop c g q (phaseA c g q (List.range (HALFSIZE c)) s) (bfsdepth mb) 0 t
      = some (PassEnd.done t1) := by
  have hS := SIZESHIFT_le_of_small c hsize
  have hu : g a 0 = g b 0 := congrArg Prod.fst hc.2.2.1
  have hg2 : ∀ n, n < HALFSIZE c → g n 0 < SIZE c ∧ g n 1 < SIZE c :=
    fun n hn => ⟨(hg n hn).1, (hg n hn).2.2⟩
  have hmem : ∀ n ∈ List.range (HALFSIZE c), n < HALFSIZE c := fun n hn => List.mem_range.1 hn
  have fd0 := first_detect_none c g q (phaseA c g q (List.range (HALFSIZE c)) s) (fun _ => 0)
    (HALFSIZE c) (fun n hn hd => hq (by
      have := (detects_round0 c g a b hc q _ n hn hd).2
      rw [hu]
      exact this.symm))
  obtain ⟨t1, hr1, hgood1⟩ := (round_refines c hS g hg2 q _ B _ t _ 0 ht hmem
    (by rw [List.length_range]; omega) (by rw [List.length_range]; omega)).1 fd0
  rw [List.length_range] at hgood1
  cases mb with
  | true =>
    have hb1 : bfsdepth true = 1 := rfl
    rw [hb1, depthLoop, hr1]
    dsimp only
    split
    · exact ⟨t1, rfl⟩
    · exact ⟨t1, rfl⟩
  | false =>
    have hb2 : bfsdepth false = 2 := rfl
    rw [hb2, depthLoop, hr1]
    dsimp only
    split
    · exact ⟨t1, rfl⟩
    · have fd1 := first_detect_none c g q (phaseA c g q (List.range (HALFSIZE c)) s)
        (write_all c g q (phaseA c g q (List.range (HALFSIZE c)) s) (fun _ => 0)
          (List.range (HALFSIZE c)))
        (HALFSIZE c)
        (fun n hn => detects_round1 c hN g (fun n hn => (hg n hn).2.1) a b hc q hq s hz n hn)
      obtain ⟨t2, hr2, _⟩ := (round_refines c hS g hg2 q _ B _ t1 _ _ hgood1 hmem
        (by rw [List.length_range]; omega) (by rw [List.length_range]; omega)).1 fd1
      rw [depthLoop, hr2]
      dsimp only
      split
      · exact ⟨t2, rfl⟩
      · exact ⟨t2, rfl⟩

/-- The pass of the 2-cycle's partition ends in `solution` at the second nonce. -/
theorem pass_detect (c : Config) (hN : c.NUPARTS = 2 ^ c.UPART_BITS)
    (hsize : 2 * HALFSIZE c < CUCKOO_SIZE) (g : Nat → Nat → Nat)
    (hg : ∀ n, n < HALFSIZE c → g n 0 < SIZE c ∧ g n 0 % 2 = 0 ∧ g n 1 < SIZE c)
    (a b : Nat) (hc : one_cycle c g a b) (hu0 : g a 0 ≠ 0) (hv0 : g a 1 ≠ 0)
    (hadj : ∀ n, a < n → n < b → g n 0 ≠ g a 0) (s : twice_set) (hz : all_zero s) (B : Nat)
    (hB : B + CUCKOO_SIZE < 2 ^ 32) (t : cuckoo_hash) (ht : good_table c B t (fun _ => 0) 0)
    (mb : Bool) :
    depthLoop c g ((g a 0 >>> 1) &&& UPART_MASK c)
        (phaseA c g ((g a 0 >>> 1) &&& UPART_MASK c) (List.range (HALFSIZE c)) s)
        (bfsdepth mb) 0 t
      = some (PassEnd.solved (Outcome.found 0 b
          (solution c g (path2 (g b 0) (g b 1)) 1 (path2 (g b 1) 0) 0).1
          (solution c g (path2 (g b 0) (g b 1)) 1 (path2 (g b 1) 0) 0).2)) := by
  have hS := SIZESHIFT_le_of_small c hsize
  have hg2 : ∀ n, n < HALFSIZE c → g n 0 < SIZE c ∧ g n 1 < SIZE c :=
    fun n hn => ⟨(hg n hn).1, (hg n hn).2.2⟩
  have hmem : ∀ n ∈ List.range (HALFSIZE c), n < HALFSIZE c := fun n hn => List.mem_range.1 hn
  have fd := first_detect_some c g _
    (phaseA c g ((g a 0 >>> 1) &&& UPART_MASK c) (List.range (HALFSIZE c)) s) (fun _ => 0)
    (HALFSIZE c) b hc.2.1
    (fun n hn hd => by
      have := (detects_round0 c g a b hc _ _ n (by have := hc.2.1; omega) hd).1
      omega)
    (detects_at_second c hN g (fun n hn => (hg n hn).2.1) a b hc hu0 hv0 hadj s hz)
  have hr := (round_refines c hS g hg2 _ _ B _ t _ 0 ht hmem
    (by rw [List.length_range]; omega) (by rw [List.length_range]; omega)).2 b fd
  obtain ⟨k, hk⟩ : ∃ k, bfsdepth mb = k + 1 := by
    cases mb
    · exact ⟨1, rfl⟩
    · exact ⟨0, rfl⟩
  rw [hk, depthLoop, hr]

theorem filter_two (p : Nat → Bool) (H a b : Nat) (hab : a < b) (hb : b < H)
    (hp : ∀ n, n < H → (p n = true ↔ n = a ∨ n = b)) :
    (List.range H).filter p = [a, b] := by
  have hs1 : List.Sorted (fun x y : Nat => x < y) ((List.range H).filter p) :=
    List.Sorted.filter _ (List.sorted_lt_range _)
  have hs2 : List.Sorted (fun x y : Nat => x < y) [a, b] := by
    simp [List.Sorted, hab]
  have hperm : ((List.range H).filter p).Perm [a, b] := by
    rw [List.perm_ext_iff_of_nodup ((List.nodup_range H).filter p) (by simp; omega)]
    intro n
    rw [List.mem_filter, List.mem_range]
    constructor
    · rintro ⟨h1, h2⟩
      have := (hp n h1).1 h2
      simpa using this
    · intro h
      have h' : n = a ∨ n = b := by simpa using h
      have hn : n < H := by rcases h' with e | e <;> omega
      exact ⟨hn, (hp n hn).2 h'⟩
  exact List.eq_of_perm_of_sorted hperm hs1 hs2

theorem solution_of_one_cycle (c : Config) (g : Nat → Nat → Nat) (a b : Nat)
    (hc : one_cycle c g a b) :
    solution c g (path2 (g b 0) (g b 1)) 1 (path2 (g b 1) 0) 0 = ([a, b], 2) := by
  obtain ⟨h1, _, _, h4⟩ := solution_scan c g (path2 (g b 0) (g b 1)) 1 (path2 (g b 1) 0) 0
  have hf : (solution c g (path2 (g b 0) (g b 1)) 1 (path2 (g b 1) 0) 0).1 = [a, b] := by
    rw [h1]
    apply filter_two _ _ a b hc.1 hc.2.1
    intro n hn
    rw [decide_eq_true_eq, cycle_edges_detect]
    change sipedge g n = sipedge g b ↔ _
    constructor
    · intro he
      rcases Nat.lt_trichotomy n b with h | h | h
      · exact Or.inl (hc.2.2.2 n b h hc.2.1 he).1
      · exact Or.inr h
      · have := (hc.2.2.2 b n h hn he.symm).1
        have := hc.1
        omega
    · rintro (e | e)
      · rw [e]; exact hc.2.2.1
      · rw [e]
  rw [hf] at h4
  exact Prod.ext hf h4

theorem partLoop_finds (c : Config) (hN : c.NUPARTS = 2 ^ c.UPART_BITS)
    (hB : 16 * c.NUPARTS ≤ HALFSIZE c) (hsize : 2 * HALFSIZE c < CUCKOO_SIZE)
    (g : Nat → Nat → Nat)
    (hg : ∀ n, n < HALFSIZE c → g n 0 < SIZE c ∧ g n 0 % 2 = 0 ∧ g n 1 < SIZE c)
    (a b : Nat) (hc : one_cycle c g a b) (hu0 : g a 0 ≠ 0) (hv0 : g a 1 ≠ 0)
    (hadj : ∀ n, a < n → n < b → g n 0 ≠ g a 0) (ns0 : Nat)
    (hns : ns0 + CUCKOO_SIZE < 2 ^ 32) (mb : Bool) :
    ∀ (k upart : Nat) (s : twice_set) (t : cuckoo_hash), all_zero s → zero_slots t →
      t.nstored ≤ ns0 → upart ≤ (g a 0 >>> 1) &&& UPART_MASK c →
      (g a 0 >>> 1) &&& UPART_MASK c < upart + k →
      partLoop c g mb k upart s t = some (Outcome.found 0 b [a, b] 2) := by
  intro k
  induction k with
  | zero =>
    intro upart s t _ _ _ h1 h2
    omega
  | succ k ih =>
    intro upart s t hz ht hn h1 h2
    rw [partLoop]
    by_cases hp : upart = (g a 0 >>> 1) &&& UPART_MASK c
    · rw [hp, pass_detect c hN hsize g hg a b hc hu0 hv0 hadj s hz ns0 hns t
        (good_table_zero c ns0 t ht hn) mb, solution_of_one_cycle c g a b hc]
    · obtain ⟨t1, h⟩ := pass_no_detect c hN hsize g hg a b hc upart hp s hz ns0 hns t
        (good_table_zero c ns0 t ht hn) mb
      rw [h]
      dsimp only
      apply ih
      · apply all_zero_reset_phaseA c g upart _ s hz
        intro n hn1 x hm
        rw [marks_eq_some] at hm
        rw [← hm.2.2]
        exact mark_in_bounds c hN hB (g n 0) (hg n (List.mem_range.1 hn1)).1
      · exact zero_slots_clear t1
      · exact Nat.zero_le _
      · omega
      · omega

theorem gen_pair_one_cycle : one_cycle cfg11 gen_pair 17 20 := by
  refine ⟨by decide, by decide, rfl, ?_⟩
  intro a1 b1 h1 _ he
  have e0 : gen_pair a1 0 = gen_pair b1 0 := congrArg Prod.fst he
  unfold gen_pair at e0
  simp only [if_true] at e0
  split at e0 <;> split at e0 <;> omega

/-- C6, as amended.  Completeness of the sweep.  In a build with
`NUPARTS = 2^UPART_BITS`, `16*NUPARTS <= HALFSIZE` and `2*HALFSIZE < CUCKOO_SIZE`, with a
table counter that starts below `2^32 - CUCKOO_SIZE`, and for every edge generator whose
endpoints are below `SIZE` and whose u-endpoints are even: if exactly one pair of distinct
nonces `a < b` has the same edge, that edge has non-zero endpoints, the partition
`(u >> 1) & UPART_MASK` of its u-endpoint is below the runtime partition count `nparts`,
and no nonce strictly between `a` and `b` has the same u-endpoint, then the
single-threaded sweep, with minimal-search mode on or off, detects the cycle at nonce `b`
in round 0, prints exactly `[a, b]` and passes the assertion. -/
theorem sweep_finds_the_cycle (c : Config) (g : Nat → Nat → Nat) (ns0 nparts : Nat)
    (mb : Bool) (a b : Nat) (hN : c.NUPARTS = 2 ^ c.UPART_BITS)
    (hB : 16 * c.NUPARTS ≤ HALFSIZE c) (hsize : 2 * HALFSIZE c < CUCKOO_SIZE)
    (hns : ns0 + CUCKOO_SIZE < 2 ^ 32)
    (hg : ∀ n, n < HALFSIZE c → g n 0 < SIZE c ∧ g n 0 % 2 = 0 ∧ g n 1 < SIZE c)
    (hc : one_cycle c g a b) (hu0 : g a 0 ≠ 0) (hv0 : g a 1 ≠ 0)
    (hpart : (g a 0 >>> 1) &&& UPART_MASK c < nparts)
    (hadj : ∀ n, a < n → n < b → g n 0 ≠ g a 0) :
    worker c g ns0 nparts mb = some (Outcome.found 0 b [a, b] 2) ∧
    (Outcome.found 0 b [a, b] 2).assertion = true := by
  refine ⟨?_, rfl⟩
  unfold worker
  exact partLoop_finds c hN hB hsize g hg a b hc hu0 hv0 hadj ns0 hns mb nparts 0
    twice_set.new (cuckoo_hash.new ns0) (fun _ => rfl) (zero_slots_new ns0) (le_refl _)
    (Nat.zero_le _) (by omega)

theorem gen_pair_contract (n : Nat) (hn : n < HALFSIZE cfg11) :
    gen_pair n 0 < SIZE cfg11 ∧ gen_pair n 0 % 2 = 0 ∧ gen_pair n 1 < SIZE cfg11 := by
  have hH : HALFSIZE cfg11 = 1024 := by decide
  have hS : SIZE cfg11 = 2048 := by decide
  rw [hH] at hn
  rw [hS]
  unfold gen_pair
  simp only [if_true]
  have h10 : ¬ ((1 : Nat) = 0) := by decide
  simp only [h10, if_false]
  split <;> omega

theorem sweep_finds_the_cycle_witness :
    cfg11.NUPARTS = 2 ^ cfg11.UPART_BITS ∧ 16 * cfg11.NUPARTS ≤ HALFSIZE cfg11 ∧
    2 * HALFSIZE cfg11 < CUCKOO_SIZE ∧ one_cycle cfg11 gen_pair 17 20 ∧
    (gen_pair 17 0 >>> 1) &&& UPART_MASK cfg11 < 64 ∧
    worker cfg11 gen_pair 0 64 true = some (Outcome.found 0 20 [17, 20] 2) :=
  ⟨by decide, by decide, by decide, gen_pair_one_cycle, by decide,
    (sweep_finds_the_cycle cfg11 gen_pair 0 64 true 17 20 (by decide) (by decide) (by decide)
      (by decide) gen_pair_contract gen_pair_one_cycle (by decide) (by decide) (by decide)
      (by
        intro n h1 h2
        have : n = 18 ∨ n = 19 := by omega
        rcases this with e | e <;> subst e <;> decide)).1⟩

set_option maxRecDepth 1000000 in
/-- C6, counterexample.  In the default build with `SIZESHIFT = 11` the generator
`gen_pair` admits exactly one 2-cycle, nonces 17 and 20 with the edge `(34, 35)`, whose
u-endpoint lies in partition 17; with partition counts 1, 4 and 16 the sweep never visits
that partition and ends without a solution, minimal-search mode on or off. -/
theorem sweep_misses_the_cycle :
    one_cycle cfg11 gen_pair 17 20 ∧
    worker cfg11 gen_pair 0 1 false = some Outcome.no_solution ∧
    worker cfg11 gen_pair 0 4 false = some Outcome.no_solution ∧
    worker cfg11 gen_pair 0 16 false = some Outcome.no_solution ∧
    worker cfg11 gen_pair 0 1 true = some Outcome.no_solution ∧
    worker cfg11 gen_pair 0 4 true = some Outcome.no_solution ∧
    worker cfg11 gen_pair 0 16 true = some Outcome.no_solution :=
  ⟨gen_pair_one_cycle, by decide, by decide, by decide, by decide, by decide, by decide⟩

/-! ## Occupancy during a round -/

theorem round_append (c : Config) (g : Nat → Nat → Nat) (q : Nat) (s : twice_set)
    (l2 : List Nat) :
    ∀ (l1 : List Nat) (t : cuckoo_hash),
      round c g q s (l1 ++ l2) t =
        match round c g q s l1 t with
        | some (RoundEnd.finished t1) => round c g q s l2 t1
        | r => r := by
  intro l1
  induction l1 with
  | nil => intro t; rfl
  | cons x l1 ih =>
    intro t
    rw [List.cons_append]
    cases hs : survives c g q s x with
    | false => rw [round_cons_skip c g q s x _ t hs, round_cons_skip c g q s x _ t hs, ih]
    | true =>
      rw [round_cons_surv c g q s x _ t hs, round_cons_surv c g q s x _ t hs]
      cases t.get c (g x 0) with
      | none => rfl
      | some u =>
        dsimp only
        split
        · rfl
        · cases t.set c (g x 0) (g x 1) with
          | none => rfl
          | some t1 => exact ih t1

theorem sweep_state_reachable (c : Config) (hS : c.SIZESHIFT ≤ 32) (g : Nat → Nat → Nat)
    (hg : ∀ n, n < HALFSIZE c → g n 0 < SIZE c ∧ g n 1 < SIZE c) (t : cuckoo_hash)
    (h : sweep_state c g t) : reachable c t := by
  induction h with
  | clear t0 => exact reachable.clear t0
  | set t t1 nonce _ hn h0 hset ih =>
    exact reachable.set t t1 _ _ ih (Nat.pos_of_ne_zero h0)
      (lt_of_lt_of_le (hg nonce hn).1 (SIZE_le c hS))
      (lt_of_lt_of_le (hg nonce hn).2 (SIZE_le c hS)) hset

theorem sweep_state_round (c : Config) (g : Nat → Nat → Nat) (q : Nat) (s : twice_set) :
    ∀ (l : List Nat) (t t1 : cuckoo_hash), sweep_state c g t → (∀ n ∈ l, n < HALFSIZE c) →
      round c g q s l t = some (RoundEnd.finished t1) → sweep_state c g t1 := by
  intro l
  induction l with
  | nil =>
    intro t t1 ht _ h
    rw [round] at h
    cases h
    exact ht
  | cons x l ih =>
    intro t t1 ht hl h
    have hl1 : ∀ n ∈ l, n < HALFSIZE c := fun n hn => hl n (List.mem_cons_of_mem _ hn)
    cases hs : survives c g q s x with
    | false =>
      rw [round_cons_skip c g q s x _ t hs] at h
      exact ih t t1 ht hl1 h
    | true =>
      rw [round_cons_surv c g q s x _ t hs] at h
      split at h
      · cases h
      · split at h
        · cases h
        · split at h
          · cases h
          · next t2 hset =>
            exact ih t2 t1 (sweep_state.set t t2 x ht (hl x (List.mem_cons_self _ _))
              ((survives_iff c g q s x).1 hs).1 hset) hl1 h

theorem load_ge_iff (t : cuckoo_hash) (h : t.nstored ≤ CUCKOO_SIZE) :
    90 ≤ t.load ↔ CUCKOO_SIZE * 9 / 10 ≤ t.nstored := by
  unfold cuckoo_hash.load
  rw [CUCKOO_SIZE_eq] at h ⊢
  have h3 : t.nstored * 100 / 327680 ≤ 100 := by omega
  rw [Nat.mod_eq_of_lt (by omega)]
  omega

/-- C8, as amended.  Overload invariant.  In a build with 32-bit nodes and for every
generator with endpoints below `SIZE`: in every table state reachable from `clear()` by
the `set` calls the sweep issues, `nstored` equals the number of occupied slots and is at
most `CUCKOO_SIZE`, the capacity; the states a round of Phase B passes through are such
states; and the threshold of 90% is tested only at the end of a round: when a round ends
with `nstored >= CUCKOO_SIZE*9/10`, `load() >= 90` holds and the remaining rounds of the
partition are skipped. -/
theorem overload_checked_after_round (c : Config) (hS : c.SIZESHIFT ≤ 32)
    (g : Nat → Nat → Nat) (hg : ∀ n, n < HALFSIZE c → g n 0 < SIZE c ∧ g n 1 < SIZE c) :
    (∀ t, sweep_state c g t → t.nstored = occupied t ∧ t.nstored ≤ CUCKOO_SIZE) ∧
    (∀ q s l t t1, sweep_state c g t → (∀ n ∈ l, n < HALFSIZE c) →
      round c g q s l t = some (RoundEnd.finished t1) → sweep_state c g t1) ∧
    (∀ q s k d t t1, sweep_state c g t →
      round c g q s (List.range (HALFSIZE c)) t = some (RoundEnd.finished t1) →
      CUCKOO_SIZE * 9 / 10 ≤ t1.nstored →
      90 ≤ t1.load ∧ depthLoop c g q s (k + 1) d t = some (PassEnd.done t1)) := by
  have first : ∀ t, sweep_state c g t → t.nstored = occupied t ∧ t.nstored ≤ CUCKOO_SIZE := by
    intro t ht
    have h := reachable_nstored c hS t (sweep_state_reachable c hS g hg t ht)
    exact ⟨h, h ▸ occupied_le t⟩
  refine ⟨first, fun q s l t t1 => sweep_state_round c g q s l t t1, ?_⟩
  intro q s k d t t1 ht hr hover
  have ht1 := sweep_state_round c g q s _ t t1 ht (fun n hn => List.mem_range.1 hn) hr
  have hload := (load_ge_iff t1 (first t1 ht1).2).2 hover
  refine ⟨hload, ?_⟩
  rw [depthLoop, hr]
  dsimp only
  rw [if_pos hload]

/-! ## A round that fills the table beyond the threshold -/

theorem cfg27_sizes : HALFSIZE cfg27 = 67108864 ∧ SIZE cfg27 = 134217728 := by
  constructor <;> norm_num [HALFSIZE, SIZE, cfg27]

theorem gen_fill_u (n : Nat) (hn : n < 600000) : gen_fill n 0 = 128 * (n / 2 + 1) := by
  unfold gen_fill
  rw [if_pos rfl, if_pos hn]

theorem gen_fill_v (n : Nat) : gen_fill n 1 = 2 * n + 1 := by
  unfold gen_fill
  rw [if_neg (by decide)]

theorem gen_fill_even (n : Nat) : gen_fill n 0 % 2 = 0 := by
  unfold gen_fill
  rw [if_pos rfl]
  split <;> omega

theorem gen_fill_survives (n : Nat) (hn : n < 600000) :
    survives cfg27 gen_fill 0
      (phaseA cfg27 gen_fill 0 (List.range (HALFSIZE cfg27)) twice_set.new) n = true := by
  have hH := cfg27_sizes.1
  rw [survives_iff_shared cfg27 (by decide) gen_fill (fun n _ => gen_fill_even n) 0
    twice_set.new (fun _ => rfl) n (by omega), gen_fill_u n (by omega)]
  refine ⟨by omega, ?_, ?_⟩
  · have hm : UPART_MASK cfg27 = 2 ^ 6 - 1 := by decide
    rw [hm, Nat.and_pow_two_sub_one_eq_mod, Nat.shiftRight_eq_div_pow]
    omega
  · rcases Nat.mod_two_eq_zero_or_one n with h | h
    · exact ⟨n + 1, by omega, by omega, by
        rw [gen_fill_u (n + 1) (by omega)]
        have : (n + 1) / 2 = n / 2 := by omega
        rw [this]⟩
    · exact ⟨n - 1, by omega, by omega, by
        rw [gen_fill_u (n - 1) (by omega)]
        have : (n - 1) / 2 = n / 2 := by omega
        rw [this]⟩

theorem fill_step (k : Nat) (hk : k < 300000) (t : cuckoo_hash) (hinv : table_inv cfg27 t)
    (hocc : occupied t = k) (hns : t.nstored = k)
    (hpres : ∀ w, present cfg27 t w → ∃ j, j < k ∧ w = 128 * (j + 1)) :
    ∃ t2, round cfg27 gen_fill 0
        (phaseA cfg27 gen_fill 0 (List.range (HALFSIZE cfg27)) twice_set.new)
        [2 * k, 2 * k + 1] t = some (RoundEnd.finished t2) ∧
      table_inv cfg27 t2 ∧ occupied t2 = k + 1 ∧ t2.nstored = k + 1 ∧
      ∀ w, present cfg27 t2 w → ∃ j, j < k + 1 ∧ w = 128 * (j + 1) := by
  have hS : cfg27.SIZESHIFT ≤ 32 := by decide
  have hN := CUCKOO_SIZE_eq
  have hSZ := cfg27_sizes.2
  have hu1 : gen_fill (2 * k) 0 = 128 * (k + 1) := by
    rw [gen_fill_u _ (by omega)]
    have : 2 * k / 2 = k := by omega
    rw [this]
  have hu2 : gen_fill (2 * k + 1) 0 = 128 * (k + 1) := by
    rw [gen_fill_u _ (by omega)]
    have : (2 * k + 1) / 2 = k := by omega
    rw [this]
  have hu32 : 128 * (k + 1) < 2 ^ 32 := by omega
  have habs : ¬ present cfg27 t (128 * (k + 1)) := by
    intro hp
    obtain ⟨j, hj, he⟩ := hpres _ hp
    omega
  have hemp : has_empty t := has_empty_of_occupied_lt t (by omega)
  obtain ⟨t1, hset1, hinv1, hget1, _, hpres1, hcase1⟩ :=
    set_spec cfg27 hS t hinv hemp (128 * (k + 1)) (2 * (2 * k) + 1) (by omega) hu32
      (by rw [hSZ]; omega) (by omega)
  have hcnt1 : occupied t1 = k + 1 ∧ t1.nstored = k + 1 := by
    rcases hcase1 with ⟨hp, _, _⟩ | ⟨_, h1, h2⟩
    · exact absurd hp habs
    · omega
  have hemp1 : has_empty t1 := has_empty_of_occupied_lt t1 (by omega)
  obtain ⟨t2, hset2, hinv2, _, _, hpres2, hcase2⟩ :=
    set_spec cfg27 hS t1 hinv1 hemp1 (128 * (k + 1)) (2 * (2 * k + 1) + 1) (by omega) hu32
      (by rw [hSZ]; omega) (by omega)
  have hp1 : present cfg27 t1 (128 * (k + 1)) := by
    by_contra hnp
    have := get_absent cfg27 hS t1 hemp1 _ hu32 hnp
    rw [hget1] at this
    have := Option.some.inj this
    omega
  have hcnt2 : occupied t2 = k + 1 ∧ t2.nstored = k + 1 := by
    rcases hcase2 with ⟨_, h1, h2⟩ | ⟨hp, _, _⟩
    · omega
    · exact absurd hp1 hp
  refine ⟨t2, ?_, hinv2, hcnt2.1, hcnt2.2, ?_⟩
  · rw [round_cons_surv _ _ _ _ _ _ _ (gen_fill_survives (2 * k) (by omega)), hu1,
      get_absent cfg27 hS t hemp _ hu32 habs]
    dsimp only
    rw [if_neg (fun h => h.1 rfl), gen_fill_v, hset1]
    dsimp only
    rw [round_cons_surv _ _ _ _ _ _ _ (gen_fill_survives (2 * k + 1) (by omega)), hu2, hget1]
    dsimp only
    rw [if_neg (fun h => by have := h.2; rw [gen_fill_v] at this; omega), gen_fill_v, hset2]
    rfl
  · intro w hw
    rcases hpres2 w hw with e | hw1
    · exact ⟨k, by omega, e⟩
    · rcases hpres1 w hw1 with e | hw0
      · exact ⟨k, by omega, e⟩
      · obtain ⟨j, hj, he⟩ := hpres w hw0
        exact ⟨j, by omega, he⟩

theorem fill_round (t0 : cuckoo_hash) :
    ∀ k, k ≤ 300000 →
      ∃ t, round cfg27 gen_fill 0
          (phaseA cfg27 gen_fill 0 (List.range (HALFSIZE cfg27)) twice_set.new)
          (List.range (2 * k)) t0.clear = some (RoundEnd.finished t) ∧
        table_inv cfg27 t ∧ occupied t = k ∧ t.nstored = k ∧
        ∀ w, present cfg27 t w → ∃ j, j < k ∧ w = 128 * (j + 1) := by
  intro k
  induction k with
  | zero =>
    intro _
    refine ⟨t0.clear, rfl, table_inv_clear cfg27 t0, occupied_clear t0, rfl, ?_⟩
    rintro w ⟨i, hi, hne, _⟩
    exact absurd (zero_slots_clear t0 i hi) hne
  | succ k ih =>
    intro hk
    obtain ⟨t, hr, hinv, hocc, hns, hpres⟩ := ih (by omega)
    obtain ⟨t2, hr2, h2⟩ := fill_step k (by omega) t hinv hocc hns hpres
    refine ⟨t2, ?_, h2⟩
    have e : List.range (2 * (k + 1)) = List.range (2 * k) ++ [2 * k, 2 * k + 1] := by
      have : 2 * (k + 1) = 2 * k + 1 + 1 := by ring
      rw [this, List.range_succ, List.range_succ, List.append_assoc]
      rfl
    rw [e, round_append, hr]
    exact hr2

theorem round_range_split (c : Config) (g : Nat → Nat → Nat) (q : Nat) (s : twice_set)
    (k H : Nat) (hk : k ≤ H) (t0 : cuckoo_hash) :
    round c g q s (List.range H) t0 =
      match round c g q s (List.range k) t0 with
      | some (RoundEnd.finished t1) => round c g q s (List.range' k (H - k)) t1
      | r => r := by
  have e : List.range H = List.range k ++ List.range' k (H - k) := by
    have h1 := List.range'_append_1 0 k (H - k)
    rw [Nat.zero_add] at h1
    rw [List.range_eq_range', List.range_eq_range', h1]
    congr 1
    omega
  rw [e, round_append]

theorem gen_fill_contract (n : Nat) (hn : n < HALFSIZE cfg27) :
    gen_fill n 0 < SIZE cfg27 ∧ gen_fill n 1 < SIZE cfg27 := by
  rw [cfg27_sizes.1] at hn
  rw [cfg27_sizes.2, gen_fill_v]
  refine ⟨?_, by omega⟩
  unfold gen_fill
  rw [if_pos rfl]
  split <;> omega

theorem round_all_skipped (c : Config) (g : Nat → Nat → Nat) (q : Nat) (s : twice_set) :
    ∀ (l : List Nat) (t : cuckoo_hash), (∀ n ∈ l, g n 0 = 0) →
      round c g q s l t = some (RoundEnd.finished t) := by
  intro l
  induction l with
  | nil =>
    intro t _
    rw [round]
  | cons x l ih =>
    intro t hl
    have hs : survives c g q s x = false := by
      cases h : survives c g q s x with
      | false => rfl
      | true => exact absurd (hl x (List.mem_cons_self _ _)) ((survives_iff c g q s x).1 h).1
    rw [round_cons_skip c g q s x _ t hs]
    exact ih t (fun n hn => hl n (List.mem_cons_of_mem _ hn))

theorem fill_full_round :
    ∃ t, round cfg27 gen_fill 0
        (phaseA cfg27 gen_fill 0 (List.range (HALFSIZE cfg27)) twice_set.new)
        (List.range (HALFSIZE cfg27)) (cuckoo_hash.new 0).clear = some (RoundEnd.finished t) ∧
      t.nstored = 300000 := by
  obtain ⟨t, hr, _, _, hns, _⟩ := fill_round (cuckoo_hash.new 0) 300000 (le_refl _)
  have e2 : 2 * 300000 = 600000 := by norm_num
  rw [e2] at hr
  refine ⟨t, ?_, hns⟩
  rw [round_range_split cfg27 gen_fill 0 _ 600000 (HALFSIZE cfg27)
    (by rw [cfg27_sizes.1]; norm_num), hr]
  refine round_all_skipped cfg27 gen_fill 0 _ _ t ?_
  intro n hn
  have h6 : 600000 ≤ n := (List.mem_range'_1.1 hn).1
  unfold gen_fill
  rw [if_pos rfl, if_neg (by omega)]

theorem overload_checked_after_round_witness :
    cfg27.SIZESHIFT ≤ 32 ∧
    (∀ n, n < HALFSIZE cfg27 → gen_fill n 0 < SIZE cfg27 ∧ gen_fill n 1 < SIZE cfg27) ∧
    (∃ t, round cfg27 gen_fill 0
        (phaseA cfg27 gen_fill 0 (List.range (HALFSIZE cfg27)) twice_set.new)
        (List.range 589826) (cuckoo_hash.new 0).clear = some (RoundEnd.finished t) ∧
      sweep_state cfg27 gen_fill t ∧ t.nstored = 294913 ∧
      t.nstored = occupied t ∧ t.nstored ≤ CUCKOO_SIZE) ∧
    (∃ t1, round cfg27 gen_fill 0
        (phaseA cfg27 gen_fill 0 (List.range (HALFSIZE cfg27)) twice_set.new)
        (List.range (HALFSIZE cfg27)) (cuckoo_hash.new 0).clear
          = some (RoundEnd.finished t1) ∧
      sweep_state cfg27 gen_fill t1 ∧ t1.nstored = 300000 ∧
      t1.nstored = occupied t1 ∧ CUCKOO_SIZE * 9 / 10 ≤ t1.nstored ∧ 90 ≤ t1.load ∧
      depthLoop cfg27 gen_fill 0
        (phaseA cfg27 gen_fill 0 (List.range (HALFSIZE cfg27)) twice_set.new)
        2 0 (cuckoo_hash.new 0).clear = some (PassEnd.done t1)) := by
  have hthm := overload_checked_after_round cfg27 (by decide) gen_fill gen_fill_contract
  have h0 : sweep_state cfg27 gen_fill (cuckoo_hash.new 0).clear := sweep_state.clear _
  refine ⟨by decide, gen_fill_contract, ?_, ?_⟩
  · obtain ⟨t, hr, _, _, hns, _⟩ := fill_round (cuckoo_hash.new 0) 294913 (by norm_num)
    have e2 : 2 * 294913 = 589826 := by norm_num
    rw [e2] at hr
    have hl : ∀ n ∈ List.range 589826, n < HALFSIZE cfg27 := by
      intro n hn
      have := List.mem_range.1 hn
      rw [cfg27_sizes.1]
      omega
    have ht := hthm.2.1 _ _ _ _ t h0 hl hr
    exact ⟨t, hr, ht, hns, (hthm.1 t ht).1, (hthm.1 t ht).2⟩
  · obtain ⟨t1, hr, hns⟩ := fill_full_round
    have ht1 := hthm.2.1 _ _ _ _ t1 h0 (fun n hn => List.mem_range.1 hn) hr
    have hover : CUCKOO_SIZE * 9 / 10 ≤ t1.nstored := by
      rw [hns, CUCKOO_SIZE_eq]
      norm_num
    have h3 := hthm.2.2 _ _ 1 0 _ t1 h0 hr hover
    exact ⟨t1, hr, ht1, hns, (hthm.1 t1 ht1).1, hover, h3.1, h3.2⟩

/-- C8, counterexample.  In the default build with `SIZESHIFT = 27`, under the generator
`gen_fill`, the first round of the pass of partition 0, started on a table just cleared,
has after its first 589826 nonces stored 294913 entries: `nstored` and the number of
occupied slots exceed `CUCKOO_SIZE*9/10 = 294912`.  That state is one the round over all
`HALFSIZE` nonces passes through. -/
theorem overload_within_round :
    ∃ t, round cfg27 gen_fill 0
        (phaseA cfg27 gen_fill 0 (List.range (HALFSIZE cfg27)) twice_set.new)
        (List.range 589826) (cuckoo_hash.new 0).clear = some (RoundEnd.finished t) ∧
      t.nstored = 294913 ∧ occupied t = 294913 ∧ CUCKOO_SIZE * 9 / 10 < t.nstored ∧
      round cfg27 gen_fill 0
          (phaseA cfg27 gen_fill 0 (List.range (HALFSIZE cfg27)) twice_set.new)
          (List.range (HALFSIZE cfg27)) (cuckoo_hash.new 0).clear
        = round cfg27 gen_fill 0
          (phaseA cfg27 gen_fill 0 (List.range (HALFSIZE cfg27)) twice_set.new)
          (List.range' 589826 (HALFSIZE cfg27 - 589826)) t := by
  obtain ⟨t, hr, _, hocc, hns, _⟩ := fill_round (cuckoo_hash.new 0) 294913 (by norm_num)
  have e2 : 2 * 294913 = 589826 := by norm_num
  rw [e2] at hr
  refine ⟨t, hr, hns, hocc, ?_, ?_⟩
  · rw [hns, CUCKOO_SIZE_eq]
    norm_num
  · rw [round_range_split cfg27 gen_fill 0 _ 589826 (HALFSIZE cfg27)
      (by rw [cfg27_sizes.1]; norm_num), hr]

/-! ## The overload test -/

/-- C13. The overload test of the worker is the table's `overloaded()` predicate.  For
every value of the 32-bit counter `nstored`: `load() >= 90` holds if and only if
`overloaded()` holds, that is `nstored*100 / CUCKOO_SIZE >= 90` (64-bit arithmetic,
the cast to 32 bits loses nothing) if and only if `nstored >= CUCKOO_SIZE*9/10`, with
`CUCKOO_SIZE = 5<<16 = 327680` and threshold 294912. -/
theorem load_test_is_overloaded (t : cuckoo_hash) (h : t.nstored < 2 ^ 32) :
    (90 ≤ t.load ↔ t.overloaded = true) ∧
    (90 ≤ t.nstored * 100 / CUCKOO_SIZE ↔ CUCKOO_SIZE * 9 / 10 ≤ t.nstored) ∧
    t.load = t.nstored * 100 / CUCKOO_SIZE ∧
    CUCKOO_SIZE = 327680 ∧ CUCKOO_SIZE * 9 / 10 = 294912 := by
  have hN := CUCKOO_SIZE_eq
  have hdiv : t.nstored * 100 / CUCKOO_SIZE < 2 ^ 32 := by
    rw [hN]
    have : t.nstored * 100 / 327680 ≤ t.nstored := by omega
    omega
  have hload : t.load = t.nstored * 100 / CUCKOO_SIZE := by
    unfold cuckoo_hash.load
    exact Nat.mod_eq_of_lt hdiv
  have harith : 90 ≤ t.nstored * 100 / CUCKOO_SIZE ↔ CUCKOO_SIZE * 9 / 10 ≤ t.nstored := by
    rw [hN]
    omega
  refine ⟨?_, harith, hload, hN, by rw [hN]⟩
  rw [hload, harith]
  unfold cuckoo_hash.overloaded
  rw [decide_eq_true_eq, Nat.mod_eq_of_lt (by rw [hN]; norm_num)]

theorem load_test_is_overloaded_witness :
    (⟨fun _ => 0, 294912⟩ : cuckoo_hash).nstored < 2 ^ 32 ∧
    (90 ≤ (⟨fun _ => 0, 294912⟩ : cuckoo_hash).load ↔
      (⟨fun _ => 0, 294912⟩ : cuckoo_hash).overloaded = true) ∧
    (⟨fun _ => 0, 294912⟩ : cuckoo_hash).overloaded = true :=
  ⟨by decide, (load_test_is_overloaded ⟨fun _ => 0, 294912⟩ (by decide)).1, by decide⟩

/-! ## Partitions and bitmap bounds -/

/-- C18. Partition coverage.  With at least one partition, every node value `u1` has
exactly one partition index `upart` in `[0, NUPARTS)` with `(u1 & UPART_MASK) == upart`.
Hence a nonce passes the partition filter of the worker in at most one of the passes
`upart = 0 .. nparts-1`, for any runtime partition count `nparts`, and in exactly one
pass when `nparts == NUPARTS`. -/
theorem partition_coverage (c : Config) (hP : 0 < c.NUPARTS) (u1 : Nat) :
    (∃! upart, upart < c.NUPARTS ∧ u1 &&& UPART_MASK c = upart) ∧
    (∀ nparts p1 p2, p1 < nparts → p2 < nparts →
      u1 &&& UPART_MASK c = p1 → u1 &&& UPART_MASK c = p2 → p1 = p2) ∧
    (∀ nparts, nparts = c.NUPARTS → ∃! upart, upart < nparts ∧ u1 &&& UPART_MASK c = upart) ∧
    (∀ (g : Nat → Nat → Nat) (s1 s2 : twice_set) (p1 p2 nonce : Nat),
      g nonce 0 >>> 1 = u1 → survives c g p1 s1 nonce = true →
      survives c g p2 s2 nonce = true → p1 = p2) := by
  have hlt : u1 &&& UPART_MASK c < c.NUPARTS := by
    have : u1 &&& UPART_MASK c ≤ UPART_MASK c := Nat.and_le_right
    unfold UPART_MASK at this ⊢
    omega
  have huniq : ∃! upart, upart < c.NUPARTS ∧ u1 &&& UPART_MASK c = upart :=
    ⟨u1 &&& UPART_MASK c, ⟨hlt, rfl⟩, fun y hy => hy.2.symm⟩
  refine ⟨huniq, ?_, ?_, ?_⟩
  · intro nparts p1 p2 _ _ h1 h2
    exact h1.symm.trans h2
  · intro nparts hn
    rw [hn]
    exact huniq
  · intro g s1 s2 p1 p2 nonce hu h1 h2
    have e1 := ((survives_iff c g p1 s1 nonce).1 h1).2.1
    have e2 := ((survives_iff c g p2 s2 nonce).1 h2).2.1
    exact e1.symm.trans e2

theorem partition_coverage_witness :
    0 < cfg11.NUPARTS ∧ ∃! upart, upart < cfg11.NUPARTS ∧ 17 &&& UPART_MASK cfg11 = upart :=
  ⟨by decide, (partition_coverage cfg11 (by decide) 17).1⟩

theorem part_size_eq (c : Config) (hN : c.NUPARTS = 2 ^ c.UPART_BITS)
    (hB : 16 * c.NUPARTS ≤ HALFSIZE c) :
    ∃ d, SIZE c = 2 ^ c.UPART_BITS * (32 * 2 ^ d) ∧ HALFSIZE c = 2 ^ c.UPART_BITS * (16 * 2 ^ d) ∧
      PART_SIZE c = 16 * 2 ^ d ∧ TWICE_WORDS c = 2 ^ d := by
  obtain ⟨d, hd⟩ : ∃ d, c.SIZESHIFT = c.UPART_BITS + 5 + d :=
    ⟨c.SIZESHIFT - (c.UPART_BITS + 5), by have := shift_le_of_parts c hN hB; omega⟩
  have hA : 0 < 2 ^ c.UPART_BITS := Nat.pow_pos (by norm_num)
  have hS : SIZE c = 2 ^ c.UPART_BITS * (32 * 2 ^ d) := by
    unfold SIZE
    rw [hd, Nat.pow_add, Nat.pow_add]
    ring
  have hH : HALFSIZE c = 2 ^ c.UPART_BITS * (16 * 2 ^ d) := by
    unfold HALFSIZE
    rw [hS]
    have : 2 ^ c.UPART_BITS * (32 * 2 ^ d) = 2 ^ c.UPART_BITS * (16 * 2 ^ d) * 2 := by ring
    rw [this, Nat.mul_div_cancel _ (by norm_num : 0 < 2)]
  have hP : PART_SIZE c = 16 * 2 ^ d := by
    unfold PART_SIZE
    rw [hH, hN, Nat.add_sub_assoc hA, Nat.mul_add_div hA,
      Nat.div_eq_of_lt (Nat.sub_lt hA (by norm_num)), Nat.add_zero]
  refine ⟨d, hS, hH, hP, ?_⟩
  unfold TWICE_WORDS ONCE_BITS
  rw [hP]
  omega

/-- C19. The bitmap accesses of the sweep are in bounds.  With `NUPARTS == 2^UPART_BITS`
and `HALFSIZE >= 16*NUPARTS` (`HALFSIZE` is then a power of two, at least 16), for every
endpoint value `e < SIZE` the partition-local index `(e >> 1) >> UPART_BITS` is below
`PART_SIZE` and its word index is below `TWICE_WORDS = 2*PART_SIZE/32`; so the index of
every `nonleaf->set` of Phase A and every `nonleaf->test` of Phase B, computed from an
endpoint the generator returns, lies inside the allocated array. -/
theorem bitmap_accesses_in_bounds (c : Config) (hN : c.NUPARTS = 2 ^ c.UPART_BITS)
    (hB : 16 * c.NUPARTS ≤ HALFSIZE c) :
    (∃ k, HALFSIZE c = 2 ^ k ∧ 4 ≤ k) ∧
    TWICE_WORDS c = 2 * PART_SIZE c / 32 ∧
    (∀ e, e < SIZE c →
      (e >>> 1) >>> c.UPART_BITS < PART_SIZE c ∧
      ((e >>> 1) >>> c.UPART_BITS) / 16 < TWICE_WORDS c) ∧
    (∀ (g : Nat → Nat → Nat) (q nonce x : Nat), g nonce 0 < SIZE c →
      marks c g q nonce = some x → x < PART_SIZE c ∧ x / 16 < TWICE_WORDS c) ∧
    (∀ (g : Nat → Nat → Nat) (nonce : Nat), g nonce 0 < SIZE c →
      (g nonce 0 >>> 1) >>> c.UPART_BITS < PART_SIZE c ∧
      ((g nonce 0 >>> 1) >>> c.UPART_BITS) / 16 < TWICE_WORDS c) := by
  obtain ⟨d, hS, hH, hP, hT⟩ := part_size_eq c hN hB
  have hA : 0 < 2 ^ c.UPART_BITS := Nat.pow_pos (by norm_num)
  have main : ∀ e, e < SIZE c →
      (e >>> 1) >>> c.UPART_BITS < PART_SIZE c ∧
      ((e >>> 1) >>> c.UPART_BITS) / 16 < TWICE_WORDS c := by
    intro e he
    refine ⟨?_, mark_in_bounds c hN hB e he⟩
    rw [hP, Nat.shiftRight_eq_div_pow, Nat.shiftRight_eq_div_pow, Nat.pow_one,
      Nat.div_lt_iff_lt_mul hA, Nat.div_lt_iff_lt_mul (by norm_num)]
    rw [hS] at he
    calc e < 2 ^ c.UPART_BITS * (32 * 2 ^ d) := he
      _ = 16 * 2 ^ d * 2 ^ c.UPART_BITS * 2 := by ring
  refine ⟨⟨c.UPART_BITS + 4 + d, ?_, by omega⟩, rfl, main, ?_, fun g nonce h => main _ h⟩
  · rw [hH, Nat.pow_add, Nat.pow_add]
    ring
  · intro g q nonce x hg hm
    rw [marks_eq_some] at hm
    rw [← hm.2.2]
    exact main _ hg

theorem bitmap_accesses_in_bounds_witness :
    cfg11.NUPARTS = 2 ^ cfg11.UPART_BITS ∧ 16 * cfg11.NUPARTS ≤ HALFSIZE cfg11 ∧
    2047 < SIZE cfg11 ∧ (2047 >>> 1) >>> cfg11.UPART_BITS < PART_SIZE cfg11 ∧
    ((2047 >>> 1) >>> cfg11.UPART_BITS) / 16 < TWICE_WORDS cfg11 :=
  ⟨by decide, by decide, by decide,
    ((bitmap_accesses_in_bounds cfg11 (by decide) (by decide)).2.2.1 2047 (by decide)).1,
    ((bitmap_accesses_in_bounds cfg11 (by decide) (by decide)).2.2.1 2047 (by decide)).2⟩

/-! ## The counter invariant -/

/-- C16. Counter invariant of the table: `nstored` equals the number of non-zero slots.
It holds after `clear()`; it is preserved by every returning `set(u, v)` whose encoded
entry `(u << SIZESHIFT | v)` is non-zero; in a build with 32-bit nodes the entry of every
non-zero key is non-zero, so every table state the sweep reaches from `clear()` satisfies
it; and under the invariant `load()` is the true occupancy percentage. -/
theorem nstored_counts_occupied (c : Config) (hS : c.SIZESHIFT ≤ 32) :
    (∀ t0 : cuckoo_hash, t0.clear.nstored = occupied t0.clear) ∧
    (∀ t u v t1, t.nstored = occupied t → cuckoo_hash.entry c u v ≠ 0 →
      t.set c u v = some t1 → t1.nstored = occupied t1) ∧
    (∀ u v, u ≠ 0 → u < 2 ^ 32 → cuckoo_hash.entry c u v ≠ 0) ∧
    (∀ (g : Nat → Nat → Nat), (∀ n, n < HALFSIZE c → g n 0 < SIZE c ∧ g n 1 < SIZE c) →
      ∀ t, sweep_state c g t → t.nstored = occupied t) ∧
    (∀ t : cuckoo_hash, t.nstored = occupied t → t.load = occupied t * 100 / CUCKOO_SIZE) := by
  have hN : CUCKOO_SIZE < 2 ^ 32 - 1 := by decide
  refine ⟨?_, ?_, ?_, ?_, ?_⟩
  · intro t0
    rw [occupied_clear]
    rfl
  · intro t u v t1 hinv he hset
    have hle := occupied_le t
    obtain ⟨q, hq, _, hc, hn⟩ := set_effect c t t1 u v (by omega) hset
    rw [hn, occupied_update t t1 q _ hq he hc, hinv]
  · intro u v hu0 hu
    exact entry_ne_zero_any c hS u v hu hu0
  · intro g hg t ht
    exact reachable_nstored c hS t (sweep_state_reachable c hS g hg t ht)
  · intro t hinv
    have hle := occupied_le t
    unfold cuckoo_hash.load
    rw [hinv]
    apply Nat.mod_eq_of_lt
    rw [CUCKOO_SIZE_eq] at hle ⊢
    omega

theorem nstored_counts_occupied_witness :
    cfg11.SIZESHIFT ≤ 32 ∧ cuckoo_hash.entry cfg11 6 3 ≠ 0 ∧
    (cuckoo_hash.new 7).clear.nstored = occupied (cuckoo_hash.new 7).clear ∧
    (∀ t1, (cuckoo_hash.new 7).clear.set cfg11 6 3 = some t1 → t1.nstored = occupied t1) :=
  ⟨by decide, by decide, (nstored_counts_occupied cfg11 (by decide)).1 _,
    fun t1 h => (nstored_counts_occupied cfg11 (by decide)).2.1 _ 6 3 t1
      ((nstored_counts_occupied cfg11 (by decide)).1 _) (by decide) h⟩

/-! ## The state at the start of a partition pass -/

theorem partLoop_pass_start (c : Config) (g : Nat → Nat → Nat) (mb : Bool) (s0 : twice_set)
    (t0 : cuckoo_hash) (upart : Nat) (s : twice_set) (t : cuckoo_hash)
    (h : pass_start c g mb s0 t0 upart s t) :
    ∀ k, partLoop c g mb (upart + k) 0 s0 t0 = partLoop c g mb k upart s t := by
  induction h with
  | first => intro k; rw [Nat.zero_add]
  | next upart s t t1 _ hd ih =>
    intro k
    have e : upart + 1 + k = upart + (k + 1) := by omega
    rw [e, ih (k + 1), partLoop, hd]

theorem test_of_zero_word (s : twice_set) (u : Nat) (h : s.bits (u / 16) = 0) :
    s.test u = 0 := by
  unfold twice_set.test
  rw [h]
  simp

/-- C12. No stale state between partitions.  In the single-threaded sweep, at the start
of every partition pass after the first, every word of the bitmap array is zero (so every
node of the array tests as unseen) and every slot of the table is empty with
`nstored == 0`, whatever the previous pass did: the depth loop of the previous pass may
have run all its rounds or have been left by the overload check.  The states in question
are the ones the partition loop of the worker really continues from. -/
theorem no_stale_state (c : Config) (g : Nat → Nat → Nat) (ns0 : Nat) (mb : Bool)
    (upart : Nat) (s : twice_set) (t : cuckoo_hash)
    (h : pass_start c g mb twice_set.new (cuckoo_hash.new ns0) (upart + 1) s t) :
    (∀ i, i < TWICE_WORDS c → s.bits i = 0) ∧
    (∀ u, u / 16 < TWICE_WORDS c → s.test u = 0) ∧
    (∀ i, i < CUCKOO_SIZE → t.cuckoo i = 0) ∧ t.nstored = 0 ∧
    (∀ k, worker c g ns0 (upart + 1 + k) mb = partLoop c g mb k (upart + 1) s t) := by
  have hlink := partLoop_pass_start c g mb _ _ _ s t h
  cases h with
  | next _ s1 t1 t2 _ _ =>
    have hbits : ∀ i, i < TWICE_WORDS c →
        ((phaseA c g upart (List.range (HALFSIZE c)) s1).reset c).bits i = 0 := by
      intro i hi
      unfold twice_set.reset
      simp only [hi, if_true]
    exact ⟨hbits, fun u hu => test_of_zero_word _ u (hbits _ hu), zero_slots_clear t2, rfl,
      hlink⟩

/-- The overload check leaves the depth loop through the same exit as the last round:
a round that ends with `load() >= 90` ends the pass without a detection. -/
theorem depthLoop_overload_break (c : Config) (g : Nat → Nat → Nat) (q : Nat) (s : twice_set)
    (k d : Nat) (t t1 : cuckoo_hash)
    (hr : round c g q s (List.range (HALFSIZE c)) t = some (RoundEnd.finished t1))
    (hl : 90 ≤ t1.load) : depthLoop c g q s (k + 1) d t = some (PassEnd.done t1) := by
  rw [depthLoop, hr]
  dsimp only
  rw [if_pos hl]

theorem no_stale_state_witness :
    ∃ s t, pass_start cfg11 gen_pair false twice_set.new (cuckoo_hash.new 300000) 1 s t ∧
      (∀ i, i < CUCKOO_SIZE → t.cuckoo i = 0) ∧ t.nstored = 0 ∧
      (∀ i, i < TWICE_WORDS cfg11 → s.bits i = 0) :=
  Exists.elim
    (pass_no_detect cfg11 (by decide) (by decide) gen_pair gen_pair_contract 17 20
      gen_pair_one_cycle 0 (by decide) twice_set.new (fun _ => rfl) 300000 (by decide)
      (cuckoo_hash.new 300000) (good_table_zero cfg11 300000 _ (zero_slots_new 300000)
        (le_refl _)) false)
    (fun t1 h1 =>
      ⟨_, _, pass_start.next 0 _ _ t1 pass_start.first h1,
        (no_stale_state cfg11 gen_pair 300000 false 0 _ _
          (pass_start.next 0 _ _ t1 pass_start.first h1)).2.2.1,
        (no_stale_state cfg11 gen_pair 300000 false 0 _ _
          (pass_start.next 0 _ _ t1 pass_start.first h1)).2.2.2.1,
        (no_stale_state cfg11 gen_pair 300000 false 0 _ _
          (pass_start.next 0 _ _ t1 pass_start.first h1)).1⟩)

/-! ## The order of two inserts -/

theorem reachable_nodes_reachable (c : Config) (hS : c.SIZESHIFT ≤ 32) (t : cuckoo_hash)
    (h : reachable_nodes c t) : reachable c t := by
  induction h with
  | clear t0 => exact reachable.clear t0
  | set t t1 u v _ hu0 hu hv hset ih =>
    exact reachable.set t t1 u v ih hu0 (lt_of_lt_of_le hu (SIZE_le c hS))
      (lt_of_lt_of_le hv (SIZE_le c hS)) hset

theorem reachable_nodes_inv (c : Config) (hS : c.SIZESHIFT ≤ 32) (t : cuckoo_hash)
    (h : reachable_nodes c t) : occupied t < CUCKOO_SIZE → table_inv c t := by
  induction h with
  | clear t0 => exact fun _ => table_inv_clear c t0
  | set t t1 u v hr hu0 hu hv hset ih =>
    intro hocc1
    have hN : CUCKOO_SIZE < 2 ^ 32 - 1 := by decide
    have hu32 : u < 2 ^ 32 := lt_of_lt_of_le hu (SIZE_le c hS)
    have hns := reachable_nstored c hS t (reachable_nodes_reachable c hS t hr)
    have hle := occupied_le t
    obtain ⟨q, hq, _, hc, _⟩ := set_effect c t t1 u v (by omega) hset
    have hocc := occupied_update t t1 q _ hq (entry_ne_zero_any c hS u v hu32 (by omega)) hc
    have hocc0 : occupied t < CUCKOO_SIZE := by
      rw [hocc] at hocc1
      split at hocc1 <;> omega
    obtain ⟨t2, hset2, hinv2, _⟩ := set_spec c hS t (ih hocc0)
      (has_empty_of_occupied_lt t hocc0) u v (by omega) hu32 hv (by omega)
    rw [hset] at hset2
    cases hset2
    exact hinv2

theorem present_after_set (c : Config) (hS : c.SIZESHIFT ≤ 32) (t t1 : cuckoo_hash)
    (hemp : has_empty t) (u v : Nat) (hu0 : u ≠ 0) (hu : u < 2 ^ 32) (hv : v < SIZE c)
    (hnw : t.nstored + 1 < 2 ^ 32) (hset : t.set c u v = some t1) (w : Nat) :
    present c t1 w ↔ (w = u ∨ present c t w) := by
  obtain ⟨k, hk, hfs⟩ := first_stop_of_has_empty c t u hemp
  obtain ⟨t2, hset2, hc, _, _, _⟩ := set_get_of_first_stop c hS t u v k hu0 hu hv hk hfs
    (Or.inr (by rw [Nat.mod_eq_of_lt hnw]; omega))
  rw [hset] at hset2
  cases hset2
  have hek := entry_key c hS u v hu hv
  have he0 := entry_ne_zero c hS u v hu hv hu0
  constructor
  · rintro ⟨i, hi, hne, hkey⟩
    by_cases hiq : i = probe_pos u k
    · subst hiq
      rw [hc, Function.update_same] at hkey
      exact Or.inl (hkey.symm.trans hek)
    · rw [hc, Function.update_noteq hiq] at hne hkey
      exact Or.inr ⟨i, hi, hne, hkey⟩
  · have hself : present c t1 u :=
      ⟨probe_pos u k, probe_pos_lt u k, by rw [hc, Function.update_same]; exact he0,
        by rw [hc, Function.update_same]; exact hek⟩
    rintro (e | ⟨i, hi, hne, hkey⟩)
    · rw [e]; exact hself
    · by_cases hiq : i = probe_pos u k
      · subst hiq
        have := key_of_first_stop c hS t u k hu hfs hne
        rw [← hkey, this]
        exact hself
      · exact ⟨i, hi, by rw [hc, Function.update_noteq hiq]; exact hne,
          by rw [hc, Function.update_noteq hiq]; exact hkey⟩

/-- Two inserts of distinct keys, one order: the lookups, the counter and the occupancy
afterwards (`d1`, `d2` tell whether the first and the second key were new). -/
theorem two_sets (c : Config) (hS : c.SIZESHIFT ≤ 32) (t : cuckoo_hash)
    (hinv : table_inv c t) (hns : t.nstored = occupied t)
    (hroom : occupied t + 2 < CUCKOO_SIZE) (u1 v1 u2 v2 : Nat) (h1 : 0 < u1) (h1S : u1 < SIZE c)
    (hv1 : v1 < SIZE c) (h2 : 0 < u2) (h2S : u2 < SIZE c) (hv2 : v2 < SIZE c)
    (hne : u1 ≠ u2) :
    ∃ t12 d1 d2, set_all c t [(u1, v1), (u2, v2)] = some t12 ∧
      (∀ w, w < 2 ^ 32 → t12.get c w
        = if w = u2 then some v2 else if w = u1 then some v1 else t.get c w) ∧
      t12.nstored = occupied t12 ∧ occupied t12 = occupied t + d1 + d2 ∧
      d1 ≤ 1 ∧ d2 ≤ 1 ∧ (d1 = 0 ↔ present c t u1) ∧ (d2 = 0 ↔ present c t u2) := by
  have hN : CUCKOO_SIZE < 2 ^ 32 - 1 := by decide
  have hu1 : u1 < 2 ^ 32 := lt_of_lt_of_le h1S (SIZE_le c hS)
  have hu2 : u2 < 2 ^ 32 := lt_of_lt_of_le h2S (SIZE_le c hS)
  have hemp := has_empty_of_occupied_lt t (by omega)
  obtain ⟨ta, hsa, hinva, hgeta, hfra, _, hca⟩ :=
    set_spec c hS t hinv hemp u1 v1 (by omega) hu1 hv1 (by omega)
  have hpa := present_after_set c hS t ta hemp u1 v1 (by omega) hu1 hv1 (by omega) hsa
  obtain ⟨d1, hd1, hd1p, hocca, hnsa⟩ : ∃ d1, d1 ≤ 1 ∧ (d1 = 0 ↔ present c t u1) ∧
      occupied ta = occupied t + d1 ∧ ta.nstored = occupied ta := by
    rcases hca with ⟨hp, ho, hn⟩ | ⟨hp, ho, hn⟩
    · exact ⟨0, by omega, ⟨fun _ => hp, fun _ => rfl⟩, by omega, by omega⟩
    · exact ⟨1, by omega, ⟨fun h => by omega, fun h => absurd h hp⟩, by omega, by omega⟩
  have hempa := has_empty_of_occupied_lt ta (by omega)
  obtain ⟨tb, hsb, _, hgetb, hfrb, _, hcb⟩ :=
    set_spec c hS ta hinva hempa u2 v2 (by omega) hu2 hv2 (by omega)
  have hp2 : present c ta u2 ↔ present c t u2 := by
    rw [hpa]
    constructor
    · rintro (e | h)
      · exact absurd e.symm hne
      · exact h
    · exact Or.inr
  obtain ⟨d2, hd2, hd2p, hoccb, hnsb⟩ : ∃ d2, d2 ≤ 1 ∧ (d2 = 0 ↔ present c t u2) ∧
      occupied tb = occupied ta + d2 ∧ tb.nstored = occupied tb := by
    rcases hcb with ⟨hp, ho, hn⟩ | ⟨hp, ho, hn⟩
    · exact ⟨0, by omega, ⟨fun _ => hp2.1 hp, fun _ => rfl⟩, by omega, by omega⟩
    · exact ⟨1, by omega, ⟨fun h => by omega, fun h => absurd (hp2.2 h) hp⟩, by omega,
        by omega⟩
  have hempb := has_empty_of_occupied_lt tb (by omega)
  refine ⟨tb, d1, d2, ?_, ?_, hnsb, by omega, hd1, hd2, hd1p, hd2p⟩
  · rw [set_all, hsa]
    dsimp only
    rw [set_all, hsb]
    rfl
  · intro w hw
    by_cases hw2 : w = u2
    · rw [if_pos hw2, hw2, hgetb]
    · rw [if_neg hw2, hfrb hempb w hw hw2]
      by_cases hw1 : w = u1
      · rw [if_pos hw1, hw1, hgeta]
      · rw [if_neg hw1, hfra hempa w hw hw1]

/-- C11, as amended.  Order-insensitivity of the table holds for what a lookup can see.
In a build with 32-bit nodes, for every table state reachable from `clear()` by inserts
of nodes that leaves more than two slots empty, and two inserts `set(u1, v1)`,
`set(u2, v2)` with distinct non-zero keys (nodes below `SIZE`): both orders return, and
the two final tables answer every lookup alike and have the same `nstored` and the same
number of occupied slots.  (The slots themselves may differ, and for equal keys the later
insert wins.) -/
theorem table_order_insensitive_lookups (c : Config) (hS : c.SIZESHIFT ≤ 32)
    (t : cuckoo_hash) (hr : reachable_nodes c t) (hroom : occupied t + 2 < CUCKOO_SIZE)
    (u1 v1 u2 v2 : Nat) (h1 : 0 < u1) (h1S : u1 < SIZE c) (hv1 : v1 < SIZE c) (h2 : 0 < u2)
    (h2S : u2 < SIZE c) (hv2 : v2 < SIZE c) (hne : u1 ≠ u2) :
    ∃ t12 t21, set_all c t [(u1, v1), (u2, v2)] = some t12 ∧
      set_all c t [(u2, v2), (u1, v1)] = some t21 ∧
      (∀ w, w < 2 ^ 32 → t12.get c w = t21.get c w) ∧
      t12.nstored = t21.nstored ∧ occupied t12 = occupied t21 := by
  have hinv := reachable_nodes_inv c hS t hr (by omega)
  have hns := reachable_nstored c hS t (reachable_nodes_reachable c hS t hr)
  obtain ⟨t12, d1, d2, hs12, hg12, hn12, ho12, hd1, hd2, hp1, hp2⟩ :=
    two_sets c hS t hinv hns hroom u1 v1 u2 v2 h1 h1S hv1 h2 h2S hv2 hne
  obtain ⟨t21, e2, e1, hs21, hg21, hn21, ho21, he2, he1, hq2, hq1⟩ :=
    two_sets c hS t hinv hns hroom u2 v2 u1 v1 h2 h2S hv2 h1 h1S hv1 (Ne.symm hne)
  have hd : d1 = e1 ∧ d2 = e2 := by
    constructor
    · by_cases hp : present c t u1
      · rw [hp1.2 hp, hq1.2 hp]
      · have a1 : d1 ≠ 0 := fun h => hp (hp1.1 h)
        have a2 : e1 ≠ 0 := fun h => hp (hq1.1 h)
        omega
    · by_cases hp : present c t u2
      · rw [hp2.2 hp, hq2.2 hp]
      · have a1 : d2 ≠ 0 := fun h => hp (hp2.1 h)
        have a2 : e2 ≠ 0 := fun h => hp (hq2.1 h)
        omega
  have hocc : occupied t12 = occupied t21 := by omega
  refine ⟨t12, t21, hs12, hs21, ?_, by rw [hn12, hn21, hocc], hocc⟩
  intro w hw
  rw [hg12 w hw, hg21 w hw]
  by_cases hw2 : w = u2
  · rw [if_pos hw2, if_neg (fun e => hne (e.symm.trans hw2)), if_pos hw2]
  · rw [if_neg hw2, if_neg hw2]

theorem table_order_insensitive_lookups_witness :
    cfg20.SIZESHIFT ≤ 32 ∧ reachable_nodes cfg20 (cuckoo_hash.new 0).clear ∧
    occupied (cuckoo_hash.new 0).clear + 2 < CUCKOO_SIZE ∧ (2 : Nat) ≠ 327682 ∧
    ∃ t12 t21, set_all cfg20 (cuckoo_hash.new 0).clear [(2, 3), (327682, 5)] = some t12 ∧
      set_all cfg20 (cuckoo_hash.new 0).clear [(327682, 5), (2, 3)] = some t21 ∧
      (∀ w, w < 2 ^ 32 → t12.get cfg20 w = t21.get cfg20 w) ∧
      t12.nstored = t21.nstored ∧ occupied t12 = occupied t21 :=
  ⟨by decide, reachable_nodes.clear _, by rw [occupied_clear]; decide, by decide,
    table_order_insensitive_lookups cfg20 (by decide) _ (reachable_nodes.clear _)
      (by rw [occupied_clear]; decide) 2 3 327682 5 (by decide) (by decide) (by decide)
      (by decide) (by decide) (by decide) (by decide)⟩

/-- C11, counterexample.  In a build with `SIZESHIFT = 20`, on a cleared table: the keys
2 and 327682 have the same home slot 2, and the slot holds the key inserted first, so the
two orders of `set(2, 3)` and `set(327682, 5)` leave different tables; and for one key,
`set(6, 3)` then `set(6, 5)` leaves the value 5 while the opposite order leaves 3. -/
theorem table_order_matters :
    (set_all cfg20 (cuckoo_hash.new 0).clear [(2, 3), (327682, 5)]).map
        (fun t => t.cuckoo 2) = some (cuckoo_hash.entry cfg20 2 3) ∧
    (set_all cfg20 (cuckoo_hash.new 0).clear [(327682, 5), (2, 3)]).map
        (fun t => t.cuckoo 2) = some (cuckoo_hash.entry cfg20 327682 5) ∧
    set_all cfg20 (cuckoo_hash.new 0).clear [(2, 3), (327682, 5)]
      ≠ set_all cfg20 (cuckoo_hash.new 0).clear [(327682, 5), (2, 3)] ∧
    (set_all cfg20 (cuckoo_hash.new 0).clear [(6, 3), (6, 5)]).bind
        (fun t => t.get cfg20 6) = some 5 ∧
    (set_all cfg20 (cuckoo_hash.new 0).clear [(6, 5), (6, 3)]).bind
        (fun t => t.get cfg20 6) = some 3 := by
  have h1 : (set_all cfg20 (cuckoo_hash.new 0).clear [(2, 3), (327682, 5)]).map
      (fun t => t.cuckoo 2) = some (cuckoo_hash.entry cfg20 2 3) := by decide
  have h2 : (set_all cfg20 (cuckoo_hash.new 0).clear [(327682, 5), (2, 3)]).map
      (fun t => t.cuckoo 2) = some (cuckoo_hash.entry cfg20 327682 5) := by decide
  refine ⟨h1, h2, ?_, by decide, by decide⟩
  intro e
  rw [e, h2] at h1
  revert h1
  decide

/-! ## The counter as a truth value, and the counter left by the constructor -/

/-- C14. `set` can miss the first empty slot.  On the freshly constructed table of the
build `cfg11` whose uninitialised counter holds `0xffffffff` (every slot empty), the call
`set(6, 3)` finds the home slot 6 empty, `++nstored` wraps to 0 and makes the test false,
and the entry is written into slot 7 instead; slot 6 stays empty, and `operator[](6)`
stops there and returns 0. -/
theorem set_skips_empty_slot :
    has_empty (cuckoo_hash.new 4294967295) ∧
    (cuckoo_hash.new 4294967295).cuckoo (6 % CUCKOO_SIZE) = 0 ∧
    ((cuckoo_hash.new 4294967295).set cfg11 6 3).map
        (fun t => (t.cuckoo 6, t.cuckoo 7, t.nstored))
      = some (0, cuckoo_hash.entry cfg11 6 3, 1) ∧
    ((cuckoo_hash.new 4294967295).set cfg11 6 3).bind (fun t => t.get cfg11 6) = some 0 :=
  ⟨⟨0, by decide, rfl⟩, rfl, by decide, by decide⟩

theorem full_but_one_no_stop (j : Nat) (h1 : 1 ≤ j) (h2 : j < CUCKOO_SIZE) :
    ¬ stops cfg20 ⟨full_but_one.cuckoo, 0⟩ 5 (probe_pos 5 j) := by
  have hS : cfg20.SIZESHIFT ≤ 32 := by decide
  have hN := CUCKOO_SIZE_eq
  have hlt := probe_pos_lt 5 j
  have hne : probe_pos 5 j ≠ 5 := by
    intro e
    have := probe_pos_inj 5 j 0 h2 CUCKOO_SIZE_pos (by rw [e]; rfl)
    omega
  have h32 : probe_pos 5 j + CUCKOO_SIZE < 2 ^ 32 := by omega
  have hv : 1 < SIZE cfg20 := by decide
  rw [stops_iff cfg20 hS _ 5 _ (by norm_num)]
  show ¬ (full_but_one.cuckoo (probe_pos 5 j) = 0 ∨
    full_but_one.cuckoo (probe_pos 5 j) >>> cfg20.SIZESHIFT = 5)
  unfold full_but_one
  simp only [if_neg hne]
  rw [entry_key cfg20 hS _ 1 h32 hv]
  push_neg
  exact ⟨entry_ne_zero cfg20 hS _ 1 h32 hv (by omega), by omega⟩

/-- C15. A probe of `set` can inspect more than `CUCKOO_SIZE` slots.  On the table
`full_but_one` of the build `cfg20` (one empty slot, counter `0xffffffff`) the call
`set(5, 1)` meets the empty home slot 5 first, `++nstored` wraps to 0 and the slot is
passed over; the loop then inspects the other `CUCKOO_SIZE - 1` slots and returns only at
its second visit of slot 5: after `CUCKOO_SIZE` slots it has not returned, after
`CUCKOO_SIZE + 1` it has. -/
theorem set_probe_exceeds_table :
    has_empty full_but_one ∧
    cuckoo_hash.setLoop cfg20 5 1 CUCKOO_SIZE (5 % CUCKOO_SIZE) full_but_one = none ∧
    (∃ t1, cuckoo_hash.setLoop cfg20 5 1 (CUCKOO_SIZE + 1) (5 % CUCKOO_SIZE) full_but_one
        = some t1 ∧ t1.cuckoo 5 = cuckoo_hash.entry cfg20 5 1 ∧ t1.nstored = 1) ∧
    (∃ t1, full_but_one.set cfg20 5 1 = some t1) := by
  have h5 : full_but_one.cuckoo (probe_pos 5 0) = 0 := rfl
  have hw : (full_but_one.nstored + 1) % 2 ^ 32 = 0 := by decide
  have hk : ¬ (0 = 5 &&& KEYMASK cfg20) := by decide
  have hemp : has_empty full_but_one := ⟨5, by decide, rfl⟩
  have hskip : ∀ fuel, cuckoo_hash.setLoop cfg20 5 1 (CUCKOO_SIZE + fuel) (5 % CUCKOO_SIZE)
      full_but_one
      = cuckoo_hash.setLoop cfg20 5 1 fuel (probe_pos 5 CUCKOO_SIZE)
          ⟨full_but_one.cuckoo, 0⟩ := by
    intro fuel
    obtain ⟨f, hf⟩ : ∃ f, CUCKOO_SIZE = f + 1 := ⟨CUCKOO_SIZE - 1, by decide⟩
    have e1 : CUCKOO_SIZE + fuel = (f + fuel) + 1 := by omega
    rw [← probe_pos_zero, e1, setLoop_wrap cfg20 _ 5 1 _ _ h5 hw, if_neg hk,
      next_slot_probe_pos,
      setLoop_skip cfg20 ⟨full_but_one.cuckoo, 0⟩ 5 1 f (0 + 1) fuel
        (fun j h1 h2 => full_but_one_no_stop j (by omega) (by omega))]
    congr 2
    omega
  refine ⟨hemp, ?_, ?_, ?_⟩
  · have := hskip 0
    rw [Nat.add_zero] at this
    rw [this]
    rfl
  · have hpos : probe_pos 5 CUCKOO_SIZE = 5 := by decide
    rw [hskip 1, hpos, setLoop_stop cfg20 _ 5 1 5 0 (Or.inl rfl) (Or.inr (by decide))]
    exact ⟨_, rfl, by simp, rfl⟩
  · obtain ⟨i, hi, h0⟩ := hemp
    obtain ⟨t1, _, _, hset, _⟩ := set_total cfg20 full_but_one 5 1 ⟨i, hi, Or.inl h0⟩
    exact ⟨t1, hset⟩

/-- C17. The constructor leaves `nstored` uninitialised.  The slots of a freshly
constructed table are zero, but its counter holds whatever the memory held: with the
value 300000 there, `load()` is 91 and `overloaded()` is true on an empty table.  The
first pass of the sweep inherits it: under the generator `gen_late` the sweep over
partition 0 finds the 2-cycle of nonces 3 and 7 in its second round when the counter
starts at 0, and abandons the partition after the first round, ending without a solution,
when the counter starts at 300000. -/
theorem constructor_leaves_nstored :
    (∀ ns0 i, (cuckoo_hash.new ns0).cuckoo i = 0) ∧
    (∀ ns0, (cuckoo_hash.new ns0).nstored = ns0) ∧
    (cuckoo_hash.new 300000).load = 91 ∧ (cuckoo_hash.new 300000).overloaded = true ∧
    (∀ t : cuckoo_hash, t.clear.nstored = 0) ∧
    worker cfg11 gen_late 0 1 false = some (Outcome.found 1 3 [3, 7] 2) ∧
    worker cfg11 gen_late 300000 1 false = some Outcome.no_solution := by
  refine ⟨fun _ _ => rfl, fun _ => rfl, by decide, by decide, fun _ => rfl, ?_, ?_⟩
  · set_option maxRecDepth 1000000 in decide
  · set_option maxRecDepth 1000000 in decide

end Momentomatum
